import Mathlib

/-! # t++ terminal protocol: OSC parser, frame codec and sequence layer

A shallow embedding of `ui-terminal/osc_sequence.cpp`, `tpp-lib/sequence.h` and
`tpp-lib/pty.h`.

Conventions of the embedding:

* a `char` is a `UInt8`, a byte range `[p, end)` is the list of its bytes, and a read cursor
  `p` into a buffer is the list of the bytes from `p` to the buffer end; the number of bytes a
  cursor advanced is the difference of the lengths;
* `size_t` values are natural numbers, with the 64-bit range made explicit where it matters;
* a C++ exception is the `error` alternative of `Except`.
-/

namespace Tpp

/-- A `char` of the C++ source. -/
abbrev Byte := UInt8

/-- A byte range, also the contents of a `std::string`. -/
abbrev Bytes := List UInt8

/-! ## Character helpers (`helpers/char.h`) -/

namespace Char

/-- Modelled from the spec: `helpers/char.h` is absent; `BEL` is the byte `0x07`. -/
def BEL : Byte := 0x07

/-- Modelled from the spec: `helpers/char.h` is absent; `ESC` is the byte `0x1B`. -/
def ESC : Byte := 0x1B

/-- The quote byte of the encoded byte buffer, the backtick (0x60). -/
def BACKTICK : Byte := 0x60

/-- The field separator `;`. -/
def SEMICOLON : Byte := 0x3B

/-- The backslash closing the string terminator `ESC \`. -/
def BACKSLASH : Byte := 0x5C

end Char

/-- Modelled from the spec: `helpers/char.h` is absent; an ASCII decimal digit is one of the
bytes `'0'` to `'9'`. -/
def IsDecimalDigit (c : Byte) : Bool := 0x30 ≤ c.toNat && c.toNat ≤ 0x39

/-- Modelled from the spec: `helpers/char.h` is absent; the value of an ASCII decimal digit. -/
def DecCharToNumber (c : Byte) : Nat := c.toNat - 0x30

/-! ## OSC sequences (`ui-terminal/osc_sequence.cpp`) -/

/-- Wrap-around of an integer into the range of a 32-bit signed `int`. -/
def wrapInt32 (v : Int) : Int := (v + 2 ^ 31) % 2 ^ 32 - 2 ^ 31

/-- The fields of `ui::OSCSequence`. -/
structure OSCSequence where
  num_ : Int
  values_ : List Bytes
  deriving DecidableEq, Repr

namespace OSCSequence

/-- Modelled from the spec: `osc_sequence.h` is absent; the number `-1` stands for "no number
was present". -/
def INVALID : Int := -1

/-- Modelled from the spec: `osc_sequence.h` is absent; the sentinel for partial input, a
negative number other than `INVALID`. -/
def INCOMPLETE : Int := -2

/-- The tail of the `do ... while` loop of `Parse` that accumulates the number: called with
the cursor after a consumed digit, it consumes the digits that follow and returns the
accumulated `int` and the cursor. -/
def parseDigits : Int → Bytes → Int × Bytes
  | arg, [] => (arg, [])
  | arg, c :: rest =>
    if IsDecimalDigit c then parseDigits (wrapInt32 (arg * 10 + DecCharToNumber c)) rest
    else (arg, c :: rest)

/-- The number part of `Parse` (lines 15-25): `num` starts as `INVALID`; a run of digits
followed by `;` sets it and moves the cursor past the `;`, a run of digits not followed by
`;` is skipped and leaves `INVALID`. Returns `num_` and the cursor `x`. -/
def parseNumber : Bytes → Int × Bytes
  | [] => (INVALID, [])
  | c :: rest =>
    if IsDecimalDigit c then
      match parseDigits (wrapInt32 (0 * 10 + DecCharToNumber c)) rest with
      | (arg, d :: rest') => if d = Char.SEMICOLON then (arg, rest') else (INVALID, d :: rest')
      | (_, []) => (INVALID, [])
    else (INVALID, c :: rest)

/-- The test `*x == Char::ESC && x + 1 != end && x[1] == '\\'` of line 40, for the byte `c`
at the cursor and the bytes `rest` after it: when it holds, the cursor `x + 2`. -/
def atST (c : Byte) (rest : Bytes) : Option Bytes :=
  if c = Char.ESC then
    match rest with
    | d :: rest' => if d = Char.BACKSLASH then some rest' else none
    | [] => none
  else none

/-- The `while (true)` loop of `Parse` (lines 28-57). `cur` holds the bytes from `valueStart`
to `x`, `values` is `result.values_`. Returns the values pushed so far and, when a terminator
was found, the cursor after it; `none` is the `x == end` exit. -/
def parseValues : Bytes → List Bytes → Bytes → List Bytes × Option Bytes
  | _, values, [] => (values, none)
  | cur, values, c :: rest =>
    if c = Char.BEL then (values ++ [cur], some rest)
    else
      match atST c rest with
      | some rest' => (values ++ [cur], some rest')
      | none =>
        if c = Char.SEMICOLON then parseValues [] (values ++ [cur]) rest
        else parseValues (cur ++ [c]) values rest

/-- The function `OSCSequence::Parse(start, end)`. The argument is the buffer `[start, end)`,
which begins with the two bytes `ESC ]`; the result is the returned object and the value of
`start` on return. -/
def Parse (buf : Bytes) : OSCSequence × Bytes :=
  match buf.drop 2 with
  | [] => ({ num_ := INCOMPLETE, values_ := [] }, buf)
  | x =>
    match parseNumber x with
    | (num, x') =>
      match parseValues [] [] x' with
      | (values, none) => ({ num_ := INCOMPLETE, values_ := values }, buf)
      | (values, some x'') => ({ num_ := num, values_ := values }, x'')


/-- The decimal value of a run of ASCII digits (most significant digit first). -/
def decimalValue (d : Bytes) : Nat := d.foldl (fun acc c => acc * 10 + DecCharToNumber c) 0

/-- The bytes `v0 ; v1 ; ... ; vk`: the values joined by `;`. -/
def joinValues (vs : List Bytes) : Bytes := [Char.SEMICOLON].intercalate vs

end OSCSequence

/-! ## Frame codec (`tpp-lib/sequence.h`) -/

/-- The errors the codec raises: `IOError` is the exception the source throws; the other four
are the failure modes the specification names for the codec. -/
inductive Error
  | IOError
  | TruncatedInput
  | BadHex
  | Overflow
  | MissingSeparator
  deriving DecidableEq, Repr

namespace Char

/-- Modelled from the spec: `helpers/char.h` is absent; the uppercase hexadecimal digit of a
value below 16. -/
def ToHexDigit (n : Nat) : Byte :=
  if n < 10 then UInt8.ofNat (0x30 + n) else UInt8.ofNat (0x41 + (n - 10))

/-- A hexadecimal digit: one of `0`-`9`, `A`-`F`, `a`-`f`. -/
def IsHexadecimalDigit (c : Byte) : Bool :=
  (0x30 ≤ c.toNat && c.toNat ≤ 0x39) || (0x41 ≤ c.toNat && c.toNat ≤ 0x46) ||
    (0x61 ≤ c.toNat && c.toNat ≤ 0x66)

/-- Modelled from the spec: `helpers/char.h` is absent; the value of a hexadecimal digit
(`0`-`9`, `A`-`F`, `a`-`f`), a `BadHex` failure on any other byte. -/
def ParseHexadecimalDigit (c : Byte) : Except Error Nat :=
  if 0x30 ≤ c.toNat && c.toNat ≤ 0x39 then .ok (c.toNat - 0x30)
  else if 0x41 ≤ c.toNat && c.toNat ≤ 0x46 then .ok (c.toNat - 0x41 + 10)
  else if 0x61 ≤ c.toNat && c.toNat ≤ 0x66 then .ok (c.toNat - 0x61 + 10)
  else .error Error.BadHex

end Char

/-- The bytes `s << n` writes for an unsigned `n`: its decimal digits, most significant
first. `fuel` bounds the number of digits. -/
def toDecimalAux : Nat → Nat → Bytes → Bytes
  | 0, _, acc => acc
  | fuel + 1, n, acc =>
    if n < 10 then UInt8.ofNat (0x30 + n) :: acc
    else toDecimalAux fuel (n / 10) (UInt8.ofNat (0x30 + n % 10) :: acc)

/-- The bytes `s << n` writes for an unsigned `n`. -/
def toDecimal (n : Nat) : Bytes := toDecimalAux (n + 1) n []

namespace Sequence

/-- The `enum class Kind`, in declaration order. -/
inductive Kind
  | Ack
  | Nack
  | GetCapabilities
  | Capabilities
  | Data
  | OpenFileTransfer
  | GetTransferStatus
  | TransferStatus
  | ViewRemoteFile
  | Invalid
  deriving DecidableEq, Repr

/-- The value of an enumerator: `Ack = 0`, every next one greater by one. -/
def Kind.toNat : Kind → Nat
  | .Ack => 0
  | .Nack => 1
  | .GetCapabilities => 2
  | .Capabilities => 3
  | .Data => 4
  | .OpenFileTransfer => 5
  | .GetTransferStatus => 6
  | .TransferStatus => 7
  | .ViewRemoteFile => 8
  | .Invalid => 9

/-- The kind of an ordinal; ordinals above the highest known one are `Invalid`. -/
def Kind.ofOrdinal : Nat → Kind
  | 0 => .Ack
  | 1 => .Nack
  | 2 => .GetCapabilities
  | 3 => .Capabilities
  | 4 => .Data
  | 5 => .OpenFileTransfer
  | 6 => .GetTransferStatus
  | 7 => .TransferStatus
  | 8 => .ViewRemoteFile
  | _ => .Invalid

/-- Modelled from the spec: part of the absent `Sequence::ReadUnsigned`. The digits of an
unsigned field after its first digit: accumulates the value, an `Overflow` failure once it
leaves the 64-bit range. -/
def readDigits : Nat → Bytes → Except Error (Nat × Bytes)
  | acc, [] => .ok (acc, [])
  | acc, c :: rest =>
    if IsDecimalDigit c then
      if acc * 10 + DecCharToNumber c < 2 ^ 64 then
        readDigits (acc * 10 + DecCharToNumber c) rest
      else .error Error.Overflow
    else .ok (acc, c :: rest)

/-- Modelled from the spec: `Sequence::ReadUnsigned` is only declared (its body, in
`sequence.cpp`, is absent). Base-10 ASCII digits terminated by a single `;`, which the reader
consumes; the `;` is optional when the field ends the payload. Fails on overflow, on a
non-digit before any digit was read, and on a byte other than `;` after the digits. Returns
the value and the cursor after the field. -/
def ReadUnsigned : Bytes → Except Error (Nat × Bytes)
  | [] => .error Error.TruncatedInput
  | c :: rest =>
    if IsDecimalDigit c then
      match readDigits (DecCharToNumber c) rest with
      | .ok (v, []) => .ok (v, [])
      | .ok (v, d :: rest') =>
        if d = Char.SEMICOLON then .ok (v, rest') else .error Error.MissingSeparator
      | .error e => .error e
    else .error Error.MissingSeparator

/-- Modelled from the spec: `Sequence::ReadString` is only declared. An unsigned length,
followed by `;`, followed by exactly that many bytes of raw content, followed by `;`. Returns
the content and the cursor after the field. -/
def ReadString (buf : Bytes) : Except Error (Bytes × Bytes) :=
  match ReadUnsigned buf with
  | .error e => .error e
  | .ok (n, rest) =>
    if rest.length < n then .error Error.TruncatedInput
    else
      match rest.drop n with
      | d :: rest' =>
        if d = Char.SEMICOLON then .ok (rest.take n, rest') else .error Error.MissingSeparator
      | [] => .error Error.MissingSeparator

/-- Modelled from the spec: `Sequence::WriteString` is only declared. The bytes written for a
string: its length in decimal, `;`, the raw content, `;`. -/
def WriteString (vstr : Bytes) : Bytes :=
  toDecimal vstr.length ++ [Char.SEMICOLON] ++ vstr ++ [Char.SEMICOLON]

/-- Modelled from the spec: part of the absent `Sequence::Encode`. The bytes written for one
byte: the backtick and `BEL` are written as a backtick followed by the two uppercase
hexadecimal digits of the byte, any other byte as itself. -/
def encodeByte (b : Byte) : Bytes :=
  if b = Char.BACKTICK ∨ b = Char.BEL then
    [Char.BACKTICK, Char.ToHexDigit (b.toNat / 16), Char.ToHexDigit (b.toNat % 16)]
  else [b]

/-- Modelled from the spec: `Sequence::Encode` is only declared. The bytes written to the
stream for the buffer `[buffer, end)`. -/
def Encode : Bytes → Bytes
  | [] => []
  | b :: rest => encodeByte b ++ Encode rest

/-- The function `Sequence::DecodeChar(x, end)` with the cursor `x` at the byte `c` and `rest`
the bytes from `x + 1` to `end`: the decoded byte and the cursor after it. -/
def DecodeChar (c : Byte) (rest : Bytes) : Except Error (Byte × Bytes) :=
  if c = Char.BACKTICK then
    match rest with
    | h1 :: h2 :: rest' =>
      match Char.ParseHexadecimalDigit h1, Char.ParseHexadecimalDigit h2 with
      | .ok a, .ok b => .ok (UInt8.ofNat ((a * 16 + b) % 256), rest')
      | .error e, _ => .error e
      | _, .error e => .error e
    | _ => .error Error.IOError
  else .ok (c, rest)

/-- The bytes after a backtick do not complete a quote: there are fewer than two of them
before the end of the buffer, or one of the first two is not a hexadecimal digit. -/
def quoteMalformed : Bytes → Bool
  | h1 :: h2 :: _ => !(Char.IsHexadecimalDigit h1 && Char.IsHexadecimalDigit h2)
  | _ => true

/-- Modelled from the spec: the loop of the absent `Sequence::Decode`: while the cursor is
not at the end, append `DecodeChar` to `into`. Returns the buffer `into` as the loop leaves
it and the error that stopped it, if any. `fuel` bounds the number of iterations. -/
def decodeLoop : Nat → Bytes → Bytes → Bytes × Option Error
  | _, into, [] => (into, none)
  | 0, into, _ :: _ => (into, some Error.TruncatedInput)
  | fuel + 1, into, c :: rest =>
    match DecodeChar c rest with
    | .ok (b, rest') => decodeLoop fuel (into ++ [b]) rest'
    | .error e => (into, some e)

/-- Modelled from the spec: `Sequence::Decode(into, buffer, end)` is only declared. Decodes
`[buffer, end)` byte by byte with `DecodeChar`, appending to `into`; every iteration consumes
a byte, so the length of the buffer bounds the iterations. -/
def Decode (into : Bytes) (buffer : Bytes) : Bytes × Option Error :=
  decodeLoop buffer.length into buffer

/-! ## The sequence classes -/

/-- Fields of `Sequence::Ack`. -/
structure Ack where
  kind_ : Kind
  request_ : Bytes
  id_ : Nat
  deriving DecidableEq, Repr

/-- Fields of `Sequence::Nack`. -/
structure Nack where
  kind_ : Kind
  request_ : Bytes
  reason_ : Bytes
  deriving DecidableEq, Repr

/-- Fields of `Sequence::GetCapabilities`. -/
structure GetCapabilities where
  kind_ : Kind
  deriving DecidableEq, Repr

/-- Fields of `Sequence::Capabilities`. -/
structure Capabilities where
  kind_ : Kind
  version_ : Nat
  deriving DecidableEq, Repr

/-- Fields of `Sequence::Data`; `payload_` is the contents of the owned array. -/
structure Data where
  kind_ : Kind
  id_ : Nat
  packet_ : Nat
  size_ : Nat
  payload_ : Bytes
  deriving DecidableEq, Repr

/-- Fields of `Sequence::OpenFileTransfer`. -/
structure OpenFileTransfer where
  kind_ : Kind
  remoteHost_ : Bytes
  remotePath_ : Bytes
  size_ : Nat
  deriving DecidableEq, Repr

/-- Fields of `Sequence::GetTransferStatus`. -/
structure GetTransferStatus where
  kind_ : Kind
  id_ : Nat
  deriving DecidableEq, Repr

/-- Fields of `Sequence::TransferStatus`. -/
structure TransferStatus where
  kind_ : Kind
  id_ : Nat
  size_ : Nat
  received_ : Nat
  deriving DecidableEq, Repr

/-- Fields of `Sequence::ViewRemoteFile`. -/
structure ViewRemoteFile where
  kind_ : Kind
  id_ : Nat
  deriving DecidableEq, Repr

end Sequence

/-- A `Sequence const &`: an object of one of the nine classes derived from `Sequence`. -/
inductive Sequence
  | ofAck (s : Sequence.Ack)
  | ofNack (s : Sequence.Nack)
  | ofGetCapabilities (s : Sequence.GetCapabilities)
  | ofCapabilities (s : Sequence.Capabilities)
  | ofData (s : Sequence.Data)
  | ofOpenFileTransfer (s : Sequence.OpenFileTransfer)
  | ofGetTransferStatus (s : Sequence.GetTransferStatus)
  | ofTransferStatus (s : Sequence.TransferStatus)
  | ofViewRemoteFile (s : Sequence.ViewRemoteFile)
  deriving DecidableEq, Repr

namespace Sequence

/-- The function `Sequence::kind()`: the `kind_` field of the object. -/
def kind : Sequence → Kind
  | ofAck s => s.kind_
  | ofNack s => s.kind_
  | ofGetCapabilities s => s.kind_
  | ofCapabilities s => s.kind_
  | ofData s => s.kind_
  | ofOpenFileTransfer s => s.kind_
  | ofGetTransferStatus s => s.kind_
  | ofTransferStatus s => s.kind_
  | ofViewRemoteFile s => s.kind_

/-- Modelled from the spec: the bodies of `writeTo` (in `sequence.cpp`) are absent. The base
`Sequence::writeTo` writes the kind ordinal in decimal; each overriding `writeTo` writes that,
then `;`, then the fields of the class in the order of the data-model table: strings with
`WriteString`, unsigned values in decimal with `;` between them, the `Data` payload encoded.
`GetCapabilities` does not override `writeTo`. -/
def writeTo : Sequence → Bytes
  | ofAck s =>
    toDecimal s.kind_.toNat ++ [Char.SEMICOLON] ++ WriteString s.request_ ++ toDecimal s.id_
  | ofNack s =>
    toDecimal s.kind_.toNat ++ [Char.SEMICOLON] ++ WriteString s.request_ ++
      WriteString s.reason_
  | ofGetCapabilities s => toDecimal s.kind_.toNat
  | ofCapabilities s => toDecimal s.kind_.toNat ++ [Char.SEMICOLON] ++ toDecimal s.version_
  | ofData s =>
    toDecimal s.kind_.toNat ++ [Char.SEMICOLON] ++ toDecimal s.id_ ++ [Char.SEMICOLON] ++
      toDecimal s.packet_ ++ [Char.SEMICOLON] ++ toDecimal s.size_ ++ [Char.SEMICOLON] ++
      Encode s.payload_
  | ofOpenFileTransfer s =>
    toDecimal s.kind_.toNat ++ [Char.SEMICOLON] ++ WriteString s.remoteHost_ ++
      WriteString s.remotePath_ ++ toDecimal s.size_
  | ofGetTransferStatus s => toDecimal s.kind_.toNat ++ [Char.SEMICOLON] ++ toDecimal s.id_
  | ofTransferStatus s =>
    toDecimal s.kind_.toNat ++ [Char.SEMICOLON] ++ toDecimal s.id_ ++ [Char.SEMICOLON] ++
      toDecimal s.size_ ++ [Char.SEMICOLON] ++ toDecimal s.received_
  | ofViewRemoteFile s => toDecimal s.kind_.toNat ++ [Char.SEMICOLON] ++ toDecimal s.id_

/-- A valid sequence: the kind is the one of its class, every unsigned field and every
string length is in the 64-bit range of `size_t`, and the size of a `Data` is the length of
its payload. -/
def valid : Sequence → Prop
  | ofAck s => s.kind_ = Kind.Ack ∧ s.request_.length < 2 ^ 64 ∧ s.id_ < 2 ^ 64
  | ofNack s =>
    s.kind_ = Kind.Nack ∧ s.request_.length < 2 ^ 64 ∧ s.reason_.length < 2 ^ 64
  | ofGetCapabilities s => s.kind_ = Kind.GetCapabilities
  | ofCapabilities s => s.kind_ = Kind.Capabilities ∧ s.version_ < 2 ^ 64
  | ofData s =>
    s.kind_ = Kind.Data ∧ s.id_ < 2 ^ 64 ∧ s.packet_ < 2 ^ 64 ∧ s.size_ < 2 ^ 64 ∧
      s.size_ = s.payload_.length
  | ofOpenFileTransfer s =>
    s.kind_ = Kind.OpenFileTransfer ∧ s.remoteHost_.length < 2 ^ 64 ∧
      s.remotePath_.length < 2 ^ 64 ∧ s.size_ < 2 ^ 64
  | ofGetTransferStatus s => s.kind_ = Kind.GetTransferStatus ∧ s.id_ < 2 ^ 64
  | ofTransferStatus s =>
    s.kind_ = Kind.TransferStatus ∧ s.id_ < 2 ^ 64 ∧ s.size_ < 2 ^ 64 ∧ s.received_ < 2 ^ 64
  | ofViewRemoteFile s => s.kind_ = Kind.ViewRemoteFile ∧ s.id_ < 2 ^ 64

/-- No string field of the sequence holds a `BEL` byte. -/
def stringsBelFree : Sequence → Prop
  | ofAck s => Char.BEL ∉ s.request_
  | ofNack s => Char.BEL ∉ s.request_ ∧ Char.BEL ∉ s.reason_
  | ofOpenFileTransfer s => Char.BEL ∉ s.remoteHost_ ∧ Char.BEL ∉ s.remotePath_
  | _ => True

/-- The last field that `writeTo` writes for the sequence, when it is an unsigned value: it is
written without a `;` behind it. The last field of a `Nack` is a string, that of a `Data` the
encoded payload, and a `GetCapabilities` has no field. -/
def lastUnsigned : Sequence → Option Nat
  | ofAck s => some s.id_
  | ofCapabilities s => some s.version_
  | ofOpenFileTransfer s => some s.size_
  | ofGetTransferStatus s => some s.id_
  | ofTransferStatus s => some s.received_
  | ofViewRemoteFile s => some s.id_
  | _ => none

end Sequence

/-! ## Constructors of the sequence classes -/

namespace Sequence

/-- The constructor `explicit Ack(size_t id)`. -/
def Ack.ofId (id : Nat) : Ack := { kind_ := Kind.Ack, request_ := [], id_ := id }

/-- The constructor `Ack(Sequence const & req, size_t id)`; `STR(req)` is what `operator <<`
writes for `req`. -/
def Ack.ofRequest (req : Sequence) (id : Nat) : Ack :=
  { kind_ := Kind.Ack, request_ := req.writeTo, id_ := id }

/-- The constructor `Ack(char const * & start, char const * end)`: the object and the value of
`start` on return. -/
def Ack.decode (start : Bytes) : Except Error (Ack × Bytes) :=
  match ReadString start with
  | .error e => .error e
  | .ok (request, start1) =>
    match ReadUnsigned start1 with
    | .error e => .error e
    | .ok (id, start2) => .ok ({ kind_ := Kind.Ack, request_ := request, id_ := id }, start2)

/-- The constructor `Nack(Sequence const & req, std::string const & reason)`. -/
def Nack.ofRequest (req : Sequence) (reason : Bytes) : Nack :=
  { kind_ := Kind.Nack, request_ := req.writeTo, reason_ := reason }

/-- The constructor `Nack(char const * & start, char const * end)`. -/
def Nack.decode (start : Bytes) : Except Error (Nack × Bytes) :=
  match ReadString start with
  | .error e => .error e
  | .ok (request, start1) =>
    match ReadString start1 with
    | .error e => .error e
    | .ok (reason, start2) =>
      .ok ({ kind_ := Kind.Nack, request_ := request, reason_ := reason }, start2)

/-- The constructor `GetCapabilities()`. -/
def GetCapabilities.new : GetCapabilities := { kind_ := Kind.GetCapabilities }

/-- The constructor `GetCapabilities(char const * start, char const * end)`: both arguments are
unused and the base class is initialised with `Kind::Capabilities` (line 216). -/
def GetCapabilities.decode (_start : Bytes) : GetCapabilities := { kind_ := Kind.Capabilities }

/-- The constructor `Capabilities(unsigned version)`: the argument is a 32-bit `unsigned`. -/
def Capabilities.ofVersion (version : Nat) : Capabilities :=
  { kind_ := Kind.Capabilities, version_ := version % 2 ^ 32 }

/-- The constructor `Capabilities(char const * start, char const * end)`. -/
def Capabilities.decode (start : Bytes) : Except Error Capabilities :=
  match ReadUnsigned start with
  | .error e => .error e
  | .ok (version, _) => .ok { kind_ := Kind.Capabilities, version_ := version }

/-- The constructor `Data(size_t id, size_t packet, char const * payload, char const *
payloadEnd)`. -/
def Data.ofPayload (id packet : Nat) (payload : Bytes) : Data :=
  { kind_ := Kind.Data, id_ := id, packet_ := packet, size_ := payload.length,
    payload_ := payload }

/-- The constructor `Data(size_t id, size_t packet, size_t size, std::istream & s)`, `s` being
the bytes the stream still holds: `s.read` stores at most `size` of them in the array and
`size_` becomes `s.gcount()`, the number of bytes stored. -/
def Data.ofStream (id packet size : Nat) (s : Bytes) : Data :=
  { kind_ := Kind.Data, id_ := id, packet_ := packet, size_ := (s.take size).length,
    payload_ := s.take size }

/-- The constructor `Data(char const * start, char const * end)`. -/
def Data.decode (start : Bytes) : Except Error Data :=
  match ReadUnsigned start with
  | .error e => .error e
  | .ok (id, start1) =>
    match ReadUnsigned start1 with
    | .error e => .error e
    | .ok (packet, start2) =>
      match ReadUnsigned start2 with
      | .error e => .error e
      | .ok (size, start3) =>
        match Decode [] start3 with
        | (_, some e) => .error e
        | (b, none) =>
          if size ≠ b.length then .error Error.IOError
          else .ok { kind_ := Kind.Data, id_ := id, packet_ := packet, size_ := size,
                     payload_ := b }

/-- The constructor `OpenFileTransfer(std::string const & host, std::string const & filename,
size_t fileSize)`. -/
def OpenFileTransfer.new (host filename : Bytes) (fileSize : Nat) : OpenFileTransfer :=
  { kind_ := Kind.OpenFileTransfer, remoteHost_ := host, remotePath_ := filename,
    size_ := fileSize }

/-- The constructor `OpenFileTransfer(char const * start, char const * end)`. -/
def OpenFileTransfer.decode (start : Bytes) : Except Error OpenFileTransfer :=
  match ReadString start with
  | .error e => .error e
  | .ok (host, start1) =>
    match ReadString start1 with
    | .error e => .error e
    | .ok (path, start2) =>
      match ReadUnsigned start2 with
      | .error e => .error e
      | .ok (size, _) =>
        .ok { kind_ := Kind.OpenFileTransfer, remoteHost_ := host, remotePath_ := path,
              size_ := size }

/-- The constructor `explicit GetTransferStatus(size_t id)`. -/
def GetTransferStatus.new (id : Nat) : GetTransferStatus :=
  { kind_ := Kind.GetTransferStatus, id_ := id }

/-- The constructor `GetTransferStatus(char const * & start, char const * end)`. -/
def GetTransferStatus.decode (start : Bytes) : Except Error (GetTransferStatus × Bytes) :=
  match ReadUnsigned start with
  | .error e => .error e
  | .ok (id, start1) => .ok ({ kind_ := Kind.GetTransferStatus, id_ := id }, start1)

/-- The constructor `TransferStatus(size_t id, size_t size, size_t received)`. -/
def TransferStatus.new (id size received : Nat) : TransferStatus :=
  { kind_ := Kind.TransferStatus, id_ := id, size_ := size, received_ := received }

/-- The constructor `TransferStatus(char const * & start, char const * end)`. -/
def TransferStatus.decode (start : Bytes) : Except Error (TransferStatus × Bytes) :=
  match ReadUnsigned start with
  | .error e => .error e
  | .ok (id, start1) =>
    match ReadUnsigned start1 with
    | .error e => .error e
    | .ok (size, start2) =>
      match ReadUnsigned start2 with
      | .error e => .error e
      | .ok (received, start3) =>
        .ok ({ kind_ := Kind.TransferStatus, id_ := id, size_ := size,
               received_ := received }, start3)

/-- The constructor `explicit ViewRemoteFile(size_t id)`. -/
def ViewRemoteFile.new (id : Nat) : ViewRemoteFile :=
  { kind_ := Kind.ViewRemoteFile, id_ := id }

/-- The constructor `ViewRemoteFile(char const * & start, char const * end)`. -/
def ViewRemoteFile.decode (start : Bytes) : Except Error (ViewRemoteFile × Bytes) :=
  match ReadUnsigned start with
  | .error e => .error e
  | .ok (id, start1) => .ok ({ kind_ := Kind.ViewRemoteFile, id_ := id }, start1)

/-! ## Locating and parsing a frame -/

/-- Modelled from the spec: `Sequence::FindSequenceStart` is only declared. The cursor at the
earliest `ESC P +` of the buffer, the buffer end when there is none. -/
def FindSequenceStart : Bytes → Bytes
  | [] => []
  | c :: rest =>
    if c = Char.ESC ∧ rest.take 2 = [0x50, 0x2B] then c :: rest else FindSequenceStart rest

/-- Modelled from the spec: `Sequence::FindSequenceEnd` is only declared. The cursor at the
earliest `BEL` of the buffer, the buffer end when there is none. -/
def FindSequenceEnd : Bytes → Bytes
  | [] => []
  | c :: rest => if c = Char.BEL then c :: rest else FindSequenceEnd rest

/-- Modelled from the spec: part of the absent `Sequence::ParseKind`. The digits of the kind
ordinal after its first digit. -/
def kindDigits : Nat → Bytes → Nat × Bytes
  | acc, [] => (acc, [])
  | acc, c :: rest =>
    if IsDecimalDigit c then kindDigits (acc * 10 + DecCharToNumber c) rest
    else (acc, c :: rest)

/-- Modelled from the spec: `Sequence::ParseKind` is only declared; its documentation comment
and the spec give: the kind is a decimal number followed by `;`, which is consumed, or by
`BEL`, at which the cursor stays; an ordinal above the highest known one is `Invalid`; when
the buffer ends before that, `Invalid` with the cursor at the buffer end; at an invalid
character, `Invalid` with the cursor at that character. -/
def ParseKind : Bytes → Kind × Bytes
  | [] => (Kind.Invalid, [])
  | c :: rest =>
    if IsDecimalDigit c then
      match kindDigits (DecCharToNumber c) rest with
      | (_, []) => (Kind.Invalid, [])
      | (n, d :: rest') =>
        if d = Char.SEMICOLON then (Kind.ofOrdinal n, rest')
        else if d = Char.BEL then (Kind.ofOrdinal n, d :: rest')
        else (Kind.Invalid, d :: rest')
    else (Kind.Invalid, c :: rest)

/-- Modelled from the spec: the dispatch of the sequence parser, which is not in the sources.
The decoding constructor of the class of the given kind runs on the payload after the kind;
`none` is `Invalid`: an unknown kind, or a field that fails to decode. -/
def decodeFields : Kind → Bytes → Option Sequence
  | .Ack, p => match Ack.decode p with
    | .ok (s, _) => some (ofAck s)
    | .error _ => none
  | .Nack, p => match Nack.decode p with
    | .ok (s, _) => some (ofNack s)
    | .error _ => none
  | .GetCapabilities, p => some (ofGetCapabilities (GetCapabilities.decode p))
  | .Capabilities, p => match Capabilities.decode p with
    | .ok s => some (ofCapabilities s)
    | .error _ => none
  | .Data, p => match Data.decode p with
    | .ok s => some (ofData s)
    | .error _ => none
  | .OpenFileTransfer, p => match OpenFileTransfer.decode p with
    | .ok s => some (ofOpenFileTransfer s)
    | .error _ => none
  | .GetTransferStatus, p => match GetTransferStatus.decode p with
    | .ok (s, _) => some (ofGetTransferStatus s)
    | .error _ => none
  | .TransferStatus, p => match TransferStatus.decode p with
    | .ok (s, _) => some (ofTransferStatus s)
    | .error _ => none
  | .ViewRemoteFile, p => match ViewRemoteFile.decode p with
    | .ok (s, _) => some (ofViewRemoteFile s)
    | .error _ => none
  | .Invalid, _ => none

/-- Modelled from the spec: the result of the sequence parser, which is not in the sources:
the need-more-bytes indication (cursor unchanged), or a sequence (`none` for `Invalid`) and
the number of bytes consumed. -/
inductive ParseResult
  | needMore
  | parsed (seq : Option Sequence) (consumed : Nat)
  deriving DecidableEq, Repr

/-- Modelled from the spec: the sequence parser `parse_from(bytes)` is not in the sources.
It locates the frame with `FindSequenceStart` and `FindSequenceEnd`; without a lead-in or
without a `BEL` after it, it asks for more bytes. Otherwise it parses the kind, runs the
decoding constructor of that kind on the bytes up to the `BEL`, and consumes the buffer up to
and including the `BEL`. -/
def parse (buf : Bytes) : ParseResult :=
  match FindSequenceStart buf with
  | _ :: _ :: _ :: x =>
    match FindSequenceEnd x with
    | [] => ParseResult.needMore
    | _ :: after =>
      match ParseKind x with
      | (kind, fields) =>
        ParseResult.parsed (decodeFields kind (fields.take (fields.length - (after.length + 1))))
          (buf.length - after.length)
  | _ => ParseResult.needMore

end Sequence

/-! ## The pseudoterminal (`tpp-lib/pty.h`) -/

/-- A `PTYBase`, observed through the calls of the pure virtual `send(buffer, numBytes)` made
on it: each entry holds the bytes `[buffer, buffer + numBytes)` and `numBytes`. -/
structure PTYBase where
  sent : List (Bytes × Nat)
  deriving DecidableEq, Repr

namespace PTYBase

/-- The function `send(char const * buffer, size_t numBytes)`, pure virtual in `PTYBase`:
recorded. -/
def send (pty : PTYBase) (buffer : Bytes) (numBytes : Nat) : PTYBase :=
  { sent := pty.sent ++ [(buffer.take numBytes, numBytes)] }

/-- The string `ss.str()` that `send(Sequence const &)` builds:
`ss << "\033P+" << seq << "\007"`. -/
def frame (seq : Sequence) : Bytes :=
  [Char.ESC, 0x50, 0x2B] ++ seq.writeTo ++ [Char.BEL]

/-- The frame of `seq` with the extra bytes `x` spliced in immediately before the
terminating `BEL`. -/
def spliced (seq : Sequence) (x : Bytes) : Bytes :=
  [Char.ESC, 0x50, 0x2B] ++ seq.writeTo ++ x ++ [Char.BEL]

/-- The function `send(Sequence const & seq)`. -/
def sendSequence (pty : PTYBase) (seq : Sequence) : PTYBase :=
  pty.send (frame seq) (frame seq).length

end PTYBase

/-! ## Further notions for the OSC parser -/

namespace OSCSequence

/-- A terminator starts at the head of the bytes: a `BEL`, or an `ESC` immediately followed
by a backslash. -/
def startsWithTerminator : Bytes → Bool
  | [] => false
  | c :: rest => c == Char.BEL || (c == Char.ESC && rest.head? == some Char.BACKSLASH)

/-- The emitted form of an OSC event with a number: `ESC ] n ; v0 ; ... ; vk BEL`, the number
in decimal and the values joined by `;`. -/
def emit (n : Nat) (vs : List Bytes) : Bytes :=
  [Char.ESC, 0x5D] ++ toDecimal n ++ [Char.SEMICOLON] ++ joinValues vs ++ [Char.BEL]

end OSCSequence

/-! ## Responses (`Sequence::Response<T>`) -/

namespace Sequence

/-- A class `T` derived from `Sequence`: the conversion of a `T const &` to a
`Sequence const &`. -/
class Derived (T : Type) where
  toSequence : T → Sequence

instance : Derived Ack := ⟨ofAck⟩

instance : Derived Nack := ⟨ofNack⟩

instance : Derived GetCapabilities := ⟨ofGetCapabilities⟩

instance : Derived Capabilities := ⟨ofCapabilities⟩

instance : Derived Data := ⟨ofData⟩

instance : Derived OpenFileTransfer := ⟨ofOpenFileTransfer⟩

instance : Derived GetTransferStatus := ⟨ofGetTransferStatus⟩

instance : Derived TransferStatus := ⟨ofTransferStatus⟩

instance : Derived ViewRemoteFile := ⟨ofViewRemoteFile⟩

/-- The class `Sequence::Response<T>`: its only member is `std::variant<Nack, T> response_`. -/
structure Response (T : Type) where
  response_ : Nack ⊕ T

namespace Response

/-- The constructor `explicit Response(T const & value)`. -/
def ofValue {T : Type} (value : T) : Response T := { response_ := Sum.inr value }

/-- The private constructor `Response(Sequence const & req, std::string const & reason)`. -/
def ofNack {T : Type} (req : Sequence) (reason : Bytes) : Response T :=
  { response_ := Sum.inl (Nack.ofRequest req reason) }

/-- The static function `Deny(req, reason)`. -/
def Deny {T : Type} (req : Sequence) (reason : Bytes) : Response T := ofNack req reason

/-- The static function `Accept(value)`. -/
def Accept {T : Type} (value : T) : Response T := ofValue value

/-- The function `valid()`: `std::holds_alternative<T>(response_)`. -/
def valid {T : Type} (r : Response T) : Bool :=
  match r.response_ with
  | Sum.inr _ => true
  | Sum.inl _ => false

/-- The function `result()`: `ASSERT(valid())`, then `std::get<T>(response_)`; `none` when the
assertion fails. -/
def result {T : Type} (r : Response T) : Option T :=
  if r.valid then
    match r.response_ with
    | Sum.inr v => some v
    | Sum.inl _ => none
  else none

/-- The function `nack()`: `ASSERT(! valid())`, then `std::get<Nack>(response_)`; `none` when
the assertion fails. -/
def nack {T : Type} (r : Response T) : Option Nack :=
  if ! r.valid then
    match r.response_ with
    | Sum.inl n => some n
    | Sum.inr _ => none
  else none

/-- The function `Response::writeTo(s)`: the bytes written by `result().writeTo(s)` when
`valid()`, by `nack().writeTo(s)` otherwise; `none` when an assertion fails. -/
def writeTo {T : Type} [Derived T] (r : Response T) : Option Bytes :=
  if r.valid then r.result.map (fun v => (Derived.toSequence v).writeTo)
  else r.nack.map (fun n => (Sequence.ofNack n).writeTo)

end Response

end Sequence

namespace PTYBase

/-- The function template `send(Sequence::Response<T> const & seq)`: `send(seq.result())` when
`seq.valid()`, `send(seq.nack())` otherwise; `none` when an assertion of `result()` or `nack()`
fails. -/
def sendResponse {T : Type} [Sequence.Derived T] (pty : PTYBase) (seq : Sequence.Response T) :
    Option PTYBase :=
  if seq.valid then seq.result.map (fun v => pty.sendSequence (Sequence.Derived.toSequence v))
  else seq.nack.map (fun n => pty.sendSequence (Sequence.ofNack n))

end PTYBase

namespace Sequence

/-- The alternative a response currently holds, as a `Sequence const &`: the success value or
the `Nack`. -/
def Response.held {T : Type} [Derived T] (r : Response T) : Sequence :=
  match r.response_ with
  | Sum.inr v => Derived.toSequence v
  | Sum.inl n => Sequence.ofNack n

end Sequence

/-- The `send(response)` of the specification: it delegates to the currently-held alternative,
sending it as the bare sequence. -/
def PTYBase.sendResponseSpec {T : Type} [Sequence.Derived T] (pty : PTYBase)
    (r : Sequence.Response T) : PTYBase :=
  pty.sendSequence r.held

/-! ## The pseudoterminal master (`PTYMaster`) -/

/-- Modelled from the spec: `helpers/process.h` is absent; an exit code is a signed integer
(`i32` in the spec). -/
abbrev ExitCode := Int

/-- The members `terminated_` and `exitCode_` of `PTYMaster`. -/
structure PTYMaster where
  terminated_ : Bool
  exitCode_ : ExitCode
  deriving DecidableEq, Repr

namespace PTYMaster

/-- The constructor `PTYMaster()`: `terminated_{false}`, `exitCode_{0}`. -/
def new : PTYMaster := { terminated_ := false, exitCode_ := 0 }

/-- The function `terminated()`. -/
def terminated (m : PTYMaster) : Bool := m.terminated_

/-- The function `exitCode()`: the stored exit code when `terminated_`, an `IOError`
otherwise. -/
def exitCode (m : PTYMaster) : Except Error ExitCode :=
  if m.terminated_ then .ok m.exitCode_ else .error Error.IOError

end PTYMaster

/-! ## Further notions for the sequence parser -/

namespace Sequence

/-- The lead-in `ESC P +` starts at the head of the bytes. -/
def startsWithLeadIn : Bytes → Bool
  | c :: rest => c == Char.ESC && rest.take 2 == [0x50, 0x2B]
  | [] => false

end Sequence

/-! ## String helpers (`helpers/string.h`) -/

/-- Modelled from the spec: `helpers/char.h` is absent; the whitespace bytes are taken to be
the space, the tab, the line feed and the carriage return. -/
def IsWhitespace (c : Byte) : Bool := c == 0x20 || c == 0x09 || c == 0x0A || c == 0x0D

/-- The character `from[i]` of a `std::string`: at `i == size()` it is the null character. -/
def stringAt (s : Bytes) (i : Nat) : Byte := s.getD i 0

/-- The function `std::string::substr(pos, n)` for `pos ≤ size()`: at most `n` bytes from
`pos`. -/
def substr (s : Bytes) (pos n : Nat) : Bytes := (s.drop pos).take n

/-- The first loop of `Trim`: `while (IsWhitespace(from[start])) ++start;`. `fuel` bounds the
iterations; the loop stops at the latest at `start == size()`, where the null character is
read. -/
def trimStart (s : Bytes) : Nat → Nat → Nat
  | 0, start => start
  | fuel + 1, start =>
    if IsWhitespace (stringAt s start) then trimStart s fuel (start + 1) else start

/-- The second loop of `Trim`: `while (end > start && IsWhitespace(from[end])) --end;`, by
recursion on `end`. -/
def trimEnd (s : Bytes) (start : Nat) : Nat → Nat
  | 0 => 0
  | e + 1 => if e + 1 > start && IsWhitespace (stringAt s (e + 1)) then trimEnd s start e else e + 1

/-- The function `Trim(from)` of `helpers/string.h` (lines 62-76); the `size_t` arithmetic of
`end - start + 1` is modulo `2^64`. -/
def Trim (s : Bytes) : Bytes :=
  if s = [] then s
  else
    let start := trimStart s (s.length + 1) 0
    if start = s.length - 1 then []
    else
      let e := trimEnd s start (s.length - 1)
      substr s start ((e + 2 ^ 64 - start + 1) % 2 ^ 64)

/-- The specification of `Trim`: the string without its maximal run of leading whitespace and
its maximal run of trailing whitespace. -/
def TrimSpec (s : Bytes) : Bytes :=
  ((s.dropWhile IsWhitespace).reverse.dropWhile IsWhitespace).reverse

/-! ## JSON backed configuration (`helpers/json_config.h`) -/

mutual
/-- The type `JSON` of the absent `helpers/json.h`, reduced to what the configuration code
uses of it: the kind of a value, the named members of an object and the elements of an array
(comments are left out). -/
inductive JSON
  | null
  | boolean (b : Bool)
  | integer (n : Int)
  | double (d : Int)
  | string (s : Bytes)
  | array (elements : JSONList)
  | object (members : JSONList)
/-- The members of a JSON object, or the elements of a JSON array (their names unused). -/
inductive JSONList
  | nil
  | cons (name : Bytes) (value : JSON) (rest : JSONList)
end

/-- The member `std::variant<JSON, std::function<JSON()>> defaultValue_`: a static JSON, or a
function, given by the JSON it returns when called. -/
inductive DefaultValue
  | json (j : JSON)
  | function (result : JSON)

/-- The value types `T` of `Property<T>` for which the source specialises `FromJSON<T>`. -/
inductive PropertyType
  | string
  | bool
  | int
  | unsigned
  | size_t
  | double
  deriving DecidableEq, Repr

mutual
/-- A configuration element, a `JSONConfig`: a `Property<T>` with its backing JSON (its
`value_` is `FromJSON<T>` of it), an `Object` with its `properties_`, or an `Array<E>` with
its `elements_` and the element a `new E{this}` builds. -/
inductive JSONConfig
  | property (T : PropertyType) (defaultValue_ : DefaultValue) (updated_ : Bool) (json_ : JSON)
  | object (updated_ : Bool) (properties_ : JSONConfigList)
  | array (defaultValue_ : DefaultValue) (entry : JSONConfig) (updated_ : Bool)
      (elements_ : JSONConfigList)
/-- The children of an `Object` with their names, or the elements of an `Array`. -/
inductive JSONConfigList
  | nil
  | cons (name : Bytes) (c : JSONConfig) (rest : JSONConfigList)
end

namespace JSONConfig

/-- The specialisations of `FromJSON<T>` (lines 732-789): each succeeds when the JSON has the
kind of `T` and throws a `JSONError` otherwise. -/
def FromJSON : PropertyType → JSON → Bool
  | .string, .string _ => true
  | .bool, .boolean _ => true
  | .int, .integer _ => true
  | .unsigned, .integer _ => true
  | .size_t, .integer _ => true
  | .double, .double _ => true
  | _, _ => false

/-- The function `defaultValue()`: the static JSON, or the result of the function. -/
def defaultValue : DefaultValue → JSON
  | .json j => j
  | .function result => result

/-- The test `std::holds_alternative<std::function<JSON()>>(defaultValue_)`. -/
def isFunction : DefaultValue → Bool
  | .json _ => false
  | .function _ => true

/-- The function `updated()`. -/
def updated : JSONConfig → Bool
  | .property _ _ u _ => u
  | .object u _ => u
  | .array _ _ u _ => u

/-- The assignment `updated_ = b`. -/
def setUpdated : JSONConfig → Bool → JSONConfig
  | .property T d _ j, b => .property T d b j
  | .object _ props, b => .object b props
  | .array d entry _ elems, b => .array d entry b elems

end JSONConfig

namespace JSONConfigList

/-- The lookup `properties_.find(name)`. -/
def find : JSONConfigList → Bytes → Option JSONConfig
  | .nil, _ => none
  | .cons n c rest, name => if n = name then some c else rest.find name

/-- The list with the child found under `name` replaced by its new state. -/
def replace : JSONConfigList → Bytes → JSONConfig → JSONConfigList
  | .nil, _, _ => .nil
  | .cons n c rest, name, c' =>
    if n = name then .cons n c' rest else .cons n c (rest.replace name c')

/-- The call `elements_.push_back(child)` of `Array::addChildProperty`. -/
def push_back : JSONConfigList → JSONConfig → JSONConfigList
  | .nil, c => .cons [] c .nil
  | .cons n d rest, c => .cons n d (rest.push_back c)

end JSONConfigList

namespace JSONConfig

mutual
/-- The virtual function `update(value, errorHandler)` of `Property` (lines 512-525), `Object`
(lines 251-272) and `Array` (lines 412-435). `throws` tells whether `errorHandler` throws, as
the default handler does, or returns. The result is the returned `bool` and the element after
the call; `none` is an exception leaving the call. -/
def update : JSON → Bool → JSONConfig → Option (Bool × JSONConfig)
  | value, throws, .property T d u j =>
    if FromJSON T value then some (false, .property T d true value)
    else if throws then none else some (false, .property T d u j)
  | value, throws, .object u props =>
    match value with
    | .object ms =>
      match updateMembers ms throws props false with
      | none => none
      | some (result, props') => some (result, .object true props')
    | _ => if throws then none else some (false, .object u props)
  | value, throws, .array d entry u elems =>
    match value with
    | .array es =>
      match updateElements es throws entry .nil false with
      | none => none
      | some (result, elems') => some (result, .array d entry true elems')
    | _ => if throws then none else some (false, .array d entry u elems)
/-- The loop of `Object::update` over the members of the value (lines 264-270). -/
def updateMembers : JSONList → Bool → JSONConfigList → Bool → Option (Bool × JSONConfigList)
  | .nil, _, props, result => some (result, props)
  | .cons name v rest, throws, props, result =>
    match props.find name with
    | none => if throws then none else updateMembers rest throws props result
    | some child =>
      match update v throws child with
      | none => none
      | some (r, child') => updateMembers rest throws (props.replace name child') (r || result)
/-- The loop of `Array::update` over the elements of the value (lines 430-433): each element
is a `new T{this}`, appended to `elements_` and updated with `updateOther`. -/
def updateElements : JSONList → Bool → JSONConfig → JSONConfigList → Bool →
    Option (Bool × JSONConfigList)
  | .nil, _, _, elems, result => some (result, elems)
  | .cons _ v rest, throws, entry, elems, result =>
    match update v throws entry with
    | none => none
    | some (r, element) =>
      updateElements rest throws entry (elems.push_back element) (r || result)
end

mutual
/-- The virtual function `fillMissingValues()` of `Property` (lines 527-540), `Object` (lines
278-287) and `Array` (lines 441-461). The calls `update(defaultValue())` use the default error
handler, which throws. `fuel` bounds the depth of the calls; `none` is an exception, or the
fuel running out. -/
def fillMissingValues : Nat → JSONConfig → Option (Bool × JSONConfig)
  | 0, _ => none
  | _ + 1, .property T d u j =>
    if u then some (false, .property T d u j)
    else
      match update (defaultValue d) true (.property T d u j) with
      | none => none
      | some (_, c) => if isFunction d then some (true, c) else some (false, c.setUpdated false)
  | fuel + 1, .object u props =>
    match fillList fuel props with
    | none => none
    | some (result, props') => some (result, .object (u || result) props')
  | fuel + 1, .array d entry u elems =>
    match (if u then some (false, JSONConfig.array d entry u elems)
           else
             match update (defaultValue d) true (.array d entry u elems) with
             | none => none
             | some (_, c) =>
               if isFunction d then some (true, c) else some (false, c.setUpdated false)) with
    | some (result, .array d' entry' u' elems') =>
      match fillList fuel elems' with
      | none => none
      | some (r, elems'') => some (result || r, .array d' entry' (u' || r) elems'')
    | _ => none
/-- The loops `for (auto i : ...) if (i->fillMissingValues()) ...` of `Object` and `Array`:
whether a child returned true, and the children after the calls. -/
def fillList : Nat → JSONConfigList → Option (Bool × JSONConfigList)
  | 0, _ => none
  | _ + 1, .nil => some (false, .nil)
  | fuel + 1, .cons n c rest =>
    match fillMissingValues fuel c with
    | none => none
    | some (r, c') =>
      match fillList fuel rest with
      | none => none
      | some (r', rest') => some (r || r', .cons n c' rest')
end

/-- The function `set(value, errorHandler)` (lines 104-107): `update`, then
`fillMissingValues`. -/
def set (fuel : Nat) (value : JSON) (throws : Bool) (c : JSONConfig) : Option JSONConfig :=
  match update value throws c with
  | none => none
  | some (_, c') =>
    match fillMissingValues fuel c' with
    | none => none
    | some (_, c'') => some c''

end JSONConfig

/-! ### Notions of the specification of the flags -/

/-- Whether some member with the name `n` of a JSON object has a value that satisfies `p`. -/
def JSONList.anyNamed (p : JSON → Bool) (n : Bytes) : JSONList → Bool
  | .nil => false
  | .cons name v rest => (decide (name = n) && p v) || JSONList.anyNamed p n rest

/-- The result of `p` on the last member with the name `n` of a JSON object on which `p` gives
a result. -/
def JSONList.lastNamed (p : JSON → Option JSONList) (n : Bytes) : JSONList → Option JSONList
  | .nil => none
  | .cons name v rest =>
    match JSONList.lastNamed p n rest with
    | some es => some es
    | none => if name = n then p v else none

/-- The elements of the first list followed by those of the second. -/
def JSONConfigList.append : JSONConfigList → JSONConfigList → JSONConfigList
  | .nil, l => l
  | .cons n c rest, l => .cons n c (JSONConfigList.append rest l)

namespace JSONConfig

/-- The property that the names `path` lead to from a configuration element, each name that of
a child of an object: its type, default value, flag `updated_` and backing JSON. The result
is `none` when the names do not lead through objects to a property; an array is not
entered. -/
def propertyAt : List Bytes → JSONConfig → Option (PropertyType × DefaultValue × Bool × JSON)
  | [], .property T d u j => some (T, d, u, j)
  | n :: path, .object _ props =>
    match props.find n with
    | some c => propertyAt path c
    | none => none
  | _, _ => none

/-- In the words of the claim, "its value was supplied by the user": the JSON given to `set`
holds, under the names `path`, a value of the type `T` of the property. -/
def suppliedAt (T : PropertyType) : List Bytes → JSON → Bool
  | [], v => FromJSON T v
  | n :: path, .object ms => ms.anyNamed (fun v => suppliedAt T path v) n
  | _ :: _, _ => false

mutual
/-- Every property of the configuration tree, those inside the elements of arrays included,
satisfies `P`. -/
def EveryProperty (P : PropertyType → DefaultValue → Bool → JSON → Prop) : JSONConfig → Prop
  | .property T d u j => P T d u j
  | .object _ props => EveryPropertyList P props
  | .array _ _ _ elems => EveryPropertyList P elems
/-- Every property of the listed elements satisfies `P`. -/
def EveryPropertyList (P : PropertyType → DefaultValue → Bool → JSON → Prop) :
    JSONConfigList → Prop
  | .nil => True
  | .cons _ c rest => EveryProperty P c ∧ EveryPropertyList P rest
end

/-- The array that the names `path` lead to from a configuration element, each name that of a
child of an object: its default value, the element a `new E{this}` builds, its flag
`updated_` and its elements. -/
def arrayAt : List Bytes → JSONConfig →
    Option (DefaultValue × JSONConfig × Bool × JSONConfigList)
  | [], .array d entry u elems => some (d, entry, u, elems)
  | n :: path, .object _ props =>
    match props.find n with
    | some c => arrayAt path c
    | none => none
  | _, _ => none

/-- In the words of the claim, a value "supplied by the user" for an array: the elements of
the last JSON array that the JSON given to `set` holds under the names `path`. -/
def suppliedArray : List Bytes → JSON → Option JSONList
  | [], .array es => some es
  | n :: path, .object ms => ms.lastNamed (fun v => suppliedArray path v) n
  | _, _ => none

/-- The listed elements are, one for each listed JSON value and in the same order, what
`update` with that value makes of the element `entry`. -/
def ElementsUpdated (throws : Bool) (entry : JSONConfig) : JSONList → JSONConfigList → Prop
  | .nil, .nil => True
  | .cons _ v rest, .cons _ e elems =>
    (∃ r, update v throws entry = some (r, e)) ∧ ElementsUpdated throws entry rest elems
  | _, _ => False

/-- The listed elements are, one for each listed JSON value and in the same order, what `set`
with that value makes of the element `entry`. -/
def ElementsSet (throws : Bool) (entry : JSONConfig) : JSONList → JSONConfigList → Prop
  | .nil, .nil => True
  | .cons _ v rest, .cons _ e elems =>
    (∃ fuel, set fuel v throws entry = some e) ∧ ElementsSet throws entry rest elems
  | _, _ => False

/-- What `update` makes of the flag and the elements of an array, given the elements `sup` that
the value supplies for it, if any: the elements built from the supplied ones with the flag
set, or the flag and the elements as they were. -/
def ArrayUpdated (throws : Bool) (entry : JSONConfig) (sup : Option JSONList) (u : Bool)
    (elems : JSONConfigList) (u' : Bool) (elems' : JSONConfigList) : Prop :=
  match sup with
  | some es => u' = true ∧ ∃ r, updateElements es throws entry .nil false = some (r, elems')
  | none => u' = u ∧ elems' = elems

/-- What `fillMissingValues` makes of the flag and the elements of an array: an updated array
stays updated and each of its elements is filled; an array that is not updated takes the
elements that `set` builds from the elements of its default value, which has to be an array,
and is marked updated when the default is a function. -/
def ArrayFilled (d : DefaultValue) (entry : JSONConfig) (u : Bool) (elems : JSONConfigList)
    (u' : Bool) (elems' : JSONConfigList) : Prop :=
  (u = true → u' = true ∧ ∃ fuel r, fillList fuel elems = some (r, elems')) ∧
    (u = false → ∃ es, defaultValue d = .array es ∧ ElementsSet true entry es elems' ∧
      (isFunction d = true → u' = true))

end JSONConfig

/-! ## Size hints and layout (`ui/layout.h`) -/

/-- The class `ui::SizeHint`: its only member is `unsigned char raw_`. -/
structure SizeHint where
  raw_ : Nat
  deriving DecidableEq, Repr

namespace SizeHint

/-- The constant `PERCENTAGE`. -/
def PERCENTAGE : Nat := 100

/-- The constant `MANUAL`. -/
def MANUAL : Nat := 101

/-- The constant `AUTOLAYOUT`. -/
def AUTOLAYOUT : Nat := 102

/-- The constant `AUTOSIZE`. -/
def AUTOSIZE : Nat := 103

/-- The private constructor `SizeHint(unsigned char raw)`: the argument is an 8-bit value. -/
def ofRaw (raw : Nat) : SizeHint := { raw_ := raw % 2 ^ 8 }

/-- The function `SizeHint::Manual()`. -/
def Manual : SizeHint := ofRaw MANUAL

/-- The function `SizeHint::Percentage(unsigned pct)`: `ASSERT(pct <= 100)`, then
`SizeHint{static_cast<unsigned char>(pct)}`; `none` when the assertion fails. -/
def Percentage (pct : Nat) : Option SizeHint :=
  if pct ≤ 100 then some (ofRaw pct) else none

/-- The function `SizeHint::AutoLayout()`. -/
def AutoLayout : SizeHint := ofRaw AUTOLAYOUT

/-- The function `SizeHint::AutoSize()`. -/
def AutoSize : SizeHint := ofRaw AUTOSIZE

/-- The function `percentage()`: `ASSERT(raw_ <= 100)`, then `raw_`; `none` when the assertion
fails. -/
def percentage (h : SizeHint) : Option Nat :=
  if h.raw_ ≤ 100 then some h.raw_ else none

/-- The operator `==` of `SizeHint`: `raw_ == other.raw_`. -/
def eq (h other : SizeHint) : Bool := h.raw_ == other.raw_

end SizeHint

namespace Layout

/-- The function `Layout::calculateDimension(hint, currentSize, autoSize, availableSize)` (lines
112-120). In `availableSize * hint.percentage() / 100` the `int` is converted to the 32-bit
`unsigned` of `percentage()`, the product and the quotient are `unsigned`, and the result is
converted back to the `int` returned; `none` when the assertion of `percentage()` fails. -/
def calculateDimension (hint : SizeHint) (currentSize autoSize availableSize : Int) :
    Option Int :=
  if hint.eq SizeHint.Manual || hint.eq SizeHint.AutoSize then some currentSize
  else if hint.eq SizeHint.AutoLayout then some autoSize
  else
    match hint.percentage with
    | none => none
    | some p =>
      some (wrapInt32 ((((availableSize % 2 ^ 32).toNat * p) % 2 ^ 32 / 100 : Nat) : Int))

end Layout

/-! ## Splitting and URL encoding (`helpers/string.h`) -/

/-- The call `what.find(delimiter, start)` of the standard library, on the bytes of `what` from
`start` on: the offset from `start` of the first occurrence of `delimiter`, `none` for
`npos`. -/
def findFrom (delimiter : Bytes) : Bytes → Option Nat
  | [] => if delimiter = [] then some 0 else none
  | c :: rest =>
    if (c :: rest).take delimiter.length = delimiter then some 0
    else
      match findFrom delimiter rest with
      | none => none
      | some k => some (k + 1)

/-- The loop of `Split` (lines 124-131). The position `start` is given by the bytes of `what`
from `start` on, which are empty when `start >= e`; `next - start` is the offset `findFrom`
returns, or the number of remaining bytes when nothing is found; `next + delimiter.size()`
does not wrap, both sizes being below `max_size()`. `fuel` bounds the iterations; `none` is
the fuel running out. -/
def splitLoop (delimiter : Bytes) : Nat → Bytes → List Bytes → Option (List Bytes)
  | _, [], result => some result
  | 0, _ :: _, _ => none
  | fuel + 1, c :: rest, result =>
    let next := (findFrom delimiter (c :: rest)).getD (c :: rest).length
    splitLoop delimiter fuel ((c :: rest).drop (next + delimiter.length))
      (result ++ [(c :: rest).take next])

/-- The function `Split(what, delimiter)` (lines 122-134), with as many iterations allowed as
`what` has bytes; `none` when they do not suffice. -/
def Split (what delimiter : Bytes) : Option (List Bytes) :=
  splitLoop delimiter what.length what []

/-- The loop of `SplitAndTrim` (lines 148-155): the loop of `Split` with `Trim` applied to every
piece. -/
def splitAndTrimLoop (delimiter : Bytes) : Nat → Bytes → List Bytes → Option (List Bytes)
  | _, [], result => some result
  | 0, _ :: _, _ => none
  | fuel + 1, c :: rest, result =>
    let next := (findFrom delimiter (c :: rest)).getD (c :: rest).length
    splitAndTrimLoop delimiter fuel ((c :: rest).drop (next + delimiter.length))
      (result ++ [Trim ((c :: rest).take next)])

/-- The function `SplitAndTrim(what, delimiter)` (lines 146-158), with as many iterations
allowed as `what` has bytes; `none` when they do not suffice. -/
def SplitAndTrim (what delimiter : Bytes) : Option (List Bytes) :=
  splitAndTrimLoop delimiter what.length what []

/-- Modelled from the spec: `helpers/char.h` is absent; an ASCII letter is one of the bytes
`A` to `Z` and `a` to `z`. -/
def IsASCIILetter (c : Byte) : Bool :=
  (0x41 ≤ c.toNat && c.toNat ≤ 0x5A) || (0x61 ≤ c.toNat && c.toNat ≤ 0x7A)

/-- The value of a byte held in a `char`, which is signed: a byte of `0x80` and above is
negative (the test `c >= 0` of line 48 relies on it). -/
def charValue (c : Byte) : Int :=
  if c.toNat < 128 then (c.toNat : Int) else (c.toNat : Int) - 256

/-- The function `UrlEncode(what)` (lines 188-198). The absent `ToHexDigit` of `helpers/char.h`
is the parameter `toHexDigit`; it is called with the `int` values `c >> 4`, the quotient of
the `char` by 16 rounded down, and `c & 0xf`, its remainder. -/
def UrlEncode (toHexDigit : Int → Byte) : Bytes → Bytes
  | [] => []
  | c :: rest =>
    (if IsDecimalDigit c || IsASCIILetter c then [c]
     else [0x25, toHexDigit (charValue c / 16), toHexDigit (charValue c % 16)]) ++
      UrlEncode toHexDigit rest

/-- The specification of `UrlEncode` for one byte: a letter or digit stays, every other byte
`b` becomes `%` and the hexadecimal digits of `b / 16` and `b % 16`. -/
def urlEncodeByteSpec (toHexDigit : Int → Byte) (b : Byte) : Bytes :=
  if IsDecimalDigit b || IsASCIILetter b then [b]
  else [0x25, toHexDigit ((b.toNat / 16 : Nat) : Int), toHexDigit ((b.toNat % 16 : Nat) : Int)]

/-- The specification of `UrlEncode`: the encodings of the bytes, one after the other. -/
def UrlEncodeSpec (toHexDigit : Int → Byte) : Bytes → Bytes
  | [] => []
  | b :: rest => urlEncodeByteSpec toHexDigit b ++ UrlEncodeSpec toHexDigit rest

/-- The decoding the specification of `UrlEncode` refers to: `%` followed by two hexadecimal
digits is the byte they denote, every other byte is itself; `none` on a `%` that two
hexadecimal digits do not follow. -/
def UrlDecodeSpec : Nat → Bytes → Option Bytes
  | _, [] => some []
  | 0, _ :: _ => none
  | fuel + 1, c :: rest =>
    if c = 0x25 then
      match rest with
      | h1 :: h2 :: rest' =>
        match Char.ParseHexadecimalDigit h1, Char.ParseHexadecimalDigit h2 with
        | .ok a, .ok b =>
          match UrlDecodeSpec fuel rest' with
          | some out => some (UInt8.ofNat (a * 16 + b) :: out)
          | none => none
        | _, _ => none
      | _ => none
    else
      match UrlDecodeSpec fuel rest with
      | some out => some (c :: out)
      | none => none

/-! ## Command line arguments (`helpers/json_config.h`, class `CmdArgsRoot`) -/

/-- The exceptions of the command line parsing: the `ArgumentError` of `CmdArgsRoot`, and the
`JSONError` that `cmdArgUpdate` throws. -/
inductive CmdError
  | ArgumentError
  | JSONError
  deriving DecidableEq, Repr

/-- The members of `JSONConfig::CmdArgsRoot` that the keyword parsing reads. A `JSONConfig *`
is given by a number; `keywordArguments_` maps an alias to the configuration element and the
default value it was registered with (`none` for `nullptr`). -/
structure CmdArgsRoot where
  keywordArguments_ : List (Bytes × (Nat × Option Bytes))
  lastArgument_ : Option Nat
  defaultArgument_ : Option Nat

/-- The variables of `parseCommandLine` that the parsing changes: the index `i`, the map
`occurences`, and, as a log, the calls of `cmdArgUpdate(value, index)` made so far, each with
its element. -/
structure CmdState where
  i : Nat
  occurences : List (Nat × Nat)
  calls : List (Nat × Bytes × Nat)
  deriving DecidableEq, Repr

namespace CmdArgsRoot

/-- The call `argName.find('=')`: the index of the first byte equal to `c`, `none` for
`npos`. -/
def findChar (c : Byte) : Bytes → Option Nat
  | [] => none
  | b :: rest =>
    if b = c then some 0
    else
      match findChar c rest with
      | none => none
      | some k => some (k + 1)

/-- The function `updateArgument(arg, value, occurences)` (lines 651-657). The virtual
`cmdArgUpdate(value, index)` is the parameter `cmdArgUpdate`, telling whether the call returns
or throws; the entry of `arg` in `occurences` starts at 0 and is incremented after the
call. -/
def updateArgument (cmdArgUpdate : Nat → Bytes → Nat → Bool) (arg : Nat) (value : Bytes)
    (st : CmdState) : Except CmdError CmdState :=
  let index := (st.occurences.lookup arg).getD 0
  if cmdArgUpdate arg value index then
    .ok { st with occurences := (arg, index + 1) :: st.occurences,
                  calls := st.calls ++ [(arg, value, index)] }
  else .error CmdError.JSONError

/-- The statement `++i`. -/
def next (st : CmdState) : CmdState := { st with i := st.i + 1 }

/-- The loop `while (i < argc) updateArgument(arg, argv[i++], occurences)` (lines 710-713); the
argument is the list of the entries `argv[i]`, `argv[i + 1]`, ... up to `argc`. -/
def consumeRest (cmdArgUpdate : Nat → Bytes → Nat → Bool) (arg : Nat) :
    List Bytes → CmdState → Except CmdError CmdState
  | [], st => .ok st
  | value :: rest, st =>
    match updateArgument cmdArgUpdate arg value (next st) with
    | .error e => .error e
    | .ok st' => consumeRest cmdArgUpdate arg rest st'

/-- The branches `if (defaultArgument_ != nullptr) ... else THROW(ArgumentError())` (lines
679-685 and 690-696): the default argument is updated with `value` and `++i`, or the error is
thrown. -/
def unknownArgument (root : CmdArgsRoot) (cmdArgUpdate : Nat → Bytes → Nat → Bool)
    (value : Bytes) (st : CmdState) : Except CmdError CmdState :=
  match root.defaultArgument_ with
  | some d =>
    match updateArgument cmdArgUpdate d value st with
    | .error e => .error e
    | .ok st' => .ok (next st')
  | none => .error CmdError.ArgumentError

/-- The choice of the value (lines 699-706), `if (argValue == nullptr) ...`, for the found
entry `arg` of `keywordArguments_` and the `argValue` found after an `=`, if any: the value
after the `=`; else the default value the alias was registered with; else, after `++i`, the
following entry, or the `ArgumentError` when there is none. -/
def argumentValue (argv : List Bytes) (arg : Nat × Option Bytes) (argValue : Option Bytes)
    (st : CmdState) : Except CmdError (Bytes × CmdState) :=
  match argValue with
  | some v => .ok (v, st)
  | none =>
    match arg.2 with
    | some d => .ok (d, st)
    | none =>
      if st.i + 1 = argv.length then .error CmdError.ArgumentError
      else .ok (argv.getD (st.i + 1) [], next st)

/-- The end of an iteration (lines 707-714): `updateArgument` with the value, `++i`, and for
the last argument the loop over the remaining entries. -/
def finishArgument (root : CmdArgsRoot) (cmdArgUpdate : Nat → Bytes → Nat → Bool)
    (argv : List Bytes) (cfg : Nat) (value : Bytes) (st1 : CmdState) :
    Except CmdError CmdState :=
  match updateArgument cmdArgUpdate cfg value st1 with
  | .error e => .error e
  | .ok st2 =>
    if root.lastArgument_ = some cfg then
      consumeRest cmdArgUpdate cfg (argv.drop (st2.i + 1)) (next st2)
    else .ok (next st2)

/-- The part of an iteration from `if (argValue == nullptr)` on (lines 699-714). -/
def applyArgument (root : CmdArgsRoot) (cmdArgUpdate : Nat → Bytes → Nat → Bool)
    (argv : List Bytes) (arg : Nat × Option Bytes) (argValue : Option Bytes) (st : CmdState) :
    Except CmdError CmdState :=
  match argumentValue argv arg argValue st with
  | .error e => .error e
  | .ok (value, st1) => finishArgument root cmdArgUpdate argv arg.1 value st1

/-- One iteration of the loop of `parseKeywordArguments` (lines 672-714), entered with
`i < argc`: the state after it, or the exception it throws. -/
def keywordIteration (root : CmdArgsRoot) (cmdArgUpdate : Nat → Bytes → Nat → Bool)
    (argv : List Bytes) (st : CmdState) : Except CmdError CmdState :=
  let argName := argv.getD st.i []
  match root.keywordArguments_.lookup argName with
  | some arg => applyArgument root cmdArgUpdate argv arg none st
  | none =>
    match findChar 0x3D argName with
    | none => unknownArgument root cmdArgUpdate argName st
    | some x =>
      match root.keywordArguments_.lookup (argName.take x) with
      | some arg => applyArgument root cmdArgUpdate argv arg (some (argName.drop (x + 1))) st
      | none => unknownArgument root cmdArgUpdate argName st

/-- The function `parseKeywordArguments(i, argc, argv, occurences)` (lines 671-716), `argc`
being the length of `argv`. `fuel` bounds the iterations; the result is `none` when the fuel
runs out, the final state when the loop ends, the exception when one is thrown. -/
def parseKeywordArguments (root : CmdArgsRoot) (cmdArgUpdate : Nat → Bytes → Nat → Bool)
    (argv : List Bytes) : Nat → CmdState → Option (Except CmdError CmdState)
  | 0, st => if st.i < argv.length then none else some (.ok st)
  | fuel + 1, st =>
    if st.i < argv.length then
      match keywordIteration root cmdArgUpdate argv st with
      | .error e => some (.error e)
      | .ok st' => parseKeywordArguments root cmdArgUpdate argv fuel st'
    else some (.ok st)

/-- The calls of `cmdArgUpdate` that the last argument `arg` receives for the entries `values`
that remain, in the words of the specification: one call for every entry, in order, each with
the entry in its entirety as the value, the occurrence index counting on from `index`. -/
def furtherCalls (arg : Nat) : Nat → List Bytes → List (Nat × Bytes × Nat)
  | _, [] => []
  | index, value :: rest => (arg, value, index) :: furtherCalls arg (index + 1) rest

end CmdArgsRoot

/-! ## Theorems: OSC parser -/

namespace OSCSequence

theorem wrapInt32_of_fits (n : Nat) (h : n < 2 ^ 31) : wrapInt32 (n : Int) = n := by
  unfold wrapInt32
  have h1 : ((n : Int) + 2 ^ 31) % 2 ^ 32 = (n : Int) + 2 ^ 31 := by
    apply Int.emod_eq_of_lt <;> omega
  omega

theorem foldl_digits_ge (ds : Bytes) (a : Nat) :
    a ≤ ds.foldl (fun acc c => acc * 10 + DecCharToNumber c) a := by
  induction ds generalizing a with
  | nil => simp
  | cons c ds ih =>
    simp only [List.foldl_cons]
    have := ih (a * 10 + DecCharToNumber c)
    omega

/-- The digit loop on a run of digits that ends the buffer or is followed by a non-digit. -/
theorem parseDigits_run (ds rest : Bytes) (a : Nat)
    (hdig : ∀ c ∈ ds, IsDecimalDigit c = true)
    (hrest : ∀ c rest', rest = c :: rest' → IsDecimalDigit c = false)
    (hfit : ds.foldl (fun acc c => acc * 10 + DecCharToNumber c) a < 2 ^ 31) :
    parseDigits (a : Int) (ds ++ rest) =
      (((ds.foldl (fun acc c => acc * 10 + DecCharToNumber c) a : Nat) : Int), rest) := by
  induction ds generalizing a with
  | nil =>
    cases rest with
    | nil => simp [parseDigits]
    | cons c rest' => simp [parseDigits, hrest c rest' rfl]
  | cons c ds ih =>
    have hc : IsDecimalDigit c = true := hdig c (by simp)
    simp only [List.foldl_cons] at hfit ⊢
    have hge := foldl_digits_ge ds (a * 10 + DecCharToNumber c)
    have hw : wrapInt32 ((a : Int) * 10 + (DecCharToNumber c : Nat)) =
        ((a * 10 + DecCharToNumber c : Nat) : Int) := by
      rw [← wrapInt32_of_fits (a * 10 + DecCharToNumber c) (by omega)]
      push_cast
      rfl
    simp only [List.cons_append, parseDigits, hc, if_true, hw]
    exact ih _ (fun c' h' => hdig c' (by simp [h'])) hfit

theorem parseDigits_cons (arg : Int) (c : Byte) (rest : Bytes) :
    parseDigits arg (c :: rest) =
      if IsDecimalDigit c then parseDigits (wrapInt32 (arg * 10 + DecCharToNumber c)) rest
      else (arg, c :: rest) := rfl

theorem parseNumber_cons (c : Byte) (rest : Bytes) :
    parseNumber (c :: rest) =
      if IsDecimalDigit c then
        match parseDigits (wrapInt32 (0 * 10 + DecCharToNumber c)) rest with
        | (arg, d :: rest') => if d = Char.SEMICOLON then (arg, rest') else (INVALID, d :: rest')
        | (_, []) => (INVALID, [])
      else (INVALID, c :: rest) := rfl

theorem parseValues_cons (cur : Bytes) (values : List Bytes) (c : Byte) (rest : Bytes) :
    parseValues cur values (c :: rest) =
      if c = Char.BEL then (values ++ [cur], some rest)
      else
        match atST c rest with
        | some rest' => (values ++ [cur], some rest')
        | none =>
          if c = Char.SEMICOLON then parseValues [] (values ++ [cur]) rest
          else parseValues (cur ++ [c]) values rest := rfl

theorem Parse_cons (a b c : Byte) (x : Bytes) :
    Parse (a :: b :: c :: x) =
      match parseValues [] [] (parseNumber (c :: x)).2 with
      | (values, none) => ({ num_ := INCOMPLETE, values_ := values }, a :: b :: c :: x)
      | (values, some x'') => ({ num_ := (parseNumber (c :: x)).1, values_ := values }, x'') :=
  rfl

/-- The value loop runs over a value without `;`, `BEL` and `ESC` by appending it to the
current value. -/
theorem parseValues_plain (v : Bytes) (cur : Bytes) (values : List Bytes) (rest : Bytes)
    (hv : Char.SEMICOLON ∉ v ∧ Char.BEL ∉ v ∧ Char.ESC ∉ v) :
    parseValues cur values (v ++ rest) = parseValues (cur ++ v) values rest := by
  induction v generalizing cur with
  | nil => simp
  | cons c v ih =>
    obtain ⟨h1, h2, h3⟩ := hv
    simp only [List.mem_cons, not_or] at h1 h2 h3
    have e1 : ¬ c = Char.BEL := fun h => h2.1 h.symm
    have e2 : ¬ c = Char.ESC := fun h => h3.1 h.symm
    have e3 : ¬ c = Char.SEMICOLON := fun h => h1.1 h.symm
    rw [List.cons_append, parseValues_cons]
    simp only [atST, e1, e2, e3, if_false]
    rw [ih (cur ++ [c]) ⟨h1.2, h2.2, h3.2⟩]
    simp

/-- The value loop at a terminator pushes the current value and stops after the terminator. -/
theorem parseValues_terminator (T : Bytes) (cur : Bytes) (values : List Bytes) (rest : Bytes)
    (hT : T = [Char.BEL] ∨ T = [Char.ESC, Char.BACKSLASH]) :
    parseValues cur values (T ++ rest) = (values ++ [cur], some rest) := by
  rcases hT with h | h <;> subst h
  · simp [parseValues_cons]
  · have : ¬ Char.ESC = Char.BEL := by decide
    simp [parseValues_cons, this, atST]

/-- The value loop over `v0 ; ... ; vk T`. -/
theorem parseValues_join (vs : List Bytes) (v : Bytes) (cur : Bytes) (values : List Bytes)
    (T rest : Bytes)
    (hv : ∀ w ∈ v :: vs, Char.SEMICOLON ∉ w ∧ Char.BEL ∉ w ∧ Char.ESC ∉ w)
    (hT : T = [Char.BEL] ∨ T = [Char.ESC, Char.BACKSLASH]) :
    parseValues cur values (joinValues (v :: vs) ++ T ++ rest) =
      (values ++ (cur ++ v) :: vs, some rest) := by
  induction vs generalizing v cur values with
  | nil =>
    have : joinValues [v] = v := by simp [joinValues, List.intercalate]
    rw [this, List.append_assoc, parseValues_plain v cur values _ (hv v (by simp)),
      parseValues_terminator T _ _ _ hT]
  | cons w vs ih =>
    have hj : joinValues (v :: w :: vs) = v ++ Char.SEMICOLON :: joinValues (w :: vs) := by
      simp [joinValues, List.intercalate]
    have e1 : ¬ Char.SEMICOLON = Char.BEL := by decide
    have e2 : ¬ Char.SEMICOLON = Char.ESC := by decide
    rw [hj, List.append_assoc, List.append_assoc,
      parseValues_plain v cur values _ (hv v (by simp)), List.cons_append, parseValues_cons]
    simp only [atST, e1, e2, if_false, if_true]
    have := ih w [] (values ++ [cur ++ v]) (fun u hu => hv u (by simp [hu]))
    rw [List.append_assoc] at this
    rw [this]
    simp

/-- C1: for every buffer `ESC ] d ; v0 ; ... ; vk T`, with `d` a non-empty run of decimal
digits whose value fits a signed 32-bit `int`, every `vi` free of `;`, `BEL` and `ESC`, and
`T` one of `BEL` and `ESC \`, `OSCSequence::Parse` returns the decimal value of `d` as number
and `[v0, ..., vk]` as values. -/
theorem parse_well_formed (d : Bytes) (vs : List Bytes) (T : Bytes)
    (hd : d ≠ []) (hdig : ∀ c ∈ d, IsDecimalDigit c = true) (hfit : decimalValue d < 2 ^ 31)
    (hvs : vs ≠ [])
    (hv : ∀ v ∈ vs, Char.SEMICOLON ∉ v ∧ Char.BEL ∉ v ∧ Char.ESC ∉ v)
    (hT : T = [Char.BEL] ∨ T = [Char.ESC, Char.BACKSLASH]) :
    (Parse ([Char.ESC, 0x5D] ++ d ++ [Char.SEMICOLON] ++ joinValues vs ++ T)).1 =
      { num_ := (decimalValue d : Int), values_ := vs } := by
  obtain ⟨c, ds, rfl⟩ := List.exists_cons_of_ne_nil hd
  obtain ⟨v, vs', rfl⟩ := List.exists_cons_of_ne_nil hvs
  have hc : IsDecimalDigit c = true := hdig c (by simp)
  have hsemi : ∀ c' rest', (Char.SEMICOLON :: (joinValues (v :: vs') ++ T)) = c' :: rest' →
      IsDecimalDigit c' = false := by
    intro c' rest' h
    simp only [List.cons.injEq] at h
    rw [← h.1]
    decide
  have hfit' : ds.foldl (fun acc c => acc * 10 + DecCharToNumber c)
      (0 * 10 + DecCharToNumber c) < 2 ^ 31 := by simpa [decimalValue] using hfit
  have hrun := parseDigits_run ds (Char.SEMICOLON :: (joinValues (v :: vs') ++ T))
    (0 * 10 + DecCharToNumber c) (fun c' h' => hdig c' (by simp [h'])) hsemi hfit'
  have hw : wrapInt32 (0 * 10 + (DecCharToNumber c : Nat)) =
      ((0 * 10 + DecCharToNumber c : Nat) : Int) := by
    have hle := foldl_digits_ge ds (0 * 10 + DecCharToNumber c)
    rw [← wrapInt32_of_fits _ (show 0 * 10 + DecCharToNumber c < 2 ^ 31 by omega)]
    push_cast
    rfl
  have hnum : parseNumber (c :: (ds ++ Char.SEMICOLON :: (joinValues (v :: vs') ++ T))) =
      ((decimalValue (c :: ds) : Int), joinValues (v :: vs') ++ T) := by
    rw [parseNumber_cons, hc, if_pos rfl, hw, hrun]
    simp [decimalValue]
  have hval := parseValues_join vs' v [] [] T [] hv hT
  simp only [List.append_nil, List.nil_append] at hval
  have hbuf : [Char.ESC, 0x5D] ++ (c :: ds) ++ [Char.SEMICOLON] ++ joinValues (v :: vs') ++ T =
      Char.ESC :: 0x5D :: c :: (ds ++ Char.SEMICOLON :: (joinValues (v :: vs') ++ T)) := by
    simp
  rw [hbuf, Parse_cons, hnum]
  simp only [hval]

/-- Witness for C1: the buffer `ESC ] 52 ; c ; dGVzdA== ESC \` of the spec. -/
theorem parse_well_formed_witness :
    (Parse ([Char.ESC, 0x5D] ++ [0x35, 0x32] ++ [Char.SEMICOLON] ++
        joinValues [[0x63], [0x64, 0x47, 0x56, 0x7A, 0x64, 0x41, 0x3D, 0x3D]] ++
        [Char.ESC, Char.BACKSLASH])).1 =
      { num_ := ((decimalValue [0x35, 0x32] : Nat) : Int),
        values_ := [[0x63], [0x64, 0x47, 0x56, 0x7A, 0x64, 0x41, 0x3D, 0x3D]] } ∧
    decimalValue [0x35, 0x32] = 52 :=
  ⟨parse_well_formed [0x35, 0x32] [[0x63], [0x64, 0x47, 0x56, 0x7A, 0x64, 0x41, 0x3D, 0x3D]]
    [Char.ESC, Char.BACKSLASH] (by decide) (by decide) (by decide) (by decide) (by decide)
    (Or.inr rfl), by decide⟩

/-- The digit loop returns a cursor inside the bytes it was given. -/
theorem parseDigits_suffix (x : Bytes) (arg : Int) : (parseDigits arg x).2 <:+ x := by
  induction x generalizing arg with
  | nil => simp [parseDigits]
  | cons c rest ih =>
    rw [parseDigits_cons]
    split
    · exact (ih _).trans (List.suffix_cons c rest)
    · exact List.suffix_refl _

/-- The number part returns a cursor inside the bytes it was given. -/
theorem parseNumber_suffix (x : Bytes) : (parseNumber x).2 <:+ x := by
  cases x with
  | nil => simp [parseNumber]
  | cons c rest =>
    rw [parseNumber_cons]
    split
    · have h := parseDigits_suffix rest (wrapInt32 (0 * 10 + DecCharToNumber c))
      split
      · rename_i arg d rest' heq
        rw [heq] at h
        have h' : rest' <:+ c :: rest :=
          ((List.suffix_cons d rest').trans h).trans (List.suffix_cons c rest)
        split
        · exact h'
        · exact h.trans (List.suffix_cons c rest)
      · exact List.nil_suffix
    · exact List.suffix_refl _

/-- Without a `BEL` and without an `ESC` immediately followed by a backslash the value loop
reaches the end of the buffer. -/
theorem parseValues_no_terminator (x : Bytes) (cur : Bytes) (values : List Bytes)
    (hbel : Char.BEL ∉ x) (hst : ¬ [Char.ESC, Char.BACKSLASH] <:+: x) :
    (parseValues cur values x).2 = none := by
  induction x generalizing cur values with
  | nil => simp [parseValues]
  | cons c rest ih =>
    simp only [List.mem_cons, not_or] at hbel
    have e1 : ¬ c = Char.BEL := fun h => hbel.1 h.symm
    have hst' : ¬ [Char.ESC, Char.BACKSLASH] <:+: rest :=
      fun h => hst (h.trans (List.suffix_cons c rest).isInfix)
    have hno : atST c rest = none := by
      unfold atST
      by_cases hc : c = Char.ESC
      · rw [if_pos hc]
        cases rest with
        | nil => rfl
        | cons d rest' =>
          by_cases hd : d = Char.BACKSLASH
          · exfalso
            apply hst
            rw [hc, hd]
            exact (List.prefix_iff_eq_append.mpr (by simp)).isInfix
          · simp [hd]
      · rw [if_neg hc]
    rw [parseValues_cons, if_neg e1, hno]
    simp only
    split
    · exact ih _ _ hbel.2 hst'
    · exact ih _ _ hbel.2 hst'

/-- C2: for every buffer that starts with `ESC ]` and holds, from offset 2 onward, neither a
`BEL` nor an `ESC` immediately followed by a backslash, `OSCSequence::Parse` returns the
`INCOMPLETE` sentinel as number and leaves the read cursor where it was on entry. -/
theorem parse_incomplete (body : Bytes)
    (hbel : Char.BEL ∉ body) (hst : ¬ [Char.ESC, Char.BACKSLASH] <:+: body) :
    (Parse (Char.ESC :: 0x5D :: body)).1.num_ = INCOMPLETE ∧
      (Parse (Char.ESC :: 0x5D :: body)).2 = Char.ESC :: 0x5D :: body := by
  cases body with
  | nil => exact ⟨rfl, rfl⟩
  | cons c x =>
    have hsuf := parseNumber_suffix (c :: x)
    have hnone := parseValues_no_terminator (parseNumber (c :: x)).2 [] []
      (fun h => hbel (hsuf.subset h)) (fun h => hst (h.trans hsuf.isInfix))
    rw [Parse_cons]
    split
    · exact ⟨rfl, rfl⟩
    · rename_i values x'' heq
      rw [heq] at hnone
      cases hnone

/-- Witness for C2: the buffer `ESC ] 5 2 ; c ESC`, which ends in a lone `ESC`. -/
theorem parse_incomplete_witness :
    (Parse (Char.ESC :: 0x5D :: [0x35, 0x32, 0x3B, 0x63, 0x1B])).1.num_ = INCOMPLETE ∧
      (Parse (Char.ESC :: 0x5D :: [0x35, 0x32, 0x3B, 0x63, 0x1B])).2 =
        Char.ESC :: 0x5D :: [0x35, 0x32, 0x3B, 0x63, 0x1B] :=
  parse_incomplete [0x35, 0x32, 0x3B, 0x63, 0x1B] (by decide) (by decide)

end OSCSequence

/-! ## Theorems: decimal numbers -/

theorem isDecimalDigit_digit (d : Nat) (h : d < 10) :
    IsDecimalDigit (UInt8.ofNat (0x30 + d)) = true := by
  interval_cases d <;> decide

theorem decCharToNumber_digit (d : Nat) (h : d < 10) :
    DecCharToNumber (UInt8.ofNat (0x30 + d)) = d := by
  interval_cases d <;> decide

/-- The value of a run of digits, accumulated from `a`. -/
theorem foldl_digits_append (ds : Bytes) (c : Byte) (a : Nat) :
    (ds ++ [c]).foldl (fun acc c => acc * 10 + DecCharToNumber c) a =
      ds.foldl (fun acc c => acc * 10 + DecCharToNumber c) a * 10 + DecCharToNumber c := by
  simp [List.foldl_append]

/-- With enough fuel, the digit writer prepends to `acc` a non-empty run of digits whose
value is `n`. -/
theorem toDecimalAux_spec (fuel n : Nat) (acc : Bytes) (h : n < fuel) :
    ∃ ds : Bytes, toDecimalAux fuel n acc = ds ++ acc ∧ ds ≠ [] ∧
      (∀ c ∈ ds, IsDecimalDigit c = true) ∧ OSCSequence.decimalValue ds = n := by
  induction fuel generalizing n acc with
  | zero => omega
  | succ fuel ih =>
    unfold toDecimalAux
    by_cases hn : n < 10
    · refine ⟨[UInt8.ofNat (0x30 + n)], by simp [hn], by simp, ?_, ?_⟩
      · intro c hc
        simp only [List.mem_singleton] at hc
        rw [hc]
        exact isDecimalDigit_digit n hn
      · simp [OSCSequence.decimalValue, decCharToNumber_digit n hn]
    · obtain ⟨ds, h1, _, h3, h4⟩ := ih (n / 10) (UInt8.ofNat (0x30 + n % 10) :: acc) (by omega)
      have hm : n % 10 < 10 := Nat.mod_lt _ (by decide)
      refine ⟨ds ++ [UInt8.ofNat (0x30 + n % 10)], by simp [hn, h1], by simp, ?_, ?_⟩
      · intro c hc
        simp only [List.mem_append, List.mem_singleton] at hc
        rcases hc with hc | hc
        · exact h3 c hc
        · rw [hc]
          exact isDecimalDigit_digit _ hm
      · unfold OSCSequence.decimalValue at h4 ⊢
        rw [foldl_digits_append, h4, decCharToNumber_digit _ hm]
        omega

theorem toDecimal_spec (n : Nat) :
    toDecimal n ≠ [] ∧ (∀ c ∈ toDecimal n, IsDecimalDigit c = true) ∧
      OSCSequence.decimalValue (toDecimal n) = n := by
  obtain ⟨ds, h1, h2, h3, h4⟩ := toDecimalAux_spec (n + 1) n [] (by omega)
  have : toDecimal n = ds := by simpa [toDecimal] using h1
  rw [this]
  exact ⟨h2, h3, h4⟩

/-! ## Theorems: frame codec -/

namespace Sequence

theorem readDigits_cons (acc : Nat) (c : Byte) (rest : Bytes) :
    readDigits acc (c :: rest) =
      if IsDecimalDigit c then
        if acc * 10 + DecCharToNumber c < 2 ^ 64 then
          readDigits (acc * 10 + DecCharToNumber c) rest
        else .error Error.Overflow
      else .ok (acc, c :: rest) := rfl

theorem ReadUnsigned_cons (c : Byte) (rest : Bytes) :
    ReadUnsigned (c :: rest) =
      if IsDecimalDigit c then
        match readDigits (DecCharToNumber c) rest with
        | .ok (v, []) => .ok (v, [])
        | .ok (v, d :: rest') =>
          if d = Char.SEMICOLON then .ok (v, rest') else .error Error.MissingSeparator
        | .error e => .error e
      else .error Error.MissingSeparator := rfl

/-- The digit reader on a run of digits that ends the buffer or is followed by a
non-digit. -/
theorem readDigits_run (ds rest : Bytes) (a : Nat)
    (hdig : ∀ c ∈ ds, IsDecimalDigit c = true)
    (hrest : ∀ c rest', rest = c :: rest' → IsDecimalDigit c = false)
    (hfit : ds.foldl (fun acc c => acc * 10 + DecCharToNumber c) a < 2 ^ 64) :
    readDigits a (ds ++ rest) =
      .ok (ds.foldl (fun acc c => acc * 10 + DecCharToNumber c) a, rest) := by
  induction ds generalizing a with
  | nil =>
    cases rest with
    | nil => simp [readDigits]
    | cons c rest' => simp [readDigits_cons, hrest c rest' rfl]
  | cons c ds ih =>
    have hc : IsDecimalDigit c = true := hdig c (by simp)
    simp only [List.foldl_cons] at hfit ⊢
    have hge := OSCSequence.foldl_digits_ge ds (a * 10 + DecCharToNumber c)
    rw [List.cons_append, readDigits_cons, hc, if_pos rfl, if_pos (by omega)]
    exact ih _ (fun c' h' => hdig c' (by simp [h'])) hfit

/-- Reading back an unsigned value that is followed by `;`. -/
theorem ReadUnsigned_toDecimal_sep (n : Nat) (rest : Bytes) (h : n < 2 ^ 64) :
    ReadUnsigned (toDecimal n ++ Char.SEMICOLON :: rest) = .ok (n, rest) := by
  obtain ⟨h1, h2, h3⟩ := toDecimal_spec n
  obtain ⟨c, ds, hcd⟩ := List.exists_cons_of_ne_nil h1
  rw [hcd] at h2 h3 ⊢
  have hc : IsDecimalDigit c = true := h2 c (by simp)
  have hv : ds.foldl (fun acc c => acc * 10 + DecCharToNumber c) (DecCharToNumber c) = n := by
    simpa [OSCSequence.decimalValue] using h3
  have hrun := readDigits_run ds (Char.SEMICOLON :: rest) (DecCharToNumber c)
    (fun c' h' => h2 c' (by simp [h']))
    (by intro c' rest' e
        simp only [List.cons.injEq] at e
        rw [← e.1]
        decide)
    (by omega)
  rw [List.cons_append, ReadUnsigned_cons, hc, if_pos rfl, hrun, hv]
  simp

/-- Reading back an unsigned value that ends the payload. -/
theorem ReadUnsigned_toDecimal_end (n : Nat) (h : n < 2 ^ 64) :
    ReadUnsigned (toDecimal n) = .ok (n, []) := by
  obtain ⟨h1, h2, h3⟩ := toDecimal_spec n
  obtain ⟨c, ds, hcd⟩ := List.exists_cons_of_ne_nil h1
  rw [hcd] at h2 h3 ⊢
  have hc : IsDecimalDigit c = true := h2 c (by simp)
  have hv : ds.foldl (fun acc c => acc * 10 + DecCharToNumber c) (DecCharToNumber c) = n := by
    simpa [OSCSequence.decimalValue] using h3
  have hrun := readDigits_run ds [] (DecCharToNumber c)
    (fun c' h' => h2 c' (by simp [h'])) (by intro c' rest' e; cases e) (by omega)
  rw [List.append_nil] at hrun
  rw [ReadUnsigned_cons, hc, if_pos rfl, hrun, hv]

/-- Reading back a string. -/
theorem ReadString_WriteString (v rest : Bytes) (h : v.length < 2 ^ 64) :
    ReadString (WriteString v ++ rest) = .ok (v, rest) := by
  have e : WriteString v ++ rest =
      toDecimal v.length ++ Char.SEMICOLON :: (v ++ Char.SEMICOLON :: rest) := by
    simp [WriteString]
  rw [e]
  unfold ReadString
  rw [ReadUnsigned_toDecimal_sep _ _ h]
  simp

theorem Decode_nil (into : Bytes) : Decode into [] = (into, none) := rfl

theorem decodeLoop_succ_cons (fuel : Nat) (into : Bytes) (c : Byte) (rest : Bytes) :
    decodeLoop (fuel + 1) into (c :: rest) =
      match DecodeChar c rest with
      | .ok (b, rest') => decodeLoop fuel (into ++ [b]) rest'
      | .error e => (into, some e) := rfl

/-- The function `DecodeChar` leaves the cursor inside the bytes it was given. -/
theorem DecodeChar_length (c b : Byte) (rest rest' : Bytes)
    (h : DecodeChar c rest = .ok (b, rest')) : rest'.length ≤ rest.length := by
  unfold DecodeChar at h
  split at h
  · split at h
    · rename_i h1 h2 r
      split at h
      · simp only [Except.ok.injEq, Prod.mk.injEq] at h
        rw [← h.2]
        simp only [List.length_cons]
        omega
      · cases h
      · cases h
    · cases h
  · simp only [Except.ok.injEq, Prod.mk.injEq] at h
    rw [h.2]

/-- The loop of `Decode` does not depend on the fuel once it covers the buffer. -/
theorem decodeLoop_fuel (n : Nat) : ∀ (fuel : Nat) (into buf : Bytes),
    buf.length ≤ n → buf.length ≤ fuel → decodeLoop fuel into buf = Decode into buf := by
  induction n with
  | zero =>
    intro fuel into buf h _
    have : buf = [] := List.length_eq_zero.mp (by omega)
    subst this
    cases fuel <;> rfl
  | succ n ih =>
    intro fuel into buf h hf
    cases buf with
    | nil => cases fuel <;> rfl
    | cons c rest =>
      simp only [List.length_cons] at h hf
      obtain ⟨f, rfl⟩ : ∃ f, fuel = f + 1 := ⟨fuel - 1, by omega⟩
      unfold Decode
      simp only [List.length_cons]
      rw [decodeLoop_succ_cons, decodeLoop_succ_cons]
      cases hd : DecodeChar c rest with
      | error e => rfl
      | ok r =>
        obtain ⟨b, rest'⟩ := r
        have hl := DecodeChar_length c b rest rest' hd
        simp only
        rw [ih f _ rest' (by omega) (by omega), ih rest.length _ rest' (by omega) hl]

/-- One iteration of the loop of `Decode`. -/
theorem Decode_cons (into : Bytes) (c : Byte) (rest : Bytes) :
    Decode into (c :: rest) =
      match DecodeChar c rest with
      | .ok (b, rest') => Decode (into ++ [b]) rest'
      | .error e => (into, some e) := by
  unfold Decode
  simp only [List.length_cons]
  rw [decodeLoop_succ_cons]
  cases hd : DecodeChar c rest with
  | error e => rfl
  | ok r =>
    obtain ⟨b, rest'⟩ := r
    simp only
    exact decodeLoop_fuel rest.length _ _ _ (DecodeChar_length c b rest rest' hd)
      (DecodeChar_length c b rest rest' hd)

theorem DecodeChar_quote (h1 h2 : Byte) (r : Bytes) :
    DecodeChar Char.BACKTICK (h1 :: h2 :: r) =
      match Char.ParseHexadecimalDigit h1, Char.ParseHexadecimalDigit h2 with
      | .ok a, .ok b => .ok (UInt8.ofNat ((a * 16 + b) % 256), r)
      | .error e, _ => .error e
      | _, .error e => .error e := rfl

theorem DecodeChar_quote_short (r : Bytes) (h : r.length < 2) :
    DecodeChar Char.BACKTICK r = .error Error.IOError := by
  match r, h with
  | [], _ => rfl
  | [_], _ => rfl

theorem DecodeChar_plain (c : Byte) (r : Bytes) (h : c ≠ Char.BACKTICK) :
    DecodeChar c r = .ok (c, r) := by
  unfold DecodeChar
  rw [if_neg h]

/-- The function `DecodeChar` reads at most the three bytes at the cursor. -/
theorem DecodeChar_append (c b : Byte) (rest rest' more : Bytes)
    (h : DecodeChar c rest = .ok (b, rest')) :
    DecodeChar c (rest ++ more) = .ok (b, rest' ++ more) := by
  by_cases hc : c = Char.BACKTICK
  · subst hc
    match rest, h with
    | [], h => rw [DecodeChar_quote_short [] (by simp)] at h; cases h
    | [x], h => rw [DecodeChar_quote_short [x] (by simp)] at h; cases h
    | h1 :: h2 :: r, h =>
      rw [DecodeChar_quote] at h
      rw [List.cons_append, List.cons_append, DecodeChar_quote]
      cases e1 : Char.ParseHexadecimalDigit h1 with
      | error e => simp [e1] at h
      | ok a =>
        cases e2 : Char.ParseHexadecimalDigit h2 with
        | error e => simp [e1, e2] at h
        | ok b' =>
          rw [e1, e2] at h
          simp only [Except.ok.injEq, Prod.mk.injEq] at h ⊢
          exact ⟨h.1, by rw [h.2]⟩
  · rw [DecodeChar_plain c _ hc] at h ⊢
    simp only [Except.ok.injEq, Prod.mk.injEq] at h ⊢
    exact ⟨h.1, by rw [h.2]⟩

/-- Decoding a buffer whose front part decodes without error continues on the rest. -/
theorem Decode_append (n : Nat) : ∀ (into pre out more : Bytes), pre.length ≤ n →
    Decode into pre = (out, none) → Decode into (pre ++ more) = Decode out more := by
  induction n with
  | zero =>
    intro into pre out more h hd
    have : pre = [] := List.length_eq_zero.mp (by omega)
    subst this
    rw [Decode_nil] at hd
    simp only [Prod.mk.injEq, and_true] at hd
    rw [List.nil_append, hd]
  | succ n ih =>
    intro into pre out more h hd
    cases pre with
    | nil =>
      rw [Decode_nil] at hd
      simp only [Prod.mk.injEq, and_true] at hd
      rw [List.nil_append, hd]
    | cons c rest =>
      rw [Decode_cons] at hd
      rw [List.cons_append, Decode_cons]
      cases hc : DecodeChar c rest with
      | error e => rw [hc] at hd; simp at hd
      | ok r =>
        obtain ⟨b, rest'⟩ := r
        rw [hc] at hd
        simp only at hd
        rw [DecodeChar_append c b rest rest' more hc]
        simp only
        have hl := DecodeChar_length c b rest rest' hc
        simp only [List.length_cons] at h
        exact ih _ rest' out more (by omega) hd

theorem parseHex_error_iff (c : Byte) :
    (∃ e, Char.ParseHexadecimalDigit c = .error e) ↔ Char.IsHexadecimalDigit c = false := by
  unfold Char.ParseHexadecimalDigit Char.IsHexadecimalDigit
  by_cases h1 : (0x30 ≤ c.toNat && c.toNat ≤ 0x39) = true
  · simp [h1]
  · by_cases h2 : (0x41 ≤ c.toNat && c.toNat ≤ 0x46) = true
    · simp [h1, h2]
    · by_cases h3 : (0x61 ≤ c.toNat && c.toNat ≤ 0x66) = true
      · simp [h1, h2, h3]
      · simp [h1, h2, h3]

theorem encodeByte_eq (b : Byte) :
    encodeByte b =
      if b = 0x60 then [0x60, 0x36, 0x30] else if b = 0x07 then [0x60, 0x30, 0x37] else [b] := by
  unfold encodeByte
  by_cases h1 : b = 0x60
  · subst h1; decide
  · by_cases h2 : b = 0x07
    · subst h2; decide
    · have h1' : ¬ b = Char.BACKTICK := h1
      have h2' : ¬ b = Char.BEL := h2
      simp [h1, h2, h1', h2']

theorem bel_not_mem_encodeByte (b : Byte) : Char.BEL ∉ encodeByte b := by
  rw [encodeByte_eq]
  by_cases h1 : b = 0x60
  · rw [if_pos h1]; decide
  · by_cases h2 : b = 0x07
    · rw [if_neg h1, if_pos h2]; decide
    · rw [if_neg h1, if_neg h2]
      simp only [List.mem_singleton]
      exact fun h => h2 h.symm

theorem bel_not_mem_Encode (buf : Bytes) : Char.BEL ∉ Encode buf := by
  induction buf with
  | nil => simp [Encode]
  | cons b rest ih =>
    simp only [Encode, List.mem_append, not_or]
    exact ⟨bel_not_mem_encodeByte b, ih⟩

/-- C10: `Encode` writes every byte of the buffer as itself, except the backtick (0x60),
written as a backtick followed by `6` `0`, and `BEL` (0x07), written as a backtick followed by
`0` `7`; the output holds no `BEL` byte. -/
theorem Encode_spec (buf : Bytes) :
    Encode buf = buf.flatMap (fun b =>
        if b = 0x60 then [0x60, 0x36, 0x30] else if b = 0x07 then [0x60, 0x30, 0x37] else [b]) ∧
      (0x07 : Byte) ∉ Encode buf := by
  refine ⟨?_, bel_not_mem_Encode buf⟩
  induction buf with
  | nil => rfl
  | cons b rest ih => rw [Encode, List.flatMap_cons, ih, encodeByte_eq]

/-- Decoding what `Encode` wrote for one byte. -/
theorem DecodeChar_encodeByte (b : Byte) (rest : Bytes) :
    ∃ c r, encodeByte b ++ rest = c :: r ∧ DecodeChar c r = .ok (b, rest) := by
  rw [encodeByte_eq]
  by_cases h1 : b = 0x60
  · subst h1
    exact ⟨0x60, 0x36 :: 0x30 :: rest, rfl, rfl⟩
  · by_cases h2 : b = 0x07
    · subst h2
      exact ⟨0x60, 0x30 :: 0x37 :: rest, rfl, rfl⟩
    · rw [if_neg h1, if_neg h2]
      exact ⟨b, rest, rfl, DecodeChar_plain b rest h1⟩

/-- Decoding an encoded buffer gives the buffer back. -/
theorem Decode_Encode (p into : Bytes) : Decode into (Encode p) = (into ++ p, none) := by
  induction p generalizing into with
  | nil => simp [Encode, Decode_nil]
  | cons b rest ih =>
    obtain ⟨c, r, h1, h2⟩ := DecodeChar_encodeByte b (Encode rest)
    rw [Encode, h1, Decode_cons, h2]
    simp only
    rw [ih]
    simp

/-- A quote with a byte that is not a hexadecimal digit is rejected. -/
theorem DecodeChar_quote_bad (h1 h2 : Byte) (r : Bytes)
    (h : Char.IsHexadecimalDigit h1 = false ∨ Char.IsHexadecimalDigit h2 = false) :
    ∃ e, DecodeChar Char.BACKTICK (h1 :: h2 :: r) = .error e := by
  rw [DecodeChar_quote]
  rcases h with hh | hh
  · obtain ⟨e, he⟩ := (parseHex_error_iff h1).mpr hh
    rw [he]
    cases Char.ParseHexadecimalDigit h2 <;> exact ⟨_, rfl⟩
  · obtain ⟨e, he⟩ := (parseHex_error_iff h2).mpr hh
    rw [he]
    cases Char.ParseHexadecimalDigit h1 <;> exact ⟨_, rfl⟩

/-- The function `DecodeChar` at a backtick whose quote is malformed fails. -/
theorem DecodeChar_malformed (tail : Bytes) (h : quoteMalformed tail = true) :
    ∃ e, DecodeChar Char.BACKTICK tail = .error e := by
  match tail, h with
  | [], _ => exact ⟨_, rfl⟩
  | [_], _ => exact ⟨_, rfl⟩
  | h1 :: h2 :: r, h =>
    apply DecodeChar_quote_bad
    simp only [quoteMalformed, Bool.not_eq_true', Bool.and_eq_false_iff] at h
    exact h

/-- A malformed quote anywhere in the buffer makes `Decode` fail. -/
theorem Decode_malformed (n : Nat) : ∀ (into pre tail : Bytes), pre.length ≤ n →
    quoteMalformed tail = true →
    ∃ out e, Decode into (pre ++ Char.BACKTICK :: tail) = (out, some e) := by
  induction n with
  | zero =>
    intro into pre tail h hbad
    have : pre = [] := List.length_eq_zero.mp (by omega)
    subst this
    obtain ⟨e, he⟩ := DecodeChar_malformed tail hbad
    rw [List.nil_append, Decode_cons, he]
    exact ⟨_, _, rfl⟩
  | succ n ih =>
    intro into pre tail h hbad
    match pre, h with
    | [], _ =>
      obtain ⟨e, he⟩ := DecodeChar_malformed tail hbad
      rw [List.nil_append, Decode_cons, he]
      exact ⟨_, _, rfl⟩
    | c :: r, h =>
      simp only [List.length_cons] at h
      rw [List.cons_append, Decode_cons]
      by_cases hc : c = Char.BACKTICK
      · subst hc
        match r, h with
        | [], _ =>
          obtain ⟨e, he⟩ := DecodeChar_quote_bad Char.BACKTICK
            (tail.headD 0) (tail.tail) (Or.inl (by decide))
          cases tail with
          | nil => exact ⟨_, _, rfl⟩
          | cons t ts =>
            simp only [List.headD_cons, List.tail_cons] at he
            rw [List.nil_append, he]
            exact ⟨_, _, rfl⟩
        | [x], _ =>
          obtain ⟨e, he⟩ := DecodeChar_quote_bad x Char.BACKTICK tail (Or.inr (by decide))
          rw [List.cons_append, List.nil_append, he]
          exact ⟨_, _, rfl⟩
        | x :: y :: r', h =>
          simp only [List.length_cons] at h
          rw [List.cons_append, List.cons_append, DecodeChar_quote]
          cases e1 : Char.ParseHexadecimalDigit x with
          | error e => cases Char.ParseHexadecimalDigit y <;> exact ⟨_, _, rfl⟩
          | ok a =>
            cases e2 : Char.ParseHexadecimalDigit y with
            | error e => exact ⟨_, _, rfl⟩
            | ok b => exact ih _ r' tail (by omega) hbad
      · rw [DecodeChar_plain c _ hc]
        exact ih _ r tail (by omega) hbad

/-- C9: a backtick followed by fewer than two bytes, or by two bytes one of which is not a
hexadecimal digit, makes `Decode` fail wherever it stands in the buffer; when the bytes before
it decode without error, the buffer then holds exactly the bytes decoded before the backtick
and nothing for the quote; a backtick followed by exactly two hexadecimal digits at the very
end of the buffer is accepted. -/
theorem Decode_quote :
    (∀ into pre tail : Bytes, quoteMalformed tail = true →
        ∃ out e, Decode into (pre ++ Char.BACKTICK :: tail) = (out, some e)) ∧
      (∀ into pre out tail : Bytes, Decode into pre = (out, none) →
        quoteMalformed tail = true →
        ∃ e, Decode into (pre ++ Char.BACKTICK :: tail) = (out, some e)) ∧
      (∀ (into pre out : Bytes) (h1 h2 : Byte), Decode into pre = (out, none) →
        Char.IsHexadecimalDigit h1 = true → Char.IsHexadecimalDigit h2 = true →
        ∃ a b, Char.ParseHexadecimalDigit h1 = .ok a ∧ Char.ParseHexadecimalDigit h2 = .ok b ∧
          Decode into (pre ++ [Char.BACKTICK, h1, h2]) =
            (out ++ [UInt8.ofNat ((a * 16 + b) % 256)], none)) := by
  refine ⟨fun into pre tail hbad => Decode_malformed pre.length into pre tail (Nat.le_refl _) hbad,
    ?_, ?_⟩
  · intro into pre out tail hpre hbad
    obtain ⟨e, he⟩ := DecodeChar_malformed tail hbad
    rw [Decode_append pre.length into pre out _ (Nat.le_refl _) hpre, Decode_cons, he]
    exact ⟨e, rfl⟩
  · intro into pre out h1 h2 hpre hh1 hh2
    have ok_of : ∀ c : Byte, Char.IsHexadecimalDigit c = true →
        ∃ a, Char.ParseHexadecimalDigit c = .ok a := by
      intro c hc
      cases e : Char.ParseHexadecimalDigit c with
      | ok a => exact ⟨a, rfl⟩
      | error e' =>
        have := (parseHex_error_iff c).mp ⟨e', e⟩
        rw [hc] at this
        cases this
    obtain ⟨a, ha⟩ := ok_of h1 hh1
    obtain ⟨b, hb⟩ := ok_of h2 hh2
    refine ⟨a, b, ha, hb, ?_⟩
    rw [Decode_append pre.length into pre out _ (Nat.le_refl _) hpre, Decode_cons,
      DecodeChar_quote, ha, hb]
    simp only
    rw [Decode_nil]

/-- Witness for C9: after the decoded front part `a`, the truncated quote of `` a`4 ``
and the malformed quote of `` a`4x `` fail, and `` a`41 `` decodes to `aA`. -/
theorem Decode_quote_witness :
    (∃ out e, Decode [] ([0x61] ++ Char.BACKTICK :: [0x34]) = (out, some e)) ∧
      (∃ e, Decode [] ([0x61] ++ Char.BACKTICK :: [0x34, 0x78]) = ([0x61], some e)) ∧
      (∃ a b, Char.ParseHexadecimalDigit 0x34 = .ok a ∧ Char.ParseHexadecimalDigit 0x31 = .ok b ∧
        Decode [] ([0x61] ++ [Char.BACKTICK, 0x34, 0x31]) =
          ([0x61] ++ [UInt8.ofNat ((a * 16 + b) % 256)], none)) :=
  ⟨Decode_quote.1 [] [0x61] [0x34] (by decide),
   Decode_quote.2.1 [] [0x61] [0x61] [0x34, 0x78] rfl (by decide),
   Decode_quote.2.2 [] [0x61] [0x61] 0x34 0x31 rfl (by decide) (by decide)⟩

/-! ## Theorems: the `Data` sequence -/

/-- The decoding constructor of `Data` on well-formed fields: it compares the size field with
the number of decoded payload bytes. -/
theorem Data_decode_fields (start s1 s2 s3 b : Bytes) (id packet size : Nat)
    (h1 : ReadUnsigned start = .ok (id, s1)) (h2 : ReadUnsigned s1 = .ok (packet, s2))
    (h3 : ReadUnsigned s2 = .ok (size, s3)) (hd : Decode [] s3 = (b, none)) :
    Data.decode start =
      if size ≠ b.length then .error Error.IOError
      else .ok { kind_ := Kind.Data, id_ := id, packet_ := packet, size_ := size,
                 payload_ := b } := by
  unfold Data.decode
  rw [h1]
  simp only
  rw [h2]
  simp only
  rw [h3]
  simp only
  rw [hd]

/-- C7: with well-formed stream id, packet and size fields and a payload field that decodes
to the bytes `b`, the decoding constructor of `Data` fails with an `IOError`, building no
object, when the size field differs from the length of `b`, and it succeeds if and only if
the size field equals the length of `b`. -/
theorem Data_decode_size_check (start s1 s2 s3 b : Bytes) (id packet size : Nat)
    (h1 : ReadUnsigned start = .ok (id, s1)) (h2 : ReadUnsigned s1 = .ok (packet, s2))
    (h3 : ReadUnsigned s2 = .ok (size, s3)) (hd : Decode [] s3 = (b, none)) :
    (size ≠ b.length → Data.decode start = .error Error.IOError) ∧
      ((∃ d, Data.decode start = .ok d) ↔ size = b.length) ∧
      (size = b.length → Data.decode start =
        .ok { kind_ := Kind.Data, id_ := id, packet_ := packet, size_ := size,
              payload_ := b }) := by
  have h := Data_decode_fields start s1 s2 s3 b id packet size h1 h2 h3 hd
  refine ⟨fun hne => by rw [h, if_pos hne], ⟨?_, fun he => ⟨_, by rw [h, if_neg (not_not.mpr he)]⟩⟩,
    fun he => by rw [h, if_neg (not_not.mpr he)]⟩
  rintro ⟨d, hdec⟩
  by_contra hne
  rw [h, if_pos hne] at hdec
  cases hdec

/-- Witness for C7: the payload `` 1;0;2;a`60b `` announces 2 bytes and carries 3. -/
theorem Data_decode_size_check_witness :
    ((2 : Nat) ≠ [(0x61 : Byte), 0x60, 0x62].length →
        Data.decode [0x31, 0x3B, 0x30, 0x3B, 0x32, 0x3B, 0x61, 0x60, 0x36, 0x30, 0x62] =
          .error Error.IOError) ∧
      ((∃ d, Data.decode [0x31, 0x3B, 0x30, 0x3B, 0x32, 0x3B, 0x61, 0x60, 0x36, 0x30, 0x62] =
          .ok d) ↔ (2 : Nat) = [(0x61 : Byte), 0x60, 0x62].length) ∧
      ((2 : Nat) = [(0x61 : Byte), 0x60, 0x62].length →
        Data.decode [0x31, 0x3B, 0x30, 0x3B, 0x32, 0x3B, 0x61, 0x60, 0x36, 0x30, 0x62] =
          .ok { kind_ := Kind.Data, id_ := 1, packet_ := 0, size_ := 2,
                payload_ := [0x61, 0x60, 0x62] }) :=
  Data_decode_size_check [0x31, 0x3B, 0x30, 0x3B, 0x32, 0x3B, 0x61, 0x60, 0x36, 0x30, 0x62]
    [0x30, 0x3B, 0x32, 0x3B, 0x61, 0x60, 0x36, 0x30, 0x62]
    [0x32, 0x3B, 0x61, 0x60, 0x36, 0x30, 0x62] [0x61, 0x60, 0x36, 0x30, 0x62]
    [0x61, 0x60, 0x62] 1 0 2 rfl rfl rfl rfl

/-- Whatever the decoding constructor of `Data` builds has `size_` equal to the length of
its payload. -/
theorem Data_decode_size (start : Bytes) (d : Data) (h : Data.decode start = .ok d) :
    d.size_ = d.payload_.length := by
  unfold Data.decode at h
  cases h1 : ReadUnsigned start with
  | error e => rw [h1] at h; cases h
  | ok r1 =>
    obtain ⟨id, s1⟩ := r1
    rw [h1] at h
    simp only at h
    cases h2 : ReadUnsigned s1 with
    | error e => rw [h2] at h; cases h
    | ok r2 =>
      obtain ⟨packet, s2⟩ := r2
      rw [h2] at h
      simp only at h
      cases h3 : ReadUnsigned s2 with
      | error e => rw [h3] at h; cases h
      | ok r3 =>
        obtain ⟨size, s3⟩ := r3
        rw [h3] at h
        simp only at h
        cases hd : Decode [] s3 with
        | mk b err =>
          rw [hd] at h
          cases err with
          | some e => cases h
          | none =>
            simp only at h
            by_cases hs : size = b.length
            · rw [if_neg (not_not.mpr hs)] at h
              cases h
              exact hs
            · rw [if_pos hs] at h
              cases h

/-- C8: for each of the three constructors of `Data` (from a payload byte range, from a
stream with a requested size, decoded from a wire payload) the object built has `size()`
equal to the number of payload bytes it holds. -/
theorem Data_size_invariant :
    (∀ (id packet : Nat) (payload : Bytes),
        (Data.ofPayload id packet payload).size_ =
          (Data.ofPayload id packet payload).payload_.length) ∧
      (∀ (id packet size : Nat) (s : Bytes),
        (Data.ofStream id packet size s).size_ =
          (Data.ofStream id packet size s).payload_.length) ∧
      (∀ (start : Bytes) (d : Data), Data.decode start = .ok d →
        d.size_ = d.payload_.length) :=
  ⟨fun _ _ _ => rfl, fun _ _ _ _ => rfl, Data_decode_size⟩

/-- Witness for C8: the three constructors on the payload `` a`b `` (the stream constructor
asked for 5 bytes of a stream that holds 3). -/
theorem Data_size_invariant_witness :
    (Data.ofPayload 1 0 [0x61, 0x60, 0x62]).size_ = 3 ∧
      (Data.ofStream 1 0 5 [0x61, 0x60, 0x62]).size_ =
        (Data.ofStream 1 0 5 [0x61, 0x60, 0x62]).payload_.length ∧
      (({ kind_ := Kind.Data, id_ := 1, packet_ := 0, size_ := 3,
          payload_ := [0x61, 0x60, 0x62] } : Data).size_ =
        ({ kind_ := Kind.Data, id_ := 1, packet_ := 0, size_ := 3,
           payload_ := [0x61, 0x60, 0x62] } : Data).payload_.length) :=
  ⟨Data_size_invariant.1 1 0 [0x61, 0x60, 0x62], Data_size_invariant.2.1 1 0 5 [0x61, 0x60, 0x62],
   Data_size_invariant.2.2 [0x31, 0x3B, 0x30, 0x3B, 0x33, 0x3B, 0x61, 0x60, 0x36, 0x30, 0x62]
     _ rfl⟩

/-! ## Theorems: frames -/

theorem FindSequenceStart_leadIn (x : Bytes) :
    FindSequenceStart (Char.ESC :: 0x50 :: 0x2B :: x) = Char.ESC :: 0x50 :: 0x2B :: x := by
  simp [FindSequenceStart]

theorem FindSequenceEnd_append (pl rest : Bytes) (h : Char.BEL ∉ pl) :
    FindSequenceEnd (pl ++ Char.BEL :: rest) = Char.BEL :: rest := by
  induction pl with
  | nil => simp [FindSequenceEnd]
  | cons c pl ih =>
    simp only [List.mem_cons, not_or] at h
    have hc : ¬ c = Char.BEL := fun e => h.1 e.symm
    rw [List.cons_append, FindSequenceEnd, if_neg hc]
    exact ih h.2

theorem toDecimal_kind (k : Kind) : toDecimal k.toNat = [UInt8.ofNat (0x30 + k.toNat)] := by
  cases k <;> rfl

theorem ParseKind_sep (k : Kind) (rest : Bytes) :
    ParseKind (UInt8.ofNat (0x30 + k.toNat) :: Char.SEMICOLON :: rest) = (k, rest) := by
  cases k <;> rfl

theorem bel_ne_kind_digit (k : Kind) : ¬ Char.BEL = UInt8.ofNat (0x30 + k.toNat) := by
  cases k <;> decide

/-- Parsing a frame `ESC P + kind ; fields BEL`: the decoding constructor of the kind runs on
the fields and the whole frame is consumed. -/
theorem parse_frame (k : Kind) (fs : Bytes) (hbel : Char.BEL ∉ fs) :
    parse ([Char.ESC, 0x50, 0x2B] ++ (toDecimal k.toNat ++ Char.SEMICOLON :: fs) ++ [Char.BEL]) =
      ParseResult.parsed (decodeFields k fs) (fs.length + 6) := by
  have hfs : Char.BEL ∉ UInt8.ofNat (0x30 + k.toNat) :: Char.SEMICOLON :: fs := by
    simp only [List.mem_cons, not_or]
    exact ⟨bel_ne_kind_digit k, by decide, hbel⟩
  have hend := FindSequenceEnd_append _ [] hfs
  have hbuf : [Char.ESC, 0x50, 0x2B] ++ (toDecimal k.toNat ++ Char.SEMICOLON :: fs) ++ [Char.BEL] =
      Char.ESC :: 0x50 :: 0x2B ::
        ((UInt8.ofNat (0x30 + k.toNat) :: Char.SEMICOLON :: fs) ++ [Char.BEL]) := by
    rw [toDecimal_kind]
    simp
  rw [hbuf]
  unfold parse
  rw [FindSequenceStart_leadIn]
  simp only
  rw [hend]
  simp only
  rw [List.cons_append, List.cons_append, ParseKind_sep]
  simp

theorem bel_not_mem_toDecimal (n : Nat) : Char.BEL ∉ toDecimal n := by
  intro h
  have := (toDecimal_spec n).2.1 _ h
  revert this
  decide

theorem bel_not_mem_WriteString (v : Bytes) (h : Char.BEL ∉ v) : Char.BEL ∉ WriteString v := by
  unfold WriteString
  simp only [List.mem_append, List.mem_singleton, not_or]
  exact ⟨⟨⟨bel_not_mem_toDecimal _, by decide⟩, h⟩, by decide⟩

/-- The decoding constructor of `Data` on the fields `Data::writeTo` writes. -/
theorem Data_decode_written (id packet : Nat) (p : Bytes)
    (hid : id < 2 ^ 64) (hpk : packet < 2 ^ 64) (hlen : p.length < 2 ^ 64) :
    Data.decode (toDecimal id ++ Char.SEMICOLON :: (toDecimal packet ++ Char.SEMICOLON ::
        (toDecimal p.length ++ Char.SEMICOLON :: Encode p))) =
      .ok (Data.ofPayload id packet p) := by
  have h := Data_decode_fields _ _ _ _ p id packet p.length
    (ReadUnsigned_toDecimal_sep id _ hid) (ReadUnsigned_toDecimal_sep packet _ hpk)
    (ReadUnsigned_toDecimal_sep p.length _ hlen) (by simpa using Decode_Encode p [])
  rw [h, if_neg (not_not.mpr rfl)]
  rfl

/-- C4: for every stream id and packet number in the range of `size_t` and every byte array
`p`, `BEL` and backtick bytes included, decoding the emitted form of the `Data` sequence
built from them succeeds and gives a `Data` with the same id and packet, size `len(p)` and a
payload equal to `p`: both for the decoding constructor run on the fields `writeTo` wrote
after the kind and for the parser run on the emitted frame, which it consumes entirely. -/
theorem Data_payload_fidelity (id packet : Nat) (p : Bytes)
    (hid : id < 2 ^ 64) (hpk : packet < 2 ^ 64) (hlen : p.length < 2 ^ 64) :
    Data.decode ((writeTo (ofData (Data.ofPayload id packet p))).drop 2) =
        .ok { kind_ := Kind.Data, id_ := id, packet_ := packet, size_ := p.length,
              payload_ := p } ∧
      parse (PTYBase.frame (ofData (Data.ofPayload id packet p))) =
        ParseResult.parsed
          (some (ofData { kind_ := Kind.Data, id_ := id, packet_ := packet, size_ := p.length,
                          payload_ := p }))
          (PTYBase.frame (ofData (Data.ofPayload id packet p))).length := by
  have hw : writeTo (ofData (Data.ofPayload id packet p)) =
      toDecimal Kind.Data.toNat ++ Char.SEMICOLON :: (toDecimal id ++ Char.SEMICOLON ::
        (toDecimal packet ++ Char.SEMICOLON ::
          (toDecimal p.length ++ Char.SEMICOLON :: Encode p))) := by
    simp [writeTo, Data.ofPayload]
  have hdec := Data_decode_written id packet p hid hpk hlen
  have hbel : Char.BEL ∉ toDecimal id ++ Char.SEMICOLON :: (toDecimal packet ++
      Char.SEMICOLON :: (toDecimal p.length ++ Char.SEMICOLON :: Encode p)) := by
    simp only [List.mem_append, List.mem_cons, not_or]
    exact ⟨bel_not_mem_toDecimal _, by decide, bel_not_mem_toDecimal _, by decide,
      bel_not_mem_toDecimal _, by decide, bel_not_mem_Encode p⟩
  constructor
  · rw [hw, toDecimal_kind]
    exact hdec
  · have hp := parse_frame Kind.Data _ hbel
    unfold PTYBase.frame
    rw [hw, hp]
    simp only [decodeFields, hdec]
    congr 1
    rw [toDecimal_kind]
    simp only [List.length_append, List.length_cons, List.length_nil]
    omega

/-- Witness for C4: the payload `a`, backtick, `BEL`, `0xFF` on stream `2^64 - 1`. -/
theorem Data_payload_fidelity_witness :
    Data.decode ((writeTo (ofData (Data.ofPayload 18446744073709551615 7
          [0x61, 0x60, 0x07, 0xFF]))).drop 2) =
        .ok { kind_ := Kind.Data, id_ := 18446744073709551615, packet_ := 7,
              size_ := [(0x61 : Byte), 0x60, 0x07, 0xFF].length,
              payload_ := [0x61, 0x60, 0x07, 0xFF] } ∧
      parse (PTYBase.frame (ofData (Data.ofPayload 18446744073709551615 7
          [0x61, 0x60, 0x07, 0xFF]))) =
        ParseResult.parsed
          (some (ofData { kind_ := Kind.Data, id_ := 18446744073709551615, packet_ := 7,
                          size_ := [(0x61 : Byte), 0x60, 0x07, 0xFF].length,
                          payload_ := [0x61, 0x60, 0x07, 0xFF] }))
          (PTYBase.frame (ofData (Data.ofPayload 18446744073709551615 7
            [0x61, 0x60, 0x07, 0xFF]))).length :=
  Data_payload_fidelity 18446744073709551615 7 [0x61, 0x60, 0x07, 0xFF]
    (by decide) (by decide) (by decide)

/-- Reading back an unsigned value that ends the fields of its kind, with extra bytes after
it that are empty or begin with `;`. -/
theorem ReadUnsigned_toDecimal_extra (n : Nat) (x : Bytes) (h : n < 2 ^ 64)
    (hx : x = [] ∨ ∃ x', x = Char.SEMICOLON :: x') :
    ∃ rest, ReadUnsigned (toDecimal n ++ x) = .ok (n, rest) := by
  rcases hx with rfl | ⟨x', rfl⟩
  · exact ⟨[], by rw [List.append_nil]; exact ReadUnsigned_toDecimal_end n h⟩
  · exact ⟨x', ReadUnsigned_toDecimal_sep n x' h⟩

theorem Nack_decode_written (request reason x : Bytes)
    (hr : request.length < 2 ^ 64) (hs : reason.length < 2 ^ 64) :
    Nack.decode (WriteString request ++ (WriteString reason ++ x)) =
      .ok ({ kind_ := Kind.Nack, request_ := request, reason_ := reason }, x) := by
  unfold Nack.decode
  rw [ReadString_WriteString _ _ hr]
  simp only
  rw [ReadString_WriteString _ _ hs]

theorem Capabilities_decode_written (version : Nat) (x : Bytes) (hv : version < 2 ^ 64)
    (hx : x = [] ∨ ∃ x', x = Char.SEMICOLON :: x') :
    Capabilities.decode (toDecimal version ++ x) =
      .ok { kind_ := Kind.Capabilities, version_ := version } := by
  obtain ⟨rest, h⟩ := ReadUnsigned_toDecimal_extra version x hv hx
  unfold Capabilities.decode
  rw [h]

theorem digit_value_pos (c : Byte) (hc : IsDecimalDigit c = true) (h0 : c ≠ 0x30) :
    1 ≤ DecCharToNumber c := by
  have h1 : c.toNat ≠ 0x30 := by
    intro e
    apply h0
    have h2 : UInt8.ofNat c.toNat = c := by
      cases c with
      | mk val => simp [UInt8.ofNat, UInt8.toNat]
    rw [← h2, e]
    rfl
  simp only [IsDecimalDigit, Bool.and_eq_true, decide_eq_true_eq] at hc
  unfold DecCharToNumber
  omega

/-- The digit reader never returns less than the value it started with. -/
theorem readDigits_ge : ∀ (l : Bytes) (a v : Nat) (r : Bytes),
    readDigits a l = .ok (v, r) → a ≤ v
  | [], a, v, r, h => by
    simp only [readDigits, Except.ok.injEq, Prod.mk.injEq] at h
    omega
  | c :: rest, a, v, r, h => by
    rw [readDigits_cons] at h
    by_cases hc : IsDecimalDigit c = true
    · rw [if_pos hc] at h
      by_cases hf : a * 10 + DecCharToNumber c < 2 ^ 64
      · rw [if_pos hf] at h
        have := readDigits_ge rest _ v r h
        omega
      · rw [if_neg hf] at h
        cases h
    · rw [if_neg hc] at h
      simp only [Except.ok.injEq, Prod.mk.injEq] at h
      omega

/-- The digit reader on a run of digits followed by anything. -/
theorem readDigits_digits (ds rest : Bytes) (a : Nat)
    (hdig : ∀ c ∈ ds, IsDecimalDigit c = true)
    (hfit : ds.foldl (fun acc c => acc * 10 + DecCharToNumber c) a < 2 ^ 64) :
    readDigits a (ds ++ rest) =
      readDigits (ds.foldl (fun acc c => acc * 10 + DecCharToNumber c) a) rest := by
  induction ds generalizing a with
  | nil => rfl
  | cons c ds ih =>
    have hc : IsDecimalDigit c = true := hdig c (by simp)
    simp only [List.foldl_cons] at hfit ⊢
    have hge := OSCSequence.foldl_digits_ge ds (a * 10 + DecCharToNumber c)
    rw [List.cons_append, readDigits_cons, hc, if_pos rfl, if_pos (by omega)]
    exact ih _ (fun c' h' => hdig c' (by simp [h'])) hfit

/-- Reading an unsigned value that was written, with any bytes behind it: the digit reader
goes on from the value. -/
theorem ReadUnsigned_toDecimal_append (n : Nat) (x : Bytes) (h : n < 2 ^ 64) :
    ReadUnsigned (toDecimal n ++ x) =
      match readDigits n x with
      | .ok (v, []) => .ok (v, [])
      | .ok (v, d :: rest') =>
        if d = Char.SEMICOLON then .ok (v, rest') else .error Error.MissingSeparator
      | .error e => .error e := by
  obtain ⟨h1, h2, h3⟩ := toDecimal_spec n
  obtain ⟨c, ds, hcd⟩ := List.exists_cons_of_ne_nil h1
  rw [hcd] at h2 h3 ⊢
  have hc : IsDecimalDigit c = true := h2 c (by simp)
  have hv : ds.foldl (fun acc c => acc * 10 + DecCharToNumber c) (DecCharToNumber c) = n := by
    simpa [OSCSequence.decimalValue] using h3
  have hrun := readDigits_digits ds x (DecCharToNumber c)
    (fun c' h' => h2 c' (by simp [h'])) (by omega)
  rw [List.cons_append, ReadUnsigned_cons, hc, if_pos rfl, hrun, hv]

/-- An extra byte other than `;` behind an unsigned value changes what is read, unless it is
the digit `0` behind the value 0. -/
theorem ReadUnsigned_toDecimal_changed (n : Nat) (c : Byte) (x' : Bytes) (h : n < 2 ^ 64)
    (hc : c ≠ Char.SEMICOLON) (h0 : c ≠ 0x30 ∨ n ≠ 0) (rest : Bytes) :
    ReadUnsigned (toDecimal n ++ c :: x') ≠ .ok (n, rest) := by
  rw [ReadUnsigned_toDecimal_append n _ h, readDigits_cons]
  by_cases hd : IsDecimalDigit c = true
  · rw [if_pos hd]
    by_cases hf : n * 10 + DecCharToNumber c < 2 ^ 64
    · rw [if_pos hf]
      have hgt : n < n * 10 + DecCharToNumber c := by
        rcases h0 with h0 | h0
        · have := digit_value_pos c hd h0
          omega
        · omega
      cases hr : readDigits (n * 10 + DecCharToNumber c) x' with
      | error e => simp
      | ok p =>
        obtain ⟨v, r⟩ := p
        have hge := readDigits_ge x' _ v r hr
        cases r with
        | nil =>
          simp only [ne_eq, Except.ok.injEq, Prod.mk.injEq, not_and]
          intro e
          omega
        | cons d r' =>
          simp only
          split
          · simp only [ne_eq, Except.ok.injEq, Prod.mk.injEq, not_and]
            intro e
            omega
          · simp
    · rw [if_neg hf]
      simp
  · rw [if_neg hd]
    simp only [if_neg hc]
    simp

/-- The digit `0` behind the value 0 is read as part of it. -/
theorem ReadUnsigned_zero_zero (x' : Bytes) :
    ReadUnsigned (toDecimal 0 ++ 0x30 :: x') = ReadUnsigned (toDecimal 0 ++ x') := by
  rw [ReadUnsigned_toDecimal_append 0 _ (by decide), ReadUnsigned_toDecimal_append 0 _ (by decide),
    readDigits_cons]
  rfl

theorem parse_fields (s : Sequence) (x : Bytes) (k : Kind) (fs : Bytes)
    (hsp : PTYBase.spliced s x =
      [Char.ESC, 0x50, 0x2B] ++ (toDecimal k.toNat ++ Char.SEMICOLON :: fs) ++ [Char.BEL])
    (hbel : Char.BEL ∉ fs) :
    parse (PTYBase.spliced s x) =
      ParseResult.parsed (decodeFields k fs) (PTYBase.spliced s x).length := by
  rw [hsp, parse_frame k fs hbel, toDecimal_kind]
  congr 1
  simp only [List.length_append, List.length_cons, List.length_nil]
  omega

/-- A sequence built from the value read for its last field is the one that was written
exactly when the value read is the one written. -/
theorem readBack_iff (n : Nat) (res : Except Error (Nat × Bytes)) (f : Nat → Sequence)
    (hinj : ∀ v, f v = f n → v = n) :
    (match res with
      | .ok (v, _) => some (f v)
      | .error _ => none) = some (f n) ↔ ∃ rest, res = .ok (n, rest) := by
  cases res with
  | error e =>
    constructor
    · intro h
      cases h
    · rintro ⟨rest, h⟩
      cases h
  | ok p =>
    obtain ⟨v, r⟩ := p
    constructor
    · intro h
      have h1 := hinj v (Option.some.inj h)
      rw [h1]
      exact ⟨r, rfl⟩
    · rintro ⟨rest, h⟩
      cases h
      rfl

/-- What the parser gives for a frame with extra bytes: the whole frame is consumed, and the
sequence is the one that was written exactly when its last unsigned field, read with the
extra bytes behind it, still has its value. -/
theorem parse_spliced_result (s : Sequence) (x : Bytes) (hv : s.valid)
    (hk : s.kind ≠ Kind.GetCapabilities ∧ s.kind ≠ Kind.Data) (hs : s.stringsBelFree)
    (hbel : Char.BEL ∉ x) :
    ∃ o, parse (PTYBase.spliced s x) = ParseResult.parsed o (PTYBase.spliced s x).length ∧
      (o = some s ↔
        ∀ n, lastUnsigned s = some n → ∃ rest, ReadUnsigned (toDecimal n ++ x) = .ok (n, rest)) := by
  cases s with
  | ofAck a =>
    obtain ⟨k_, request, id⟩ := a
    obtain ⟨hkind, hr, hid⟩ := hv
    simp only at hkind hr hid
    subst hkind
    refine ⟨_, parse_fields _ x Kind.Ack (WriteString request ++ (toDecimal id ++ x))
      (by simp [PTYBase.spliced, writeTo]) ?_, ?_⟩
    · simp only [List.mem_append, not_or]
      exact ⟨bel_not_mem_WriteString _ hs, bel_not_mem_toDecimal _, hbel⟩
    · have he : decodeFields Kind.Ack (WriteString request ++ (toDecimal id ++ x)) =
          match ReadUnsigned (toDecimal id ++ x) with
          | .ok (v, _) => some (ofAck { kind_ := Kind.Ack, request_ := request, id_ := v })
          | .error _ => none := by
        simp only [decodeFields]
        unfold Ack.decode
        rw [ReadString_WriteString _ _ hr]
        simp only
        cases ReadUnsigned (toDecimal id ++ x) <;> rfl
      rw [he, readBack_iff id _
        (fun v => ofAck { kind_ := Kind.Ack, request_ := request, id_ := v })
        (fun v h => by cases h; rfl)]
      exact ⟨(fun h n hn => by cases hn; exact h), fun h => h id rfl⟩
  | ofNack a =>
    obtain ⟨k_, request, reason⟩ := a
    obtain ⟨hkind, hr, hre⟩ := hv
    simp only at hkind hr hre
    subst hkind
    have hd := Nack_decode_written request reason x hr hre
    refine ⟨_, parse_fields _ x Kind.Nack (WriteString request ++ (WriteString reason ++ x))
      (by simp [PTYBase.spliced, writeTo]) ?_, ?_⟩
    · simp only [List.mem_append, not_or]
      exact ⟨bel_not_mem_WriteString _ hs.1, bel_not_mem_WriteString _ hs.2, hbel⟩
    · simp only [decodeFields, hd]
      exact ⟨(fun _ n hn => by cases hn), (fun _ => trivial)⟩
  | ofGetCapabilities a => exact absurd hv hk.1
  | ofCapabilities a =>
    obtain ⟨k_, version⟩ := a
    obtain ⟨hkind, hver⟩ := hv
    simp only at hkind hver
    subst hkind
    refine ⟨_, parse_fields _ x Kind.Capabilities (toDecimal version ++ x)
      (by simp [PTYBase.spliced, writeTo]) ?_, ?_⟩
    · simp only [List.mem_append, not_or]
      exact ⟨bel_not_mem_toDecimal _, hbel⟩
    · have he : decodeFields Kind.Capabilities (toDecimal version ++ x) =
          match ReadUnsigned (toDecimal version ++ x) with
          | .ok (v, _) => some (ofCapabilities { kind_ := Kind.Capabilities, version_ := v })
          | .error _ => none := by
        simp only [decodeFields]
        unfold Capabilities.decode
        cases ReadUnsigned (toDecimal version ++ x) <;> rfl
      rw [he, readBack_iff version _
        (fun v => ofCapabilities { kind_ := Kind.Capabilities, version_ := v })
        (fun v h => by cases h; rfl)]
      exact ⟨(fun h n hn => by cases hn; exact h), fun h => h version rfl⟩
  | ofData a => exact absurd hv.1 hk.2
  | ofOpenFileTransfer a =>
    obtain ⟨k_, host, path, size⟩ := a
    obtain ⟨hkind, hh, hp, hsz⟩ := hv
    simp only at hkind hh hp hsz
    subst hkind
    refine ⟨_, parse_fields _ x Kind.OpenFileTransfer
      (WriteString host ++ (WriteString path ++ (toDecimal size ++ x)))
      (by simp [PTYBase.spliced, writeTo]) ?_, ?_⟩
    · simp only [List.mem_append, not_or]
      exact ⟨bel_not_mem_WriteString _ hs.1, bel_not_mem_WriteString _ hs.2,
        bel_not_mem_toDecimal _, hbel⟩
    · have he : decodeFields Kind.OpenFileTransfer
            (WriteString host ++ (WriteString path ++ (toDecimal size ++ x))) =
          match ReadUnsigned (toDecimal size ++ x) with
          | .ok (v, _) =>
            some (ofOpenFileTransfer { kind_ := Kind.OpenFileTransfer, remoteHost_ := host,
                                       remotePath_ := path, size_ := v })
          | .error _ => none := by
        simp only [decodeFields]
        unfold OpenFileTransfer.decode
        rw [ReadString_WriteString _ _ hh]
        simp only
        rw [ReadString_WriteString _ _ hp]
        simp only
        cases ReadUnsigned (toDecimal size ++ x) <;> rfl
      rw [he, readBack_iff size _
        (fun v => ofOpenFileTransfer { kind_ := Kind.OpenFileTransfer, remoteHost_ := host,
                                       remotePath_ := path, size_ := v })
        (fun v h => by cases h; rfl)]
      exact ⟨(fun h n hn => by cases hn; exact h), fun h => h size rfl⟩
  | ofGetTransferStatus a =>
    obtain ⟨k_, id⟩ := a
    obtain ⟨hkind, hid⟩ := hv
    simp only at hkind hid
    subst hkind
    refine ⟨_, parse_fields _ x Kind.GetTransferStatus (toDecimal id ++ x)
      (by simp [PTYBase.spliced, writeTo]) ?_, ?_⟩
    · simp only [List.mem_append, not_or]
      exact ⟨bel_not_mem_toDecimal _, hbel⟩
    · have he : decodeFields Kind.GetTransferStatus (toDecimal id ++ x) =
          match ReadUnsigned (toDecimal id ++ x) with
          | .ok (v, _) =>
            some (ofGetTransferStatus { kind_ := Kind.GetTransferStatus, id_ := v })
          | .error _ => none := by
        simp only [decodeFields]
        unfold GetTransferStatus.decode
        cases ReadUnsigned (toDecimal id ++ x) <;> rfl
      rw [he, readBack_iff id _
        (fun v => ofGetTransferStatus { kind_ := Kind.GetTransferStatus, id_ := v })
        (fun v h => by cases h; rfl)]
      exact ⟨(fun h n hn => by cases hn; exact h), fun h => h id rfl⟩
  | ofTransferStatus a =>
    obtain ⟨k_, id, size, received⟩ := a
    obtain ⟨hkind, hid, hsz, hr⟩ := hv
    simp only at hkind hid hsz hr
    subst hkind
    refine ⟨_, parse_fields _ x Kind.TransferStatus
      (toDecimal id ++ Char.SEMICOLON ::
        (toDecimal size ++ Char.SEMICOLON :: (toDecimal received ++ x)))
      (by simp [PTYBase.spliced, writeTo]) ?_, ?_⟩
    · simp only [List.mem_append, List.mem_cons, not_or]
      exact ⟨bel_not_mem_toDecimal _, by decide, bel_not_mem_toDecimal _, by decide,
        bel_not_mem_toDecimal _, hbel⟩
    · have he : decodeFields Kind.TransferStatus
            (toDecimal id ++ Char.SEMICOLON ::
              (toDecimal size ++ Char.SEMICOLON :: (toDecimal received ++ x))) =
          match ReadUnsigned (toDecimal received ++ x) with
          | .ok (v, _) =>
            some (ofTransferStatus { kind_ := Kind.TransferStatus, id_ := id, size_ := size,
                                     received_ := v })
          | .error _ => none := by
        simp only [decodeFields]
        unfold TransferStatus.decode
        rw [ReadUnsigned_toDecimal_sep _ _ hid]
        simp only
        rw [ReadUnsigned_toDecimal_sep _ _ hsz]
        simp only
        cases ReadUnsigned (toDecimal received ++ x) <;> rfl
      rw [he, readBack_iff received _
        (fun v => ofTransferStatus { kind_ := Kind.TransferStatus, id_ := id, size_ := size,
                                     received_ := v })
        (fun v h => by cases h; rfl)]
      exact ⟨(fun h n hn => by cases hn; exact h), fun h => h received rfl⟩
  | ofViewRemoteFile a =>
    obtain ⟨k_, id⟩ := a
    obtain ⟨hkind, hid⟩ := hv
    simp only at hkind hid
    subst hkind
    refine ⟨_, parse_fields _ x Kind.ViewRemoteFile (toDecimal id ++ x)
      (by simp [PTYBase.spliced, writeTo]) ?_, ?_⟩
    · simp only [List.mem_append, not_or]
      exact ⟨bel_not_mem_toDecimal _, hbel⟩
    · have he : decodeFields Kind.ViewRemoteFile (toDecimal id ++ x) =
          match ReadUnsigned (toDecimal id ++ x) with
          | .ok (v, _) => some (ofViewRemoteFile { kind_ := Kind.ViewRemoteFile, id_ := v })
          | .error _ => none := by
        simp only [decodeFields]
        unfold ViewRemoteFile.decode
        cases ReadUnsigned (toDecimal id ++ x) <;> rfl
      rw [he, readBack_iff id _
        (fun v => ofViewRemoteFile { kind_ := Kind.ViewRemoteFile, id_ := v })
        (fun v h => by cases h; rfl)]
      exact ⟨(fun h n hn => by cases hn; exact h), fun h => h id rfl⟩

/-- The last field of a valid sequence is in the 64-bit range. -/
theorem lastUnsigned_lt (s : Sequence) (hv : s.valid) (n : Nat) (h : lastUnsigned s = some n) :
    n < 2 ^ 64 := by
  cases s with
  | ofAck a => cases h; exact hv.2.2
  | ofNack a => cases h
  | ofGetCapabilities a => cases h
  | ofCapabilities a => cases h; exact hv.2
  | ofData a => cases h
  | ofOpenFileTransfer a => cases h; exact hv.2.2.2
  | ofGetTransferStatus a => cases h; exact hv.2
  | ofTransferStatus a => cases h; exact hv.2.2.2
  | ofViewRemoteFile a => cases h; exact hv.2

theorem lastUnsigned_nack (s : Sequence) (h : s.kind = Kind.Nack) (hv : s.valid) :
    lastUnsigned s = none := by
  cases s with
  | ofAck a => exact absurd (hv.1.symm.trans h) (by decide)
  | ofNack a => rfl
  | ofGetCapabilities a => rfl
  | ofCapabilities a => exact absurd (hv.1.symm.trans h) (by decide)
  | ofData a => rfl
  | ofOpenFileTransfer a => exact absurd (hv.1.symm.trans h) (by decide)
  | ofGetTransferStatus a => exact absurd (hv.1.symm.trans h) (by decide)
  | ofTransferStatus a => exact absurd (hv.1.symm.trans h) (by decide)
  | ofViewRemoteFile a => exact absurd (hv.1.symm.trans h) (by decide)

/-- C6, as amended: for every valid sequence `s` of the kinds Ack, Nack, Capabilities,
OpenFileTransfer, GetTransferStatus, TransferStatus and ViewRemoteFile whose string fields
hold no `BEL`, and every extra byte string `x` without `BEL`: when `s` is a `Nack`, whose last
field is a string, or `x` is empty or begins with `;`, parsing the frame of `s` with `x`
spliced in before the terminating `BEL` gives `s` and consumes the whole frame. When the last
field of `s` is an unsigned value and `x` begins with any other byte, the parser consumes the
frame and does not give `s`, except that a digit `0` behind a last field of value 0 is read as
part of the field: then the result is `s` exactly when it is for the rest of `x`. -/
theorem parse_spliced (s : Sequence) (x : Bytes) (hv : s.valid)
    (hk : s.kind ≠ Kind.GetCapabilities ∧ s.kind ≠ Kind.Data) (hs : s.stringsBelFree)
    (hbel : Char.BEL ∉ x) :
    ((s.kind = Kind.Nack ∨ x = [] ∨ ∃ x', x = Char.SEMICOLON :: x') →
        parse (PTYBase.spliced s x) =
          ParseResult.parsed (some s) (PTYBase.spliced s x).length) ∧
      (∀ (n : Nat) (c : Byte) (x' : Bytes), lastUnsigned s = some n → x = c :: x' →
        c ≠ Char.SEMICOLON → (c ≠ 0x30 ∨ n ≠ 0) →
        ∃ o, parse (PTYBase.spliced s x) =
            ParseResult.parsed o (PTYBase.spliced s x).length ∧ o ≠ some s) ∧
      (∀ x' : Bytes, lastUnsigned s = some 0 → x = 0x30 :: x' →
        (parse (PTYBase.spliced s x) =
            ParseResult.parsed (some s) (PTYBase.spliced s x).length ↔
          parse (PTYBase.spliced s x') =
            ParseResult.parsed (some s) (PTYBase.spliced s x').length)) := by
  obtain ⟨o, ho, hiff⟩ := parse_spliced_result s x hv hk hs hbel
  refine ⟨?_, ?_, ?_⟩
  · intro hx
    rw [ho]
    congr 1
    apply hiff.2
    intro n hn
    rcases hx with hx | hx
    · rw [lastUnsigned_nack s hx hv] at hn
      cases hn
    · exact ReadUnsigned_toDecimal_extra n x (lastUnsigned_lt s hv n hn) hx
  · intro n c x' hn hx hc h0
    refine ⟨o, ho, ?_⟩
    intro e
    obtain ⟨rest, hr⟩ := hiff.1 e n hn
    rw [hx] at hr
    exact ReadUnsigned_toDecimal_changed n c x' (lastUnsigned_lt s hv n hn) hc h0 rest hr
  · intro x' hn hx
    have hbel' : Char.BEL ∉ x' := by
      rw [hx] at hbel
      exact fun h => hbel (List.mem_cons_of_mem _ h)
    obtain ⟨o', ho', hiff'⟩ := parse_spliced_result s x' hv hk hs hbel'
    have key : o = some s ↔ o' = some s := by
      rw [hiff, hiff']
      constructor
      · intro h n hn'
        obtain ⟨rest, hr⟩ := h n hn'
        rw [hn] at hn'
        cases hn'
        rw [hx, ReadUnsigned_zero_zero] at hr
        exact ⟨rest, hr⟩
      · intro h n hn'
        obtain ⟨rest, hr⟩ := h n hn'
        rw [hn] at hn'
        cases hn'
        rw [hx, ReadUnsigned_zero_zero]
        exact ⟨rest, hr⟩
    rw [ho, ho']
    constructor
    · intro h
      have h1 : o = some s := by
        injection h
      rw [key.1 h1]
    · intro h
      have h1 : o' = some s := by
        injection h
      rw [key.2 h1]

/-- Witness for C6: `Capabilities(3)` with the extra bytes `;99;99` and the `Nack` of
`GetCapabilities()` with the reason `n` and the extra bytes `99` are read back; for
`Capabilities(3)` with the extra byte `9` the frame is consumed and the result is not
`Capabilities(3)`; and `Capabilities(0)` with the extra byte `0` is read back, as it is with
no extra byte. -/
theorem parse_spliced_witness :
    parse (PTYBase.spliced (ofCapabilities (Capabilities.ofVersion 3))
        [0x3B, 0x39, 0x39, 0x3B, 0x39, 0x39]) =
      ParseResult.parsed (some (ofCapabilities (Capabilities.ofVersion 3)))
        (PTYBase.spliced (ofCapabilities (Capabilities.ofVersion 3))
          [0x3B, 0x39, 0x39, 0x3B, 0x39, 0x39]).length ∧
      parse (PTYBase.spliced
          (ofNack (Nack.ofRequest (ofGetCapabilities GetCapabilities.new) [0x6E]))
          [0x39, 0x39]) =
        ParseResult.parsed
          (some (ofNack (Nack.ofRequest (ofGetCapabilities GetCapabilities.new) [0x6E])))
          (PTYBase.spliced
            (ofNack (Nack.ofRequest (ofGetCapabilities GetCapabilities.new) [0x6E]))
            [0x39, 0x39]).length ∧
      (∃ o, parse (PTYBase.spliced (ofCapabilities (Capabilities.ofVersion 3)) [0x39]) =
          ParseResult.parsed o
            (PTYBase.spliced (ofCapabilities (Capabilities.ofVersion 3)) [0x39]).length ∧
        o ≠ some (ofCapabilities (Capabilities.ofVersion 3))) ∧
      (parse (PTYBase.spliced (ofCapabilities (Capabilities.ofVersion 0)) [0x30]) =
          ParseResult.parsed (some (ofCapabilities (Capabilities.ofVersion 0)))
            (PTYBase.spliced (ofCapabilities (Capabilities.ofVersion 0)) [0x30]).length ↔
        parse (PTYBase.spliced (ofCapabilities (Capabilities.ofVersion 0)) []) =
          ParseResult.parsed (some (ofCapabilities (Capabilities.ofVersion 0)))
            (PTYBase.spliced (ofCapabilities (Capabilities.ofVersion 0)) []).length) :=
  ⟨(parse_spliced (ofCapabilities (Capabilities.ofVersion 3))
      [0x3B, 0x39, 0x39, 0x3B, 0x39, 0x39]
      ⟨rfl, by decide⟩ ⟨by decide, by decide⟩ trivial (by decide)).1
      (Or.inr (Or.inr ⟨_, rfl⟩)),
   (parse_spliced (ofNack (Nack.ofRequest (ofGetCapabilities GetCapabilities.new) [0x6E]))
      [0x39, 0x39] ⟨rfl, by decide, by decide⟩ ⟨by decide, by decide⟩
      ⟨by decide, by decide⟩ (by decide)).1 (Or.inl rfl),
   (parse_spliced (ofCapabilities (Capabilities.ofVersion 3)) [0x39]
      ⟨rfl, by decide⟩ ⟨by decide, by decide⟩ trivial (by decide)).2.1 3 0x39 [] rfl rfl
      (by decide) (Or.inl (by decide)),
   (parse_spliced (ofCapabilities (Capabilities.ofVersion 0)) [0x30]
      ⟨rfl, by decide⟩ ⟨by decide, by decide⟩ trivial (by decide)).2.2 [] rfl rfl⟩

/-- C6 fails as stated: the first extra byte after a last unsigned field is read as part of
that field. With the extra byte `9`, which is no `BEL`, spliced into the frame of
`Capabilities(3)`, the parser reads version 39; with the extra byte `x` it finds no separator
after the version and gives `Invalid`. -/
theorem parse_spliced_counterexample :
    Char.BEL ∉ [(0x39 : Byte)] ∧
      parse (PTYBase.spliced (ofCapabilities (Capabilities.ofVersion 3)) [0x39]) =
        ParseResult.parsed (some (ofCapabilities { kind_ := Kind.Capabilities, version_ := 39 }))
          8 ∧
      (ofCapabilities { kind_ := Kind.Capabilities, version_ := 39 } : Sequence) ≠
        ofCapabilities (Capabilities.ofVersion 3) ∧
      Char.BEL ∉ [(0x78 : Byte)] ∧
      parse (PTYBase.spliced (ofCapabilities (Capabilities.ofVersion 3)) [0x78]) =
        ParseResult.parsed none 8 := by
  decide

/-- C3 fails on the source: the frame emitted for `GetCapabilities()` is `ESC P + 2 BEL`, and
the object its decoding constructor builds from it reports the kind `Capabilities`, not
`GetCapabilities`. -/
theorem GetCapabilities_roundtrip :
    PTYBase.frame (ofGetCapabilities GetCapabilities.new) = [0x1B, 0x50, 0x2B, 0x32, 0x07] ∧
      parse (PTYBase.frame (ofGetCapabilities GetCapabilities.new)) =
        ParseResult.parsed (some (ofGetCapabilities { kind_ := Kind.Capabilities })) 5 ∧
      (ofGetCapabilities { kind_ := Kind.Capabilities } : Sequence).kind = Kind.Capabilities ∧
      (ofGetCapabilities GetCapabilities.new).kind = Kind.GetCapabilities ∧
      parse (PTYBase.frame (ofGetCapabilities GetCapabilities.new)) ≠
        ParseResult.parsed (some (ofGetCapabilities GetCapabilities.new)) 5 := by
  decide

end Sequence

/-! ## Theorems: the pseudoterminal -/

namespace PTYBase

/-- C5: `PTYBase::send(seq)` makes exactly one `send(bytes, n)` call; its bytes are `0x1B`,
`P`, `+`, then what `operator <<` writes for `seq`, then the single byte `0x07`, and `n` is
that total length. -/
theorem sendSequence_spec (pty : PTYBase) (seq : Sequence) :
    (pty.sendSequence seq).sent =
      pty.sent ++ [([0x1B, 0x50, 0x2B] ++ seq.writeTo ++ [0x07], 3 + seq.writeTo.length + 1)] := by
  unfold sendSequence send
  rw [List.take_length]
  simp [frame, Char.ESC, Char.BEL]
  omega

end PTYBase

/-! ## Theorems: the value list and the cursor of the OSC parser -/

namespace OSCSequence

theorem splitOn_cons_sep (a : Byte) (l : Bytes) :
    (a :: l).splitOn a = [] :: l.splitOn a := by
  simp [List.splitOn, List.splitOnP_cons]

theorem splitOn_cons_ne (a c : Byte) (l : Bytes) (h : c ≠ a) :
    (c :: l).splitOn a = (l.splitOn a).modifyHead (List.cons c) := by
  simp [List.splitOn, List.splitOnP_cons, h]

/-- Splitting on a byte gives one more piece than the bytes hold separators. -/
theorem length_splitOn (a : Byte) (l : Bytes) : (l.splitOn a).length = l.count a + 1 := by
  induction l with
  | nil => simp [List.splitOn, List.splitOnP_nil]
  | cons c l ih =>
    by_cases h : c = a
    · subst h
      rw [splitOn_cons_sep, List.length_cons, ih, List.count_cons_self]
    · rw [splitOn_cons_ne a c l h, List.length_modifyHead, ih,
        List.count_cons_of_ne (fun e => h e.symm)]

theorem atST_eq_some (c : Byte) (rest r : Bytes) (h : atST c rest = some r) :
    c = Char.ESC ∧ rest = Char.BACKSLASH :: r := by
  unfold atST at h
  by_cases hc : c = Char.ESC
  · rw [if_pos hc] at h
    cases rest with
    | nil => cases h
    | cons d rest' =>
      by_cases hd : d = Char.BACKSLASH
      · simp only [hd, if_true, Option.some.injEq] at h
        exact ⟨hc, by rw [hd, h]⟩
      · simp [hd] at h
  · rw [if_neg hc] at h
    cases h

theorem startsWithTerminator_cons_false (c : Byte) (rest : Bytes) (hb : ¬ c = Char.BEL)
    (hst : atST c rest = none) : startsWithTerminator (c :: rest) = false := by
  unfold atST at hst
  by_cases hc : c = Char.ESC
  · rw [if_pos hc] at hst
    cases rest with
    | nil => simp [startsWithTerminator, hb]
    | cons d rest' =>
      by_cases hd : d = Char.BACKSLASH
      · simp [hd] at hst
      · simp [startsWithTerminator, hb, hd]
  · simp [startsWithTerminator, hb, hc]

/-- When the value loop finds a terminator, the bytes it ran over split into the interior, in
which no terminator starts, the terminator and the bytes left after it; the values pushed are
the pieces of the interior between its `;` bytes, the first piece appended to the current
value. -/
theorem parseValues_found (x : Bytes) : ∀ (cur : Bytes) (values vals : List Bytes)
    (after : Bytes), parseValues cur values x = (vals, some after) →
    ∃ pre T, x = pre ++ T ++ after ∧ (T = [Char.BEL] ∨ T = [Char.ESC, Char.BACKSLASH]) ∧
      (∀ j, j < pre.length → startsWithTerminator ((pre ++ T ++ after).drop j) = false) ∧
      vals = values ++ (pre.splitOn Char.SEMICOLON).modifyHead (cur ++ ·) := by
  induction x with
  | nil =>
    intro cur values vals after h
    simp [parseValues] at h
  | cons c rest ih =>
    intro cur values vals after h
    rw [parseValues_cons] at h
    by_cases hb : c = Char.BEL
    · rw [if_pos hb] at h
      simp only [Prod.mk.injEq, Option.some.injEq] at h
      refine ⟨[], [Char.BEL], by simp [hb, h.2], Or.inl rfl, by simp, ?_⟩
      rw [← h.1]
      simp [List.splitOn, List.splitOnP_nil]
    · rw [if_neg hb] at h
      cases hst : atST c rest with
      | some r =>
        rw [hst] at h
        simp only [Prod.mk.injEq, Option.some.injEq] at h
        obtain ⟨hc, hr⟩ := atST_eq_some c rest r hst
        refine ⟨[], [Char.ESC, Char.BACKSLASH], by simp [hc, hr, h.2], Or.inr rfl, by simp, ?_⟩
        rw [← h.1]
        simp [List.splitOn, List.splitOnP_nil]
      | none =>
        rw [hst] at h
        simp only at h
        have h0 := startsWithTerminator_cons_false c rest hb hst
        by_cases hs : c = Char.SEMICOLON
        · rw [if_pos hs] at h
          obtain ⟨pre, T, hx, hT, hno, hv⟩ := ih [] (values ++ [cur]) vals after h
          refine ⟨c :: pre, T, by simp [hx], hT, ?_, ?_⟩
          · intro j hj
            cases j with
            | zero =>
              rw [List.drop_zero, List.cons_append, List.cons_append, ← hx]
              exact h0
            | succ j =>
              simp only [List.length_cons] at hj
              simpa using hno j (by omega)
          · rw [hv, hs, splitOn_cons_sep]
            cases hsp : pre.splitOn Char.SEMICOLON <;> simp
        · rw [if_neg hs] at h
          obtain ⟨pre, T, hx, hT, hno, hv⟩ := ih (cur ++ [c]) values vals after h
          refine ⟨c :: pre, T, by simp [hx], hT, ?_, ?_⟩
          · intro j hj
            cases j with
            | zero =>
              rw [List.drop_zero, List.cons_append, List.cons_append, ← hx]
              exact h0
            | succ j =>
              simp only [List.length_cons] at hj
              simpa using hno j (by omega)
          · rw [hv, splitOn_cons_ne _ c pre hs]
            cases hsp : pre.splitOn Char.SEMICOLON <;> simp

/-- The digit loop runs to the end of a run of digits, whatever the accumulated value. -/
theorem parseDigits_run_any (ds rest : Bytes) (arg : Int)
    (hdig : ∀ c ∈ ds, IsDecimalDigit c = true)
    (hrest : ∀ c ∈ rest.head?, IsDecimalDigit c = false) :
    ∃ arg', parseDigits arg (ds ++ rest) = (arg', rest) := by
  induction ds generalizing arg with
  | nil =>
    cases rest with
    | nil => exact ⟨arg, rfl⟩
    | cons c rest' =>
      have hc : IsDecimalDigit c = false := hrest c (by simp)
      exact ⟨arg, by rw [List.nil_append, parseDigits_cons, hc]; rfl⟩
  | cons c ds ih =>
    have hc : IsDecimalDigit c = true := hdig c (by simp)
    obtain ⟨arg', h⟩ := ih (wrapInt32 (arg * 10 + DecCharToNumber c))
      (fun c' h' => hdig c' (by simp [h']))
    exact ⟨arg', by rw [List.cons_append, parseDigits_cons, hc, if_pos rfl, h]⟩

/-- A run of digits that is not followed by `;` is skipped and leaves `INVALID`. -/
theorem parseNumber_no_semicolon (ds rest : Bytes)
    (hdig : ∀ c ∈ ds, IsDecimalDigit c = true)
    (hrest : ∀ c ∈ rest.head?, IsDecimalDigit c = false ∧ c ≠ Char.SEMICOLON) :
    parseNumber (ds ++ rest) = (INVALID, rest) := by
  cases ds with
  | nil =>
    cases rest with
    | nil => rfl
    | cons c rest' =>
      have hc : IsDecimalDigit c = false := (hrest c (by simp)).1
      rw [List.nil_append, parseNumber_cons, hc]
      rfl
  | cons c ds =>
    have hc : IsDecimalDigit c = true := hdig c (by simp)
    obtain ⟨arg', h⟩ := parseDigits_run_any ds rest (wrapInt32 (0 * 10 + DecCharToNumber c))
      (fun c' h' => hdig c' (by simp [h'])) (fun c' h' => (hrest c' h').1)
    rw [List.cons_append, parseNumber_cons, hc, if_pos rfl, h]
    cases rest with
    | nil => rfl
    | cons d rest' =>
      have hd : ¬ d = Char.SEMICOLON := (hrest d (by simp)).2
      simp only [hd, if_false]

/-- A non-empty run of digits followed by `;` is consumed together with the `;`. -/
theorem parseNumber_semicolon (c : Byte) (ds rest : Bytes)
    (hdig : ∀ c' ∈ c :: ds, IsDecimalDigit c' = true) :
    ∃ arg, parseNumber (c :: ds ++ Char.SEMICOLON :: rest) = (arg, rest) := by
  have hc : IsDecimalDigit c = true := hdig c (by simp)
  obtain ⟨arg', h⟩ := parseDigits_run_any ds (Char.SEMICOLON :: rest)
    (wrapInt32 (0 * 10 + DecCharToNumber c)) (fun c' h' => hdig c' (by simp [h']))
    (by intro c' h'
        simp only [List.head?_cons, Option.mem_def, Option.some.injEq] at h'
        rw [← h']
        decide)
  exact ⟨arg', by rw [List.cons_append, parseNumber_cons, hc, if_pos rfl, h]; simp⟩

/-- The value loop over an interior without `BEL` and without an `ESC` immediately followed
by a backslash, closed by a terminator: the values are the pieces of the interior between its
`;` bytes, the first piece appended to the current value. -/
theorem parseValues_interior (pre : Bytes) : ∀ (cur : Bytes) (values : List Bytes)
    (T after : Bytes), Char.BEL ∉ pre → ¬ [Char.ESC, Char.BACKSLASH] <:+: pre →
    (T = [Char.BEL] ∨ T = [Char.ESC, Char.BACKSLASH]) →
    parseValues cur values (pre ++ T ++ after) =
      (values ++ (pre.splitOn Char.SEMICOLON).modifyHead (cur ++ ·), some after) := by
  induction pre with
  | nil =>
    intro cur values T after _ _ hT
    rw [List.nil_append, parseValues_terminator T cur values after hT]
    simp [List.splitOn, List.splitOnP_nil]
  | cons c rest ih =>
    intro cur values T after hbel hst hT
    simp only [List.mem_cons, not_or] at hbel
    have e1 : ¬ c = Char.BEL := fun h => hbel.1 h.symm
    have hst' : ¬ [Char.ESC, Char.BACKSLASH] <:+: rest :=
      fun h => hst (h.trans (List.suffix_cons c rest).isInfix)
    have hno : atST c (rest ++ T ++ after) = none := by
      unfold atST
      by_cases hc : c = Char.ESC
      · rw [if_pos hc]
        cases rest with
        | nil =>
          rcases hT with h | h <;> subst h <;> simp <;> decide
        | cons d rest' =>
          by_cases hd : d = Char.BACKSLASH
          · exfalso
            apply hst
            rw [hc, hd]
            exact (List.prefix_iff_eq_append.mpr (by simp)).isInfix
          · simp [hd]
      · rw [if_neg hc]
    rw [List.cons_append, List.cons_append, parseValues_cons, if_neg e1, hno]
    simp only
    by_cases hs : c = Char.SEMICOLON
    · rw [if_pos hs, ih [] (values ++ [cur]) T after hbel.2 hst' hT, hs, splitOn_cons_sep]
      cases hsp : rest.splitOn Char.SEMICOLON <;> simp
    · rw [if_neg hs, ih (cur ++ [c]) values T after hbel.2 hst' hT, splitOn_cons_ne _ c rest hs]
      cases hsp : rest.splitOn Char.SEMICOLON <;> simp

/-- C11: for every complete OSC buffer `ESC ] ds interior T ...` in which the possibly empty run
of decimal digits `ds` is followed by a byte that is neither a digit nor `;`, `Parse` reports
`INVALID` as number and the values are the bytes from the end of the digit run up to the
terminator `T`, split on `;`; the cursor is left after the terminator. -/
theorem parse_no_number (ds interior T after : Bytes)
    (hdig : ∀ c ∈ ds, IsDecimalDigit c = true)
    (hhead : ∀ c ∈ (interior ++ T).head?, IsDecimalDigit c = false ∧ c ≠ Char.SEMICOLON)
    (hbel : Char.BEL ∉ interior) (hst : ¬ [Char.ESC, Char.BACKSLASH] <:+: interior)
    (hT : T = [Char.BEL] ∨ T = [Char.ESC, Char.BACKSLASH]) :
    Parse ([Char.ESC, 0x5D] ++ ds ++ interior ++ T ++ after) =
      ({ num_ := INVALID, values_ := interior.splitOn Char.SEMICOLON }, after) := by
  have hne : ∃ c x, ds ++ (interior ++ T ++ after) = c :: x := by
    have : ds ++ (interior ++ T ++ after) ≠ [] := by
      rcases hT with h | h <;> subst h <;> simp
    exact List.exists_cons_of_ne_nil this
  obtain ⟨c, x, hcx⟩ := hne
  have hhead' : ∀ c ∈ (interior ++ T ++ after).head?,
      IsDecimalDigit c = false ∧ c ≠ Char.SEMICOLON := by
    intro c' h'
    apply hhead c'
    have hnil : interior ++ T ≠ [] := by
      rcases hT with h | h <;> subst h <;> simp
    obtain ⟨d, r, hdr⟩ := List.exists_cons_of_ne_nil hnil
    rw [hdr] at h' ⊢
    simpa using h'
  have hnum := parseNumber_no_semicolon ds (interior ++ T ++ after) hdig hhead'
  have hval := parseValues_interior interior [] [] T after hbel hst hT
  have hbuf : [Char.ESC, 0x5D] ++ ds ++ interior ++ T ++ after = Char.ESC :: 0x5D :: c :: x := by
    rw [← hcx]
    simp
  rw [hbuf, Parse_cons, ← hcx, hnum]
  simp only [hval]
  cases hsp : interior.splitOn Char.SEMICOLON <;> simp

/-- Witness for C11: the buffers `ESC ] 1 2 a ; b BEL x` and `ESC ] a ; ; b ESC \\`. -/
theorem parse_no_number_witness :
    Parse ([Char.ESC, 0x5D] ++ [0x31, 0x32] ++ [0x61, 0x3B, 0x62] ++ [Char.BEL] ++ [0x78]) =
        ({ num_ := INVALID, values_ := [[0x61], [0x62]] }, [0x78]) ∧
      Parse ([Char.ESC, 0x5D] ++ [] ++ [0x61, 0x3B, 0x3B, 0x62] ++ [Char.ESC, Char.BACKSLASH]
          ++ []) =
        ({ num_ := INVALID, values_ := [[0x61], [], [0x62]] }, []) :=
  ⟨parse_no_number [0x31, 0x32] [0x61, 0x3B, 0x62] [Char.BEL] [0x78] (by decide) (by decide)
      (by decide) (by decide) (Or.inl rfl),
   parse_no_number [] [0x61, 0x3B, 0x3B, 0x62] [Char.ESC, Char.BACKSLASH] [] (by decide)
      (by decide) (by decide) (by decide) (Or.inr rfl)⟩

/-- A parse whose number is not `INCOMPLETE` went past the lead-in, and its value loop found
a terminator. -/
theorem Parse_success (buf : Bytes) (h : (Parse buf).1.num_ ≠ INCOMPLETE) :
    ∃ a b c x vals after, buf = a :: b :: c :: x ∧
      parseValues [] [] (parseNumber (c :: x)).2 = (vals, some after) ∧
      Parse buf = ({ num_ := (parseNumber (c :: x)).1, values_ := vals }, after) := by
  match buf, h with
  | [], h => exact absurd rfl h
  | [_], h => exact absurd rfl h
  | [_, _], h => exact absurd rfl h
  | a :: b :: c :: x, h =>
    rw [Parse_cons] at h
    cases hv : parseValues [] [] (parseNumber (c :: x)).2 with
    | mk vals cursor =>
      cases cursor with
      | none =>
        rw [hv] at h
        exact absurd rfl h
      | some after =>
        refine ⟨a, b, c, x, vals, after, rfl, hv, ?_⟩
        rw [Parse_cons, hv]

/-- C12: when the terminator comes immediately after the number separator, the buffer being
`ESC ] d ; T`, the value list is the single empty string; and on every successful parse the
values are the pieces, between its `;` bytes, of the interior that runs from the cursor after
the number part to the first terminator, so the list is never empty and has one more element
than the interior has `;` bytes. -/
theorem values_of_interior :
    (∀ d T after : Bytes, d ≠ [] → (∀ c ∈ d, IsDecimalDigit c = true) →
        (T = [Char.BEL] ∨ T = [Char.ESC, Char.BACKSLASH]) →
        (Parse ([Char.ESC, 0x5D] ++ d ++ [Char.SEMICOLON] ++ T ++ after)).1.values_ = [[]]) ∧
      (∀ buf : Bytes, (Parse buf).1.num_ ≠ INCOMPLETE →
        ∃ interior T after, (parseNumber (buf.drop 2)).2 = interior ++ T ++ after ∧
          (T = [Char.BEL] ∨ T = [Char.ESC, Char.BACKSLASH]) ∧
          (∀ j, j < interior.length →
            startsWithTerminator ((interior ++ T ++ after).drop j) = false) ∧
          (Parse buf).2 = after ∧
          (Parse buf).1.values_ = interior.splitOn Char.SEMICOLON ∧
          (Parse buf).1.values_ ≠ [] ∧
          (Parse buf).1.values_.length = interior.count Char.SEMICOLON + 1) := by
  constructor
  · intro d T after hd hdig hT
    obtain ⟨c, ds, rfl⟩ := List.exists_cons_of_ne_nil hd
    obtain ⟨arg, hnum⟩ := parseNumber_semicolon c ds (T ++ after) hdig
    have hval := parseValues_terminator T [] [] after hT
    have hbuf : [Char.ESC, 0x5D] ++ (c :: ds) ++ [Char.SEMICOLON] ++ T ++ after =
        Char.ESC :: 0x5D :: c :: (ds ++ Char.SEMICOLON :: (T ++ after)) := by simp
    rw [hbuf, Parse_cons]
    rw [List.cons_append] at hnum
    rw [hnum]
    simp only [hval]
    rfl
  · intro buf h
    obtain ⟨a, b, c, x, vals, after, hbuf, hv, hp⟩ := Parse_success buf h
    obtain ⟨pre, T, hx, hT, hno, hvals⟩ := parseValues_found _ [] [] vals after hv
    have hvals' : vals = pre.splitOn Char.SEMICOLON := by
      rw [hvals]
      cases hsp : pre.splitOn Char.SEMICOLON <;> simp
    refine ⟨pre, T, after, by rw [hbuf]; exact hx, hT, hno, by rw [hp], by rw [hp]; exact hvals',
      ?_, ?_⟩
    · rw [hp]
      simp only
      rw [hvals']
      intro hnil
      have := length_splitOn Char.SEMICOLON pre
      rw [hnil] at this
      simp at this
    · rw [hp]
      simp only
      rw [hvals']
      exact length_splitOn Char.SEMICOLON pre

/-- Witness for C12: the buffers `ESC ] 5 2 ; BEL` and `ESC ] 5 2 ; a ; ; b ESC \\ x`. -/
theorem values_of_interior_witness :
    (Parse ([Char.ESC, 0x5D] ++ [0x35, 0x32] ++ [Char.SEMICOLON] ++ [Char.BEL] ++ [])).1.values_ =
        [[]] ∧
      (∃ interior T after,
        (parseNumber ([Char.ESC, 0x5D, 0x35, 0x32, 0x3B, 0x61, 0x3B, 0x3B, 0x62, 0x1B, 0x5C,
            0x78].drop 2)).2 = interior ++ T ++ after ∧
          (T = [Char.BEL] ∨ T = [Char.ESC, Char.BACKSLASH]) ∧
          (∀ j, j < interior.length →
            startsWithTerminator ((interior ++ T ++ after).drop j) = false) ∧
          (Parse [Char.ESC, 0x5D, 0x35, 0x32, 0x3B, 0x61, 0x3B, 0x3B, 0x62, 0x1B, 0x5C,
            0x78]).2 = after ∧
          (Parse [Char.ESC, 0x5D, 0x35, 0x32, 0x3B, 0x61, 0x3B, 0x3B, 0x62, 0x1B, 0x5C,
            0x78]).1.values_ = interior.splitOn Char.SEMICOLON ∧
          (Parse [Char.ESC, 0x5D, 0x35, 0x32, 0x3B, 0x61, 0x3B, 0x3B, 0x62, 0x1B, 0x5C,
            0x78]).1.values_ ≠ [] ∧
          (Parse [Char.ESC, 0x5D, 0x35, 0x32, 0x3B, 0x61, 0x3B, 0x3B, 0x62, 0x1B, 0x5C,
            0x78]).1.values_.length = interior.count Char.SEMICOLON + 1) :=
  ⟨values_of_interior.1 [0x35, 0x32] [Char.BEL] [] (by decide) (by decide) (Or.inl rfl),
   values_of_interior.2 [Char.ESC, 0x5D, 0x35, 0x32, 0x3B, 0x61, 0x3B, 0x3B, 0x62, 0x1B, 0x5C,
     0x78] (by decide)⟩

theorem digit_ne_terminator (c : Byte) (h : IsDecimalDigit c = true) :
    c ≠ Char.BEL ∧ c ≠ Char.ESC := by
  constructor <;> intro e <;> rw [e] at h <;> revert h <;> decide

/-- The digit loop skips digits only. -/
theorem parseDigits_skipped (x : Bytes) (arg : Int) :
    ∃ sk, x = sk ++ (parseDigits arg x).2 ∧ ∀ c ∈ sk, IsDecimalDigit c = true := by
  induction x generalizing arg with
  | nil => exact ⟨[], rfl, by simp⟩
  | cons c rest ih =>
    rw [parseDigits_cons]
    by_cases hc : IsDecimalDigit c = true
    · rw [if_pos hc]
      obtain ⟨sk, h1, h2⟩ := ih (wrapInt32 (arg * 10 + DecCharToNumber c))
      refine ⟨c :: sk, by rw [List.cons_append, ← h1], ?_⟩
      intro c' hc'
      simp only [List.mem_cons] at hc'
      rcases hc' with e | e
      · rw [e]; exact hc
      · exact h2 c' e
    · rw [if_neg hc]
      exact ⟨[], rfl, by simp⟩

/-- The number part skips digits and at most one `;`, so neither a `BEL` nor an `ESC`. -/
theorem parseNumber_skipped (x : Bytes) :
    ∃ sk, x = sk ++ (parseNumber x).2 ∧ ∀ c ∈ sk, c ≠ Char.BEL ∧ c ≠ Char.ESC := by
  cases x with
  | nil => exact ⟨[], rfl, by simp⟩
  | cons c rest =>
    rw [parseNumber_cons]
    by_cases hc : IsDecimalDigit c = true
    · rw [if_pos hc]
      obtain ⟨sk, h1, h2⟩ := parseDigits_skipped rest (wrapInt32 (0 * 10 + DecCharToNumber c))
      have hsk : ∀ c' ∈ c :: sk, c' ≠ Char.BEL ∧ c' ≠ Char.ESC := by
        intro c' hc'
        simp only [List.mem_cons] at hc'
        rcases hc' with e | e
        · rw [e]; exact digit_ne_terminator c hc
        · exact digit_ne_terminator c' (h2 c' e)
      cases hd : parseDigits (wrapInt32 (0 * 10 + DecCharToNumber c)) rest with
      | mk arg cursor =>
        rw [hd] at h1
        simp only at h1
        cases cursor with
        | nil => exact ⟨c :: sk, by simp [h1], hsk⟩
        | cons d rest' =>
          by_cases hs : d = Char.SEMICOLON
          · simp only [hs, if_true]
            refine ⟨c :: sk ++ [Char.SEMICOLON], by simp [h1, hs], ?_⟩
            intro c' hc'
            simp only [List.mem_append, List.mem_singleton] at hc'
            rcases hc' with e | e
            · exact hsk c' e
            · rw [e]; decide
          · simp only [hs, if_false]
            exact ⟨c :: sk, by simp [h1], hsk⟩
    · rw [if_neg hc]
      exact ⟨[], rfl, by simp⟩

/-- No terminator starts in bytes that are neither `BEL` nor `ESC`. -/
theorem no_terminator_skipped (sk pre tail : Bytes)
    (hsk : ∀ c ∈ sk, c ≠ Char.BEL ∧ c ≠ Char.ESC)
    (hno : ∀ j, j < pre.length → startsWithTerminator ((pre ++ tail).drop j) = false) :
    ∀ j, j < (sk ++ pre).length →
      startsWithTerminator ((sk ++ (pre ++ tail)).drop j) = false := by
  induction sk with
  | nil => simpa using hno
  | cons c sk ih =>
    intro j hj
    cases j with
    | zero =>
      have hc := hsk c (by simp)
      simp [startsWithTerminator, hc.1, hc.2]
    | succ j =>
      simp only [List.cons_append, List.length_cons] at hj
      simp only [List.cons_append, List.drop_succ_cons]
      exact ih (fun c' h' => hsk c' (by simp [h'])) j (by omega)

/-- C14: on every successful parse (number not `INCOMPLETE`) there is an offset `p`, at least 2,
such that no terminator starts at an offset from 2 up to `p`, and either the byte at `p` is
`BEL` and `p + 1` bytes are consumed, or the bytes at `p` are `ESC \\` and `p + 2` bytes are
consumed; the cursor is left at the byte after that terminator. -/
theorem parse_consumed (buf : Bytes) (h : (Parse buf).1.num_ ≠ INCOMPLETE) :
    ∃ p, 2 ≤ p ∧ (∀ i, 2 ≤ i → i < p → startsWithTerminator (buf.drop i) = false) ∧
      (((buf.drop p).head? = some Char.BEL ∧ (Parse buf).2 = buf.drop (p + 1) ∧
          buf.length - (Parse buf).2.length = p + 1) ∨
        ((buf.drop p).take 2 = [Char.ESC, Char.BACKSLASH] ∧ (Parse buf).2 = buf.drop (p + 2) ∧
          buf.length - (Parse buf).2.length = p + 2)) := by
  obtain ⟨a, b, c, x, vals, after, hbuf, hv, hp⟩ := Parse_success buf h
  obtain ⟨pre, T, hx, hT, hno, _⟩ := parseValues_found _ [] [] vals after hv
  obtain ⟨sk, hsk, hskc⟩ := parseNumber_skipped (c :: x)
  have hno' := no_terminator_skipped sk pre (T ++ after) hskc
    (by simpa [List.append_assoc] using hno)
  have hcx : c :: x = (sk ++ pre) ++ (T ++ after) := by
    rw [hsk, hx]
    simp [List.append_assoc]
  have hdrop : buf.drop (2 + (sk ++ pre).length) = T ++ after := by
    rw [hbuf, hcx, Nat.add_comm]
    simp only [List.drop_succ_cons]
    exact List.drop_left _ _
  have hlen : buf.length = 2 + (sk ++ pre).length + T.length + after.length := by
    have hl := congrArg List.length hcx
    rw [hbuf]
    simp only [List.length_cons, List.length_append] at hl ⊢
    omega
  refine ⟨2 + (sk ++ pre).length, by omega, ?_, ?_⟩
  · intro i h2 hi
    obtain ⟨j, rfl⟩ : ∃ j, i = j + 2 := ⟨i - 2, by omega⟩
    rw [hbuf, hcx]
    simp only [List.drop_succ_cons]
    rw [List.append_assoc]
    exact hno' j (by omega)
  · rw [hp]
    simp only
    rcases hT with hT | hT <;> subst hT
    · left
      refine ⟨by rw [hdrop]; rfl, ?_, ?_⟩
      · rw [← List.drop_drop, hdrop]
        rfl
      · rw [hlen]
        simp only [List.length_singleton]
        omega
    · right
      refine ⟨by rw [hdrop]; rfl, ?_, ?_⟩
      · rw [← List.drop_drop, hdrop]
        rfl
      · rw [hlen]
        simp only [List.length_cons, List.length_nil]
        omega

/-- Witness for C14: in `ESC ] 5 2 ; c ESC \\ x` the terminator is at offset 6 and 8 bytes are
consumed. -/
theorem parse_consumed_witness :
    ∃ p, 2 ≤ p ∧
      (∀ i, 2 ≤ i → i < p → startsWithTerminator
        (([0x1B, 0x5D, 0x35, 0x32, 0x3B, 0x63, 0x1B, 0x5C, 0x78] : Bytes).drop i) = false) ∧
      (((([0x1B, 0x5D, 0x35, 0x32, 0x3B, 0x63, 0x1B, 0x5C, 0x78] : Bytes).drop p).head? =
            some Char.BEL ∧
          (Parse [0x1B, 0x5D, 0x35, 0x32, 0x3B, 0x63, 0x1B, 0x5C, 0x78]).2 =
            ([0x1B, 0x5D, 0x35, 0x32, 0x3B, 0x63, 0x1B, 0x5C, 0x78] : Bytes).drop (p + 1) ∧
          ([0x1B, 0x5D, 0x35, 0x32, 0x3B, 0x63, 0x1B, 0x5C, 0x78] : Bytes).length -
            (Parse [0x1B, 0x5D, 0x35, 0x32, 0x3B, 0x63, 0x1B, 0x5C, 0x78]).2.length = p + 1) ∨
        ((([0x1B, 0x5D, 0x35, 0x32, 0x3B, 0x63, 0x1B, 0x5C, 0x78] : Bytes).drop p).take 2 =
            [Char.ESC, Char.BACKSLASH] ∧
          (Parse [0x1B, 0x5D, 0x35, 0x32, 0x3B, 0x63, 0x1B, 0x5C, 0x78]).2 =
            ([0x1B, 0x5D, 0x35, 0x32, 0x3B, 0x63, 0x1B, 0x5C, 0x78] : Bytes).drop (p + 2) ∧
          ([0x1B, 0x5D, 0x35, 0x32, 0x3B, 0x63, 0x1B, 0x5C, 0x78] : Bytes).length -
            (Parse [0x1B, 0x5D, 0x35, 0x32, 0x3B, 0x63, 0x1B, 0x5C, 0x78]).2.length = p + 2)) :=
  parse_consumed [0x1B, 0x5D, 0x35, 0x32, 0x3B, 0x63, 0x1B, 0x5C, 0x78] (by decide)

/-- The number part on a non-empty run of digits whose value fits an `int`, followed by
`;`. -/
theorem parseNumber_value (d rest : Bytes) (hd : d ≠ [])
    (hdig : ∀ c ∈ d, IsDecimalDigit c = true) (hfit : decimalValue d < 2 ^ 31) :
    parseNumber (d ++ Char.SEMICOLON :: rest) = ((decimalValue d : Int), rest) := by
  obtain ⟨c, ds, rfl⟩ := List.exists_cons_of_ne_nil hd
  have hc : IsDecimalDigit c = true := hdig c (by simp)
  have hfit' : ds.foldl (fun acc c => acc * 10 + DecCharToNumber c)
      (0 * 10 + DecCharToNumber c) < 2 ^ 31 := by simpa [decimalValue] using hfit
  have hrun := parseDigits_run ds (Char.SEMICOLON :: rest) (0 * 10 + DecCharToNumber c)
    (fun c' h' => hdig c' (by simp [h']))
    (by intro c' rest' e
        simp only [List.cons.injEq] at e
        rw [← e.1]
        decide)
    hfit'
  have hw : wrapInt32 (0 * 10 + (DecCharToNumber c : Nat)) =
      ((0 * 10 + DecCharToNumber c : Nat) : Int) := by
    have hle := foldl_digits_ge ds (0 * 10 + DecCharToNumber c)
    rw [← wrapInt32_of_fits _ (show 0 * 10 + DecCharToNumber c < 2 ^ 31 by omega)]
    push_cast
    rfl
  rw [List.cons_append, parseNumber_cons, hc, if_pos rfl, hw, hrun]
  simp [decimalValue]

/-- C13, as amended: for every number `n` with `0 ≤ n < 2^31` and every non-empty list of
values none of which holds `;`, `BEL` or `ESC`, the emitted form `ESC ] n ; v0 ; ... ; vk BEL`
parses back to the number `n` and the same list of values, the whole buffer consumed. -/
theorem parse_emit (n : Nat) (vs : List Bytes) (hn : n < 2 ^ 31) (hvs : vs ≠ [])
    (hv : ∀ v ∈ vs, Char.SEMICOLON ∉ v ∧ Char.BEL ∉ v ∧ Char.ESC ∉ v) :
    Parse (emit n vs) = ({ num_ := (n : Int), values_ := vs }, []) := by
  obtain ⟨h1, h2, h3⟩ := toDecimal_spec n
  obtain ⟨v, vs', rfl⟩ := List.exists_cons_of_ne_nil hvs
  obtain ⟨c, ds, hcd⟩ := List.exists_cons_of_ne_nil h1
  have hnum := parseNumber_value (toDecimal n) (joinValues (v :: vs') ++ [Char.BEL]) h1 h2
    (by rw [h3]; exact hn)
  rw [h3] at hnum
  have hval := parseValues_join vs' v [] [] [Char.BEL] [] hv (Or.inl rfl)
  simp only [List.append_nil, List.nil_append] at hval
  have hbuf : emit n (v :: vs') =
      Char.ESC :: 0x5D :: c :: (ds ++ Char.SEMICOLON :: (joinValues (v :: vs') ++ [Char.BEL])) := by
    unfold emit
    rw [hcd]
    simp
  rw [hcd, List.cons_append] at hnum
  rw [hbuf, Parse_cons, hnum]
  simp only [hval]

/-- Witness for C13: the number 52 with the values `c` and `dGVzdA==`. -/
theorem parse_emit_witness :
    Parse (emit 52 [[0x63], [0x64, 0x47, 0x56, 0x7A, 0x64, 0x41, 0x3D, 0x3D]]) =
      ({ num_ := ((52 : Nat) : Int),
         values_ := [[0x63], [0x64, 0x47, 0x56, 0x7A, 0x64, 0x41, 0x3D, 0x3D]] }, []) :=
  parse_emit 52 [[0x63], [0x64, 0x47, 0x56, 0x7A, 0x64, 0x41, 0x3D, 0x3D]] (by decide)
    (by decide) (by decide)

/-- C13 fails as stated: the number `2^31`, which no `int` holds, is emitted as
`ESC ] 2147483648 ; a BEL` and parses back to another number; and the empty list of values is
emitted as `ESC ] 0 ; BEL` and parses back to the list holding one empty string. -/
theorem parse_emit_counterexample :
    emit 2147483648 [[0x61]] =
        [0x1B, 0x5D, 0x32, 0x31, 0x34, 0x37, 0x34, 0x38, 0x33, 0x36, 0x34, 0x38, 0x3B, 0x61,
          0x07] ∧
      (Parse (emit 2147483648 [[0x61]])).1.num_ ≠ 2147483648 ∧
      (Parse (emit 2147483648 [[0x61]])).1.values_ = [[0x61]] ∧
      emit 0 [] = [0x1B, 0x5D, 0x30, 0x3B, 0x07] ∧
      (Parse (emit 0 [])).1 = { num_ := 0, values_ := [[]] } ∧
      (Parse (emit 0 [])).1.values_ ≠ [] := by
  decide

end OSCSequence

/-! ## Theorems: responses -/

namespace Sequence

/-- C15: a response holds exactly one of its two alternatives, fixed by how it was built:
`Accept(v)` gives `valid()` true with `result()` equal to `v`, and `Deny(req, reason)` gives
`valid()` false with `nack().reason()` equal to `reason` and `nack().request()` equal to what
`req` serialises to. -/
theorem Response_alternatives {T : Type} (v : T) (req : Sequence) (reason : Bytes) :
    ((Response.Accept v).valid = true ∧ (Response.Accept v).result = some v ∧
        (Response.Accept v).nack = none) ∧
      ((Response.Deny req reason : Response T).valid = false ∧
        (Response.Deny req reason : Response T).result = none ∧
        ∃ n, (Response.Deny req reason : Response T).nack = some n ∧ n.reason_ = reason ∧
          n.request_ = req.writeTo) ∧
      (∀ r : Response T,
        (r.valid = true ∧ (∃ w, r.result = some w) ∧ r.nack = none) ∨
        (r.valid = false ∧ (∃ n, r.nack = some n) ∧ r.result = none)) := by
  refine ⟨⟨rfl, rfl, rfl⟩, ⟨rfl, rfl, ⟨Nack.ofRequest req reason, rfl, rfl, rfl⟩⟩, ?_⟩
  intro r
  obtain ⟨alt⟩ := r
  cases alt with
  | inl n => exact Or.inr ⟨rfl, ⟨n, rfl⟩, rfl⟩
  | inr w => exact Or.inl ⟨rfl, ⟨w, rfl⟩, rfl⟩

end Sequence

namespace PTYBase

/-- C16: for every response `r`, `send(r)` raises no assertion and transmits exactly what
`send` of the held alternative transmits: `send(r.result())` when `r.valid()`, `send(r.nack())`
otherwise, which is the `send(response)` of the specification; `Response::writeTo` writes the
bytes of the held alternative, so the envelope contributes no bytes. -/
theorem sendResponse_delegates {T : Type} [Sequence.Derived T] (pty : PTYBase)
    (r : Sequence.Response T) :
    pty.sendResponse r = some (pty.sendResponseSpec r) ∧
      (r.valid = true → ∃ v, r.result = some v ∧
        pty.sendResponse r = some (pty.sendSequence (Sequence.Derived.toSequence v)) ∧
        r.writeTo = some (Sequence.Derived.toSequence v).writeTo) ∧
      (r.valid = false → ∃ n, r.nack = some n ∧
        pty.sendResponse r = some (pty.sendSequence (Sequence.ofNack n)) ∧
        r.writeTo = some (Sequence.ofNack n).writeTo) ∧
      (pty.sendResponseSpec r).sent = pty.sent ++ [(frame r.held, (frame r.held).length)] := by
  obtain ⟨alt⟩ := r
  cases alt with
  | inl n =>
    refine ⟨rfl, (fun h => by cases h), fun _ => ⟨n, rfl, rfl, rfl⟩, ?_⟩
    simp [sendResponseSpec, sendSequence, send]
  | inr v =>
    refine ⟨rfl, fun _ => ⟨v, rfl, rfl, rfl⟩, (fun h => by cases h), ?_⟩
    simp [sendResponseSpec, sendSequence, send]

/-- Witness for C16: an accepted `Capabilities(3)` and a denied `GetCapabilities()`. -/
theorem sendResponse_delegates_witness :
    (∃ v, (Sequence.Response.Accept (Sequence.Capabilities.ofVersion 3)).result = some v ∧
        (PTYBase.mk []).sendResponse (Sequence.Response.Accept (Sequence.Capabilities.ofVersion 3))
          = some ((PTYBase.mk []).sendSequence (Sequence.Derived.toSequence v)) ∧
        (Sequence.Response.Accept (Sequence.Capabilities.ofVersion 3)).writeTo =
          some (Sequence.Derived.toSequence v).writeTo) ∧
      (∃ n, (Sequence.Response.Deny (Sequence.ofGetCapabilities Sequence.GetCapabilities.new)
            [0x6E, 0x6F] : Sequence.Response Sequence.Capabilities).nack = some n ∧
        (PTYBase.mk []).sendResponse
            (Sequence.Response.Deny (Sequence.ofGetCapabilities Sequence.GetCapabilities.new)
              [0x6E, 0x6F] : Sequence.Response Sequence.Capabilities) =
          some ((PTYBase.mk []).sendSequence (Sequence.ofNack n)) ∧
        (Sequence.Response.Deny (Sequence.ofGetCapabilities Sequence.GetCapabilities.new)
            [0x6E, 0x6F] : Sequence.Response Sequence.Capabilities).writeTo =
          some (Sequence.ofNack n).writeTo) :=
  ⟨(sendResponse_delegates (PTYBase.mk [])
      (Sequence.Response.Accept (Sequence.Capabilities.ofVersion 3))).2.1 rfl,
   (sendResponse_delegates (PTYBase.mk [])
      (Sequence.Response.Deny (Sequence.ofGetCapabilities Sequence.GetCapabilities.new)
        [0x6E, 0x6F] : Sequence.Response Sequence.Capabilities)).2.2.1 rfl⟩

end PTYBase

/-! ## Theorems: the pseudoterminal master -/

namespace PTYMaster

/-- C17: `exitCode()` fails, with an `IOError`, if and only if `terminated()` is false; when
`terminated()` is true it returns the stored exit code; a freshly constructed master has
`terminated()` false, so `exitCode()` fails on it. -/
theorem exitCode_spec :
    (∀ m : PTYMaster, (∃ e, m.exitCode = .error e) ↔ m.terminated = false) ∧
      (∀ m : PTYMaster, m.terminated = false → m.exitCode = .error Error.IOError) ∧
      (∀ m : PTYMaster, m.terminated = true → m.exitCode = .ok m.exitCode_) ∧
      PTYMaster.new.terminated = false ∧ PTYMaster.new.exitCode = .error Error.IOError := by
  refine ⟨?_, ?_, ?_, rfl, rfl⟩
  · intro m
    obtain ⟨t, c⟩ := m
    cases t
    · exact ⟨fun _ => rfl, fun _ => ⟨Error.IOError, rfl⟩⟩
    · constructor
      · rintro ⟨e, he⟩
        cases he
      · intro h
        cases h
  · intro m h
    obtain ⟨t, c⟩ := m
    cases t
    · rfl
    · cases h
  · intro m h
    obtain ⟨t, c⟩ := m
    cases t
    · cases h
    · rfl

/-- Witness for C17: a master that terminated with exit code 3, and a fresh one. -/
theorem exitCode_spec_witness :
    (PTYMaster.mk true 3).exitCode = .ok 3 ∧
      PTYMaster.new.exitCode = .error Error.IOError ∧
      ((∃ e, PTYMaster.new.exitCode = .error e) ↔ PTYMaster.new.terminated = false) :=
  ⟨exitCode_spec.2.2.1 (PTYMaster.mk true 3) rfl, exitCode_spec.2.1 PTYMaster.new rfl,
   exitCode_spec.1 PTYMaster.new⟩

end PTYMaster

/-! ## Theorems: constructors of the sequence classes -/

namespace Sequence

/-- What a sequence serialises to begins with a decimal digit, the first digit of its kind. -/
theorem writeTo_head_digit (s : Sequence) :
    ∃ c r, s.writeTo = c :: r ∧ IsDecimalDigit c = true := by
  have key : ∀ (n : Nat) (t : Bytes), ∃ c r, toDecimal n ++ t = c :: r ∧
      IsDecimalDigit c = true := by
    intro n t
    obtain ⟨h1, h2, _⟩ := toDecimal_spec n
    obtain ⟨c, r, hcr⟩ := List.exists_cons_of_ne_nil h1
    exact ⟨c, r ++ t, by rw [hcr, List.cons_append], h2 c (by rw [hcr]; simp)⟩
  cases s <;> simp only [writeTo, List.append_assoc]
  case ofGetCapabilities g =>
    have := key g.kind_.toNat []
    rwa [List.append_nil] at this
  all_goals exact key _ _

/-- C18, as amended: `Ack(req, id)` and `Nack(req, reason)` carry as `request()` exactly the
bytes `req` serialises to; `Ack(id)` carries the empty string; and the decoding constructors
of `Ack` and `Nack` carry the string that `ReadString` reads first from the payload. -/
theorem request_of_constructors :
    (∀ (req : Sequence) (id : Nat), (Ack.ofRequest req id).request_ = req.writeTo) ∧
      (∀ (req : Sequence) (reason : Bytes), (Nack.ofRequest req reason).request_ = req.writeTo) ∧
      (∀ id : Nat, (Ack.ofId id).request_ = []) ∧
      (∀ (start rest : Bytes) (a : Ack), Ack.decode start = .ok (a, rest) →
        ∃ rest', ReadString start = .ok (a.request_, rest')) ∧
      (∀ (start rest : Bytes) (a : Nack), Nack.decode start = .ok (a, rest) →
        ∃ rest', ReadString start = .ok (a.request_, rest')) := by
  refine ⟨fun _ _ => rfl, fun _ _ => rfl, fun _ => rfl, ?_, ?_⟩
  · intro start rest a h
    unfold Ack.decode at h
    cases h1 : ReadString start with
    | error e => rw [h1] at h; cases h
    | ok r1 =>
      obtain ⟨request, s1⟩ := r1
      rw [h1] at h
      simp only at h
      cases h2 : ReadUnsigned s1 with
      | error e => rw [h2] at h; cases h
      | ok r2 =>
        obtain ⟨id, s2⟩ := r2
        rw [h2] at h
        simp only [Except.ok.injEq, Prod.mk.injEq] at h
        rw [← h.1]
        exact ⟨s1, rfl⟩
  · intro start rest a h
    unfold Nack.decode at h
    cases h1 : ReadString start with
    | error e => rw [h1] at h; cases h
    | ok r1 =>
      obtain ⟨request, s1⟩ := r1
      rw [h1] at h
      simp only at h
      cases h2 : ReadString s1 with
      | error e => rw [h2] at h; cases h
      | ok r2 =>
        obtain ⟨reason, s2⟩ := r2
        rw [h2] at h
        simp only [Except.ok.injEq, Prod.mk.injEq] at h
        rw [← h.1]
        exact ⟨s1, rfl⟩

/-- Witness for C18: the `Ack` and the `Nack` decoded from `3;foo;42` and `3;foo;2;no;`. -/
theorem request_of_constructors_witness :
    (∃ rest', ReadString [0x33, 0x3B, 0x66, 0x6F, 0x6F, 0x3B, 0x34, 0x32] =
        .ok (({ kind_ := Kind.Ack, request_ := [0x66, 0x6F, 0x6F], id_ := 42 } : Ack).request_,
          rest')) ∧
      (∃ rest', ReadString [0x33, 0x3B, 0x66, 0x6F, 0x6F, 0x3B, 0x32, 0x3B, 0x6E, 0x6F, 0x3B] =
        .ok (({ kind_ := Kind.Nack, request_ := [0x66, 0x6F, 0x6F],
                reason_ := [0x6E, 0x6F] } : Nack).request_, rest')) :=
  ⟨request_of_constructors.2.2.2.1 [0x33, 0x3B, 0x66, 0x6F, 0x6F, 0x3B, 0x34, 0x32] [] _ rfl,
   request_of_constructors.2.2.2.2 [0x33, 0x3B, 0x66, 0x6F, 0x6F, 0x3B, 0x32, 0x3B, 0x6E, 0x6F,
     0x3B] [] _ rfl⟩

/-- C18 fails as stated: `Ack(42)` carries the empty string as `request()`, and the `Ack`
decoded from the payload `3;foo;42` carries `foo`; neither is what a sequence serialises
to. -/
theorem request_counterexample :
    (Ack.ofId 42).request_ = [] ∧
      (¬ ∃ s : Sequence, s.writeTo = (Ack.ofId 42).request_) ∧
      Ack.decode [0x33, 0x3B, 0x66, 0x6F, 0x6F, 0x3B, 0x34, 0x32] =
        .ok ({ kind_ := Kind.Ack, request_ := [0x66, 0x6F, 0x6F], id_ := 42 }, []) ∧
      (¬ ∃ s : Sequence, s.writeTo = [0x66, 0x6F, 0x6F]) := by
  refine ⟨rfl, ?_, rfl, ?_⟩
  · rintro ⟨s, hs⟩
    obtain ⟨c, r, hcr, _⟩ := writeTo_head_digit s
    rw [hcr] at hs
    cases hs
  · rintro ⟨s, hs⟩
    obtain ⟨c, r, hcr, hc⟩ := writeTo_head_digit s
    rw [hcr] at hs
    simp only [List.cons.injEq] at hs
    rw [hs.1] at hc
    revert hc
    decide

/-- C19: each decoding constructor reads its fields in the order of the data-model table,
each field starting where the previous one ended: Ack (request string, id), Nack (request
string, reason string), Capabilities (version), Data (stream id, packet, size, encoded
payload), OpenFileTransfer (remote host, remote path, size), GetTransferStatus (id),
TransferStatus (id, size, received), ViewRemoteFile (id); and the payload `3;foo;42` decodes
to an `Ack` with request `foo` and id 42. -/
theorem decode_field_order :
    (∀ (start s1 s2 request : Bytes) (id : Nat), ReadString start = .ok (request, s1) →
        ReadUnsigned s1 = .ok (id, s2) →
        Ack.decode start = .ok ({ kind_ := Kind.Ack, request_ := request, id_ := id }, s2)) ∧
      (∀ (start s1 s2 request reason : Bytes), ReadString start = .ok (request, s1) →
        ReadString s1 = .ok (reason, s2) →
        Nack.decode start =
          .ok ({ kind_ := Kind.Nack, request_ := request, reason_ := reason }, s2)) ∧
      (∀ (start s1 : Bytes) (version : Nat), ReadUnsigned start = .ok (version, s1) →
        Capabilities.decode start = .ok { kind_ := Kind.Capabilities, version_ := version }) ∧
      (∀ (start s1 s2 s3 b : Bytes) (id packet size : Nat), ReadUnsigned start = .ok (id, s1) →
        ReadUnsigned s1 = .ok (packet, s2) → ReadUnsigned s2 = .ok (size, s3) →
        Decode [] s3 = (b, none) → size = b.length →
        Data.decode start =
          .ok { kind_ := Kind.Data, id_ := id, packet_ := packet, size_ := size,
                payload_ := b }) ∧
      (∀ (start s1 s2 s3 host path : Bytes) (size : Nat), ReadString start = .ok (host, s1) →
        ReadString s1 = .ok (path, s2) → ReadUnsigned s2 = .ok (size, s3) →
        OpenFileTransfer.decode start =
          .ok { kind_ := Kind.OpenFileTransfer, remoteHost_ := host, remotePath_ := path,
                size_ := size }) ∧
      (∀ (start s1 : Bytes) (id : Nat), ReadUnsigned start = .ok (id, s1) →
        GetTransferStatus.decode start =
          .ok ({ kind_ := Kind.GetTransferStatus, id_ := id }, s1)) ∧
      (∀ (start s1 s2 s3 : Bytes) (id size received : Nat), ReadUnsigned start = .ok (id, s1) →
        ReadUnsigned s1 = .ok (size, s2) → ReadUnsigned s2 = .ok (received, s3) →
        TransferStatus.decode start =
          .ok ({ kind_ := Kind.TransferStatus, id_ := id, size_ := size,
                 received_ := received }, s3)) ∧
      (∀ (start s1 : Bytes) (id : Nat), ReadUnsigned start = .ok (id, s1) →
        ViewRemoteFile.decode start = .ok ({ kind_ := Kind.ViewRemoteFile, id_ := id }, s1)) ∧
      Ack.decode [0x33, 0x3B, 0x66, 0x6F, 0x6F, 0x3B, 0x34, 0x32] =
        .ok ({ kind_ := Kind.Ack, request_ := [0x66, 0x6F, 0x6F], id_ := 42 }, []) := by
  refine ⟨?_, ?_, ?_, ?_, ?_, ?_, ?_, ?_, rfl⟩
  · intro start s1 s2 request id h1 h2
    unfold Ack.decode
    rw [h1]
    simp only
    rw [h2]
  · intro start s1 s2 request reason h1 h2
    unfold Nack.decode
    rw [h1]
    simp only
    rw [h2]
  · intro start s1 version h1
    unfold Capabilities.decode
    rw [h1]
  · intro start s1 s2 s3 b id packet size h1 h2 h3 hd hs
    rw [Data_decode_fields start s1 s2 s3 b id packet size h1 h2 h3 hd,
      if_neg (not_not.mpr hs)]
  · intro start s1 s2 s3 host path size h1 h2 h3
    unfold OpenFileTransfer.decode
    rw [h1]
    simp only
    rw [h2]
    simp only
    rw [h3]
  · intro start s1 id h1
    unfold GetTransferStatus.decode
    rw [h1]
  · intro start s1 s2 s3 id size received h1 h2 h3
    unfold TransferStatus.decode
    rw [h1]
    simp only
    rw [h2]
    simp only
    rw [h3]
  · intro start s1 id h1
    unfold ViewRemoteFile.decode
    rw [h1]

/-- Witness for C19: the `TransferStatus` payload `7;100;42` and the `OpenFileTransfer`
payload `1;h;3;a/b;9`. -/
theorem decode_field_order_witness :
    TransferStatus.decode [0x37, 0x3B, 0x31, 0x30, 0x30, 0x3B, 0x34, 0x32] =
        .ok ({ kind_ := Kind.TransferStatus, id_ := 7, size_ := 100, received_ := 42 }, []) ∧
      OpenFileTransfer.decode
          [0x31, 0x3B, 0x68, 0x3B, 0x33, 0x3B, 0x61, 0x2F, 0x62, 0x3B, 0x39] =
        .ok { kind_ := Kind.OpenFileTransfer, remoteHost_ := [0x68],
              remotePath_ := [0x61, 0x2F, 0x62], size_ := 9 } :=
  ⟨decode_field_order.2.2.2.2.2.2.1 [0x37, 0x3B, 0x31, 0x30, 0x30, 0x3B, 0x34, 0x32]
      [0x31, 0x30, 0x30, 0x3B, 0x34, 0x32] [0x34, 0x32] [] 7 100 42 rfl rfl rfl,
   decode_field_order.2.2.2.2.1
      [0x31, 0x3B, 0x68, 0x3B, 0x33, 0x3B, 0x61, 0x2F, 0x62, 0x3B, 0x39]
      [0x33, 0x3B, 0x61, 0x2F, 0x62, 0x3B, 0x39] [0x39] [] [0x68] [0x61, 0x2F, 0x62] 9
      rfl rfl rfl⟩

/-- C20: the ordinals of the kinds are the zero-based positions `Ack` 0, `Nack` 1,
`GetCapabilities` 2, `Capabilities` 3, `Data` 4, `OpenFileTransfer` 5, `GetTransferStatus` 6,
`TransferStatus` 7, `ViewRemoteFile` 8; they are pairwise distinct; and `Invalid` has ordinal
9, strictly greater than the ordinal of every other kind. -/
theorem Kind_ordinals :
    (Kind.Ack.toNat = 0 ∧ Kind.Nack.toNat = 1 ∧ Kind.GetCapabilities.toNat = 2 ∧
        Kind.Capabilities.toNat = 3 ∧ Kind.Data.toNat = 4 ∧ Kind.OpenFileTransfer.toNat = 5 ∧
        Kind.GetTransferStatus.toNat = 6 ∧ Kind.TransferStatus.toNat = 7 ∧
        Kind.ViewRemoteFile.toNat = 8 ∧ Kind.Invalid.toNat = 9) ∧
      (∀ k1 k2 : Kind, k1.toNat = k2.toNat → k1 = k2) ∧
      (∀ k : Kind, k ≠ Kind.Invalid → k.toNat < Kind.Invalid.toNat) ∧
      (∀ k : Kind, Kind.ofOrdinal k.toNat = k) := by
  refine ⟨⟨rfl, rfl, rfl, rfl, rfl, rfl, rfl, rfl, rfl, rfl⟩, ?_, ?_, ?_⟩
  · intro k1 k2 h
    cases k1 <;> cases k2 <;> first | rfl | cases h
  · intro k h
    cases k <;> first | exact absurd rfl h | decide
  · intro k
    cases k <;> rfl

/-- Witness for C20: `Data` and `Capabilities` have the distinct ordinals 4 and 3, both below
the ordinal of `Invalid`. -/
theorem Kind_ordinals_witness :
    (Kind.Data.toNat = Kind.Capabilities.toNat → Kind.Data = Kind.Capabilities) ∧
      Kind.Data.toNat < Kind.Invalid.toNat ∧ Kind.ViewRemoteFile.toNat < Kind.Invalid.toNat :=
  ⟨Kind_ordinals.2.1 Kind.Data Kind.Capabilities, Kind_ordinals.2.2.1 Kind.Data (by decide),
   Kind_ordinals.2.2.1 Kind.ViewRemoteFile (by decide)⟩

end Sequence

/-! ## Theorems: locating a frame -/

namespace Sequence

theorem FindSequenceStart_cons (c : Byte) (rest : Bytes) :
    FindSequenceStart (c :: rest) =
      if c = Char.ESC ∧ rest.take 2 = [0x50, 0x2B] then c :: rest
      else FindSequenceStart rest := rfl

theorem startsWithLeadIn_cons (c : Byte) (rest : Bytes) :
    startsWithLeadIn (c :: rest) = true ↔ c = Char.ESC ∧ rest.take 2 = [0x50, 0x2B] := by
  simp [startsWithLeadIn]

/-- At a lead-in `FindSequenceStart` stops at once. -/
theorem FindSequenceStart_at_leadIn (x : Bytes) (h : startsWithLeadIn x = true) :
    FindSequenceStart x = x := by
  cases x with
  | nil => rfl
  | cons c rest => rw [FindSequenceStart_cons, if_pos ((startsWithLeadIn_cons c rest).mp h)]

/-- What `FindSequenceStart` returns: it drops a front part in which no lead-in starts, and
what is left is empty or starts with a lead-in. -/
theorem FindSequenceStart_earliest (b : Bytes) :
    ∃ pre, b = pre ++ FindSequenceStart b ∧
      (∀ j, j < pre.length → startsWithLeadIn (b.drop j) = false) ∧
      (FindSequenceStart b = [] ∨ startsWithLeadIn (FindSequenceStart b) = true) := by
  induction b with
  | nil => exact ⟨[], rfl, by simp, Or.inl rfl⟩
  | cons c rest ih =>
    rw [FindSequenceStart_cons]
    by_cases h : c = Char.ESC ∧ rest.take 2 = [0x50, 0x2B]
    · rw [if_pos h]
      exact ⟨[], rfl, by simp, Or.inr ((startsWithLeadIn_cons c rest).mpr h)⟩
    · rw [if_neg h]
      obtain ⟨pre, h1, h2, h3⟩ := ih
      refine ⟨c :: pre, by rw [List.cons_append, ← h1], ?_, h3⟩
      intro j hj
      cases j with
      | zero =>
        rw [List.drop_zero]
        cases hs : startsWithLeadIn (c :: rest) with
        | false => rfl
        | true => exact absurd ((startsWithLeadIn_cons c rest).mp hs) h
      | succ j =>
        simp only [List.length_cons] at hj
        rw [List.drop_succ_cons]
        exact h2 j (by omega)

/-- The earliest lead-in of a buffer is where `FindSequenceStart` stops. -/
theorem FindSequenceStart_of_earliest (pre tail : Bytes)
    (hpre : ∀ j, j < pre.length → startsWithLeadIn ((pre ++ tail).drop j) = false)
    (htail : startsWithLeadIn tail = true) : FindSequenceStart (pre ++ tail) = tail := by
  induction pre with
  | nil => exact FindSequenceStart_at_leadIn tail htail
  | cons c pre ih =>
    have h0 := hpre 0 (by simp)
    rw [List.drop_zero, List.cons_append] at h0
    have hc : ¬ (c = Char.ESC ∧ (pre ++ tail).take 2 = [0x50, 0x2B]) := by
      intro h
      rw [(startsWithLeadIn_cons c (pre ++ tail)).mpr h] at h0
      cases h0
    rw [List.cons_append, FindSequenceStart_cons, if_neg hc]
    apply ih
    intro j hj
    have := hpre (j + 1) (by simp only [List.length_cons]; omega)
    simpa using this

theorem FindSequenceEnd_no_bel (x : Bytes) (h : Char.BEL ∉ x) : FindSequenceEnd x = [] := by
  induction x with
  | nil => rfl
  | cons c rest ih =>
    simp only [List.mem_cons, not_or] at h
    have hc : ¬ c = Char.BEL := fun e => h.1 e.symm
    rw [FindSequenceEnd, if_neg hc]
    exact ih h.2

/-- C21: for every buffer whose earliest lead-in `ESC P +` is followed by no `BEL` (for example
`ESC P + 1`), the sequence parser returns the need-more-bytes indication: no error, and
nothing consumed. -/
theorem parse_truncated (pre body : Bytes)
    (hpre : ∀ j, j < pre.length →
      startsWithLeadIn ((pre ++ ([Char.ESC, 0x50, 0x2B] ++ body)).drop j) = false)
    (hbel : Char.BEL ∉ body) :
    parse (pre ++ ([Char.ESC, 0x50, 0x2B] ++ body)) = ParseResult.needMore := by
  have hs := FindSequenceStart_of_earliest pre ([Char.ESC, 0x50, 0x2B] ++ body) hpre (by
    simp [startsWithLeadIn])
  unfold parse
  rw [hs]
  simp only [List.cons_append, List.nil_append]
  rw [FindSequenceEnd_no_bel body hbel]

/-- Witness for C21: the buffers `ESC P + 1` and `x BEL ESC P + 1 ; 3`. -/
theorem parse_truncated_witness :
    parse ([] ++ ([Char.ESC, 0x50, 0x2B] ++ [0x31])) = ParseResult.needMore ∧
      parse ([0x78, 0x07] ++ ([Char.ESC, 0x50, 0x2B] ++ [0x31, 0x3B, 0x33])) =
        ParseResult.needMore :=
  ⟨parse_truncated [] [0x31] (by simp) (by decide),
   parse_truncated [0x78, 0x07] [0x31, 0x3B, 0x33]
     (by intro j hj
         have hj' : j < 2 := hj
         interval_cases j <;> decide)
     (by decide)⟩

/-- C22: for every buffer `b`, `FindSequenceStart` returns the position of the earliest
occurrence of `ESC P +`, or the buffer end when there is none: no lead-in starts before that
position, and the bytes from it on are empty or start with the lead-in; so applying
`FindSequenceStart` again to the bytes from that position returns the same position. -/
theorem FindSequenceStart_idempotent (b : Bytes) :
    FindSequenceStart (FindSequenceStart b) = FindSequenceStart b ∧
      ∃ pre, b = pre ++ FindSequenceStart b ∧
        (∀ j, j < pre.length → startsWithLeadIn (b.drop j) = false) ∧
        (FindSequenceStart b = [] ∨ startsWithLeadIn (FindSequenceStart b) = true) := by
  refine ⟨?_, FindSequenceStart_earliest b⟩
  obtain ⟨_, _, _, h | h⟩ := FindSequenceStart_earliest b
  · rw [h]
    rfl
  · exact FindSequenceStart_at_leadIn _ h

/-- Witness for C22: the buffer `x ESC P + 1`, whose lead-in is at offset 1. -/
theorem FindSequenceStart_idempotent_witness :
    FindSequenceStart (FindSequenceStart [0x78, 0x1B, 0x50, 0x2B, 0x31]) =
        FindSequenceStart [0x78, 0x1B, 0x50, 0x2B, 0x31] ∧
      ∃ pre, ([0x78, 0x1B, 0x50, 0x2B, 0x31] : Bytes) =
          pre ++ FindSequenceStart [0x78, 0x1B, 0x50, 0x2B, 0x31] ∧
        (∀ j, j < pre.length →
          startsWithLeadIn (([0x78, 0x1B, 0x50, 0x2B, 0x31] : Bytes).drop j) = false) ∧
        (FindSequenceStart [0x78, 0x1B, 0x50, 0x2B, 0x31] = [] ∨
          startsWithLeadIn (FindSequenceStart [0x78, 0x1B, 0x50, 0x2B, 0x31]) = true) :=
  FindSequenceStart_idempotent [0x78, 0x1B, 0x50, 0x2B, 0x31]

/-! ## Theorems: kinds, quoted bytes and versions -/

/-- C27 fails on the source for one class of the nine: whatever the payload, the object built
by the decoding constructor of `GetCapabilities` reports the kind `Capabilities`, while the one
built by the value constructor reports `GetCapabilities`. For the eight other classes every
object a decoding constructor builds reports the kind the value constructor gives. -/
theorem GetCapabilities_decode_kind (start : Bytes) :
    ((ofGetCapabilities (GetCapabilities.decode start)).kind = Kind.Capabilities ∧
      (ofGetCapabilities GetCapabilities.new).kind = Kind.GetCapabilities ∧
      (ofGetCapabilities (GetCapabilities.decode start)).kind ≠
        (ofGetCapabilities GetCapabilities.new).kind) ∧
      (∀ s r, Ack.decode start = .ok (s, r) →
        (ofAck s).kind = Kind.Ack ∧ (ofAck (Ack.ofId 0)).kind = Kind.Ack) ∧
      (∀ s r, Nack.decode start = .ok (s, r) →
        (ofNack s).kind = Kind.Nack ∧
          (ofNack (Nack.ofRequest (ofGetCapabilities GetCapabilities.new) [])).kind =
            Kind.Nack) ∧
      (∀ s, Capabilities.decode start = .ok s →
        (ofCapabilities s).kind = Kind.Capabilities ∧
          (ofCapabilities (Capabilities.ofVersion 0)).kind = Kind.Capabilities) ∧
      (∀ s, Data.decode start = .ok s →
        (ofData s).kind = Kind.Data ∧ (ofData (Data.ofPayload 0 0 [])).kind = Kind.Data) ∧
      (∀ s, OpenFileTransfer.decode start = .ok s →
        (ofOpenFileTransfer s).kind = Kind.OpenFileTransfer ∧
          (ofOpenFileTransfer (OpenFileTransfer.new [] [] 0)).kind = Kind.OpenFileTransfer) ∧
      (∀ s r, GetTransferStatus.decode start = .ok (s, r) →
        (ofGetTransferStatus s).kind = Kind.GetTransferStatus ∧
          (ofGetTransferStatus (GetTransferStatus.new 0)).kind = Kind.GetTransferStatus) ∧
      (∀ s r, TransferStatus.decode start = .ok (s, r) →
        (ofTransferStatus s).kind = Kind.TransferStatus ∧
          (ofTransferStatus (TransferStatus.new 0 0 0)).kind = Kind.TransferStatus) ∧
      (∀ s r, ViewRemoteFile.decode start = .ok (s, r) →
        (ofViewRemoteFile s).kind = Kind.ViewRemoteFile ∧
          (ofViewRemoteFile (ViewRemoteFile.new 0)).kind = Kind.ViewRemoteFile) := by
  refine ⟨⟨rfl, rfl, fun h => by cases h⟩, ?_, ?_, ?_, ?_, ?_, ?_, ?_, ?_⟩
  · intro s r h
    simp only [Ack.decode] at h
    repeat' split at h
    all_goals first | (cases h; exact ⟨rfl, rfl⟩) | cases h
  · intro s r h
    simp only [Nack.decode] at h
    repeat' split at h
    all_goals first | (cases h; exact ⟨rfl, rfl⟩) | cases h
  · intro s h
    simp only [Capabilities.decode] at h
    repeat' split at h
    all_goals first | (cases h; exact ⟨rfl, rfl⟩) | cases h
  · intro s h
    simp only [Data.decode] at h
    repeat' split at h
    all_goals first | (cases h; exact ⟨rfl, rfl⟩) | cases h
  · intro s h
    simp only [OpenFileTransfer.decode] at h
    repeat' split at h
    all_goals first | (cases h; exact ⟨rfl, rfl⟩) | cases h
  · intro s r h
    simp only [GetTransferStatus.decode] at h
    repeat' split at h
    all_goals first | (cases h; exact ⟨rfl, rfl⟩) | cases h
  · intro s r h
    simp only [TransferStatus.decode] at h
    repeat' split at h
    all_goals first | (cases h; exact ⟨rfl, rfl⟩) | cases h
  · intro s r h
    simp only [ViewRemoteFile.decode] at h
    repeat' split at h
    all_goals first | (cases h; exact ⟨rfl, rfl⟩) | cases h

theorem parseHex_lt (c : Byte) (a : Nat) (h : Char.ParseHexadecimalDigit c = .ok a) :
    a < 16 := by
  unfold Char.ParseHexadecimalDigit at h
  split at h
  · rename_i h1
    simp only [Bool.and_eq_true, decide_eq_true_eq] at h1
    simp only [Except.ok.injEq] at h
    omega
  · split at h
    · rename_i h1
      simp only [Bool.and_eq_true, decide_eq_true_eq] at h1
      simp only [Except.ok.injEq] at h
      omega
    · split at h
      · rename_i h1
        simp only [Bool.and_eq_true, decide_eq_true_eq] at h1
        simp only [Except.ok.injEq] at h
        omega
      · cases h

theorem parseHex_toHexDigit (n : Nat) (h : n < 16) :
    Char.ParseHexadecimalDigit (Char.ToHexDigit n) = .ok n ∧
      Char.IsHexadecimalDigit (Char.ToHexDigit n) = true := by
  interval_cases n <;> exact ⟨rfl, rfl⟩

theorem byte_of_nibbles (v : Byte) :
    UInt8.ofNat ((v.toNat / 16 * 16 + v.toNat % 16) % 256) = v := by
  have h1 : v.toNat / 16 * 16 + v.toNat % 16 = v.toNat := by omega
  have h2 : v.toNat < 256 := v.val.isLt
  rw [h1, Nat.mod_eq_of_lt h2]
  cases v with
  | mk val => simp [UInt8.ofNat, UInt8.toNat]

/-- C28: with the cursor at a byte other than the backtick `DecodeChar` returns that byte and
leaves the cursor one byte further; with the cursor at a backtick followed by two hexadecimal
digits of values `a` and `b` it returns the byte of value `16 * a + b` and leaves the cursor
three bytes further; and every byte value is returned for some quoted pair. -/
theorem DecodeChar_spec :
    (∀ (c : Byte) (rest : Bytes), c ≠ Char.BACKTICK → DecodeChar c rest = .ok (c, rest)) ∧
      (∀ (h1 h2 : Byte) (rest : Bytes) (a b : Nat), Char.ParseHexadecimalDigit h1 = .ok a →
        Char.ParseHexadecimalDigit h2 = .ok b →
        ∃ v : Byte, v.toNat = 16 * a + b ∧
          DecodeChar Char.BACKTICK (h1 :: h2 :: rest) = .ok (v, rest)) ∧
      (∀ v : Byte, ∃ h1 h2 : Byte, Char.IsHexadecimalDigit h1 = true ∧
        Char.IsHexadecimalDigit h2 = true ∧
        ∀ rest : Bytes, DecodeChar Char.BACKTICK (h1 :: h2 :: rest) = .ok (v, rest)) := by
  refine ⟨fun c rest h => DecodeChar_plain c rest h, ?_, ?_⟩
  · intro h1 h2 rest a b ha hb
    have la := parseHex_lt h1 a ha
    have lb := parseHex_lt h2 b hb
    refine ⟨UInt8.ofNat ((a * 16 + b) % 256), ?_, ?_⟩
    · have hlt : a * 16 + b < 256 := by omega
      rw [Nat.mod_eq_of_lt hlt, UInt8.toNat_ofNat_of_lt (by simpa [UInt8.size] using hlt)]
      omega
    · rw [DecodeChar_quote, ha, hb]
  · intro v
    have hhi : v.toNat / 16 < 16 := by
      have : v.toNat < 256 := v.val.isLt
      omega
    have hlo : v.toNat % 16 < 16 := Nat.mod_lt _ (by decide)
    obtain ⟨p1, q1⟩ := parseHex_toHexDigit _ hhi
    obtain ⟨p2, q2⟩ := parseHex_toHexDigit _ hlo
    refine ⟨Char.ToHexDigit (v.toNat / 16), Char.ToHexDigit (v.toNat % 16), q1, q2, ?_⟩
    intro rest
    rw [DecodeChar_quote, p1, p2]
    simp only
    rw [byte_of_nibbles]

/-- Witness for C28: the byte `a`, the quoted pair `` `4F `` and the value 255. -/
theorem DecodeChar_spec_witness :
    DecodeChar 0x61 [0x62] = .ok (0x61, [0x62]) ∧
      (∃ v : Byte, v.toNat = 16 * 4 + 15 ∧
        DecodeChar Char.BACKTICK (0x34 :: 0x46 :: [0x62]) = .ok (v, [0x62])) ∧
      (∃ h1 h2 : Byte, Char.IsHexadecimalDigit h1 = true ∧ Char.IsHexadecimalDigit h2 = true ∧
        ∀ rest : Bytes, DecodeChar Char.BACKTICK (h1 :: h2 :: rest) = .ok (0xFF, rest)) :=
  ⟨DecodeChar_spec.1 0x61 [0x62] (by decide),
   DecodeChar_spec.2.1 0x34 0x46 [0x62] 4 15 rfl rfl,
   DecodeChar_spec.2.2 0xFF⟩

/-- C29, as amended: for every version value `v` in the range of a 32-bit `unsigned`, the
sequence `Capabilities(v)` built by the value constructor reports `version() = v`; and for
every `v` in the 64-bit range a `Capabilities` decoded from the payload carrying `v` reports
`v`. -/
theorem Capabilities_version :
    (∀ v : Nat, v < 2 ^ 32 → (Capabilities.ofVersion v).version_ = v) ∧
      (∀ v : Nat, v < 2 ^ 64 →
        Capabilities.decode (toDecimal v) =
          .ok { kind_ := Kind.Capabilities, version_ := v }) ∧
      (∀ v : Nat, v < 2 ^ 32 →
        Capabilities.decode ((writeTo (ofCapabilities (Capabilities.ofVersion v))).drop 2) =
          .ok (Capabilities.ofVersion v)) := by
  refine ⟨?_, ?_, ?_⟩
  · intro v h
    exact Nat.mod_eq_of_lt h
  · intro v h
    have := Capabilities_decode_written v [] h (Or.inl rfl)
    rwa [List.append_nil] at this
  · intro v h
    have hv : (Capabilities.ofVersion v) = { kind_ := Kind.Capabilities, version_ := v } := by
      unfold Capabilities.ofVersion
      rw [Nat.mod_eq_of_lt h]
    rw [hv]
    have hw : (writeTo (ofCapabilities { kind_ := Kind.Capabilities, version_ := v })).drop 2 =
        toDecimal v := by
      simp only [writeTo, toDecimal_kind]
      rfl
    rw [hw]
    have := Capabilities_decode_written v [] (by omega) (Or.inl rfl)
    rwa [List.append_nil] at this

/-- Witness for C29: the version 3. -/
theorem Capabilities_version_witness :
    (Capabilities.ofVersion 3).version_ = 3 ∧
      Capabilities.decode (toDecimal 3) = .ok { kind_ := Kind.Capabilities, version_ := 3 } ∧
      Capabilities.decode ((writeTo (ofCapabilities (Capabilities.ofVersion 3))).drop 2) =
        .ok (Capabilities.ofVersion 3) :=
  ⟨Capabilities_version.1 3 (by decide), Capabilities_version.2.1 3 (by decide),
   Capabilities_version.2.2 3 (by decide)⟩

/-- C29 fails as stated: the value constructor takes a 32-bit `unsigned`, so `Capabilities(v)`
for `v = 2^32` reports version 0, while a `Capabilities` decoded from the payload `4294967296`
reports `2^32`. -/
theorem Capabilities_version_counterexample :
    (4294967296 : Nat) < 2 ^ 64 ∧
      (Capabilities.ofVersion 4294967296).version_ = 0 ∧
      Capabilities.decode [0x34, 0x32, 0x39, 0x34, 0x39, 0x36, 0x37, 0x32, 0x39, 0x36] =
        .ok { kind_ := Kind.Capabilities, version_ := 4294967296 } ∧
      (Capabilities.ofVersion 4294967296).version_ ≠ 4294967296 :=
  ⟨by decide, rfl, rfl, by decide⟩

end Sequence

/-! ## Theorems: the OSC parser reads no further than the terminator -/

namespace OSCSequence

/-- The value loop that finds a terminator reads a non-empty front part of its bytes, and gives
the same values on that front part followed by any other bytes. -/
theorem parseValues_used (x : Bytes) : ∀ (cur : Bytes) (values vals : List Bytes)
    (after : Bytes), parseValues cur values x = (vals, some after) →
    ∃ used, x = used ++ after ∧ used ≠ [] ∧
      ∀ t, parseValues cur values (used ++ t) = (vals, some t) := by
  induction x with
  | nil =>
    intro cur values vals after h
    simp [parseValues] at h
  | cons c rest ih =>
    intro cur values vals after h
    rw [parseValues_cons] at h
    by_cases hb : c = Char.BEL
    · rw [if_pos hb] at h
      simp only [Prod.mk.injEq, Option.some.injEq] at h
      refine ⟨[c], by simp [h.2], by simp, ?_⟩
      intro t
      rw [List.singleton_append, parseValues_cons, if_pos hb, h.1]
    · rw [if_neg hb] at h
      cases hst : atST c rest with
      | some r =>
        rw [hst] at h
        simp only [Prod.mk.injEq, Option.some.injEq] at h
        obtain ⟨hc, hr⟩ := atST_eq_some c rest r hst
        refine ⟨[c, Char.BACKSLASH], by simp [hr, h.2], by simp, ?_⟩
        intro t
        have hst' : atST c (Char.BACKSLASH :: t) = some t := by
          rw [hc]
          simp [atST]
        rw [List.cons_append, List.cons_append, List.nil_append, parseValues_cons, if_neg hb, hst',
          h.1]
      | none =>
        rw [hst] at h
        simp only at h
        have key : ∀ cur' values', parseValues cur' values' rest = (vals, some after) →
            ∃ used, c :: rest = used ++ after ∧ used ≠ [] ∧
              ∀ t, (match atST c (used.tail ++ t) with
                    | some rest' => (values ++ [cur], some rest')
                    | none =>
                      if c = Char.SEMICOLON then parseValues [] (values ++ [cur]) (used.tail ++ t)
                      else parseValues (cur ++ [c]) values (used.tail ++ t)) =
                  (if c = Char.SEMICOLON then parseValues [] (values ++ [cur]) (used.tail ++ t)
                   else parseValues (cur ++ [c]) values (used.tail ++ t)) ∧
                parseValues cur' values' (used.tail ++ t) = (vals, some t) := by
          intro cur' values' h'
          obtain ⟨used, h1, h2, h3⟩ := ih cur' values' vals after h'
          refine ⟨c :: used, by rw [List.cons_append, ← h1], by simp, ?_⟩
          intro t
          obtain ⟨d, used', hdu⟩ := List.exists_cons_of_ne_nil h2
          have hno : atST c (used ++ t) = none := by
            rw [h1, hdu] at hst
            rw [hdu]
            unfold atST at hst ⊢
            by_cases hc : c = Char.ESC
            · rw [if_pos hc] at hst ⊢
              simp only [List.cons_append] at hst ⊢
              by_cases hd : d = Char.BACKSLASH
              · simp [hd] at hst
              · simp [hd]
            · rw [if_neg hc]
          rw [List.tail_cons, hno]
          exact ⟨rfl, h3 t⟩
        by_cases hs : c = Char.SEMICOLON
        · rw [if_pos hs] at h
          obtain ⟨used, h1, h2, h3⟩ := key [] (values ++ [cur]) h
          refine ⟨used, h1, h2, ?_⟩
          intro t
          obtain ⟨d, used', hdu⟩ := List.exists_cons_of_ne_nil h2
          have hd : d = c := by
            rw [hdu, List.cons_append] at h1
            exact (List.cons.inj h1).1.symm
          have h3' := h3 t
          rw [hdu, List.tail_cons] at h3'
          rw [hdu, hd, List.cons_append, parseValues_cons, if_neg hb, h3'.1, if_pos hs]
          exact h3'.2
        · rw [if_neg hs] at h
          obtain ⟨used, h1, h2, h3⟩ := key (cur ++ [c]) values h
          refine ⟨used, h1, h2, ?_⟩
          intro t
          obtain ⟨d, used', hdu⟩ := List.exists_cons_of_ne_nil h2
          have hd : d = c := by
            rw [hdu, List.cons_append] at h1
            exact (List.cons.inj h1).1.symm
          have h3' := h3 t
          rw [hdu, List.tail_cons] at h3'
          rw [hdu, hd, List.cons_append, parseValues_cons, if_neg hb, h3'.1, if_neg hs]
          exact h3'.2

/-- The digit loop that stops at a byte `d` reads a front part of its bytes, and gives the same
number on that front part followed by `d` and any other bytes. -/
theorem parseDigits_indep (x : Bytes) : ∀ (arg : Int) (d : Byte) (rest : Bytes),
    (parseDigits arg x).2 = d :: rest →
    ∃ sk, x = sk ++ d :: rest ∧
      ∀ t, parseDigits arg (sk ++ d :: t) = ((parseDigits arg x).1, d :: t) := by
  induction x with
  | nil =>
    intro arg d rest h
    simp [parseDigits] at h
  | cons c x ih =>
    intro arg d rest h
    rw [parseDigits_cons] at h ⊢
    by_cases hc : IsDecimalDigit c = true
    · rw [if_pos hc] at h ⊢
      obtain ⟨sk, h1, h2⟩ := ih _ d rest h
      refine ⟨c :: sk, by rw [List.cons_append, ← h1], ?_⟩
      intro t
      rw [List.cons_append, parseDigits_cons, if_pos hc]
      exact h2 t
    · rw [if_neg hc] at h ⊢
      simp only at h
      obtain ⟨hd, hr⟩ := List.cons.inj h
      refine ⟨[], by simp [hd, hr], ?_⟩
      intro t
      rw [List.nil_append, parseDigits_cons, ← hd, if_neg hc]

/-- The number part that leaves the cursor on a byte `d` reads a front part of its bytes, and
gives the same number on that front part followed by `d` and any other bytes. -/
theorem parseNumber_indep (x : Bytes) (d : Byte) (rest : Bytes)
    (h : (parseNumber x).2 = d :: rest) :
    ∃ sk, x = sk ++ d :: rest ∧
      ∀ t, parseNumber (sk ++ d :: t) = ((parseNumber x).1, d :: t) := by
  cases x with
  | nil => simp [parseNumber] at h
  | cons c x =>
    rw [parseNumber_cons] at h ⊢
    by_cases hc : IsDecimalDigit c = true
    · rw [if_pos hc] at h ⊢
      cases hd : parseDigits (wrapInt32 (0 * 10 + DecCharToNumber c)) x with
      | mk arg cursor =>
        rw [hd] at h
        cases cursor with
        | nil => simp at h
        | cons e rest' =>
          obtain ⟨sk, h1, h2⟩ := parseDigits_indep x _ e rest' (by rw [hd])
          rw [hd] at h2
          simp only at h2
          by_cases hs : e = Char.SEMICOLON
          · simp only [hs, if_true] at h ⊢
            refine ⟨c :: sk ++ [Char.SEMICOLON], by simp [h1, hs, h], ?_⟩
            intro t
            have e1 : c :: sk ++ [Char.SEMICOLON] ++ d :: t = c :: (sk ++ e :: (d :: t)) := by
              simp [hs]
            rw [e1, parseNumber_cons, if_pos hc, h2 (d :: t)]
            simp [hs]
          · simp only [hs, if_false] at h ⊢
            obtain ⟨he, hr⟩ := List.cons.inj h
            refine ⟨c :: sk, by simp [h1, he, hr], ?_⟩
            intro t
            rw [List.cons_append, parseNumber_cons, if_pos hc, ← he, h2 t]
            simp [hs]
    · rw [if_neg hc] at h ⊢
      simp only at h
      obtain ⟨hd, hr⟩ := List.cons.inj h
      refine ⟨[], by simp [hd, hr], ?_⟩
      intro t
      rw [List.nil_append, parseNumber_cons, ← hd, if_neg hc]

/-- The equation of `Parse` on a buffer with at least one byte after the lead-in. -/
theorem Parse_of_ne_nil (a b : Byte) (y : Bytes) (hy : y ≠ []) :
    Parse (a :: b :: y) =
      match parseValues [] [] (parseNumber y).2 with
      | (values, none) => ({ num_ := INCOMPLETE, values_ := values }, a :: b :: y)
      | (values, some x'') => ({ num_ := (parseNumber y).1, values_ := values }, x'') := by
  cases y with
  | nil => exact absurd rfl hy
  | cons c x => rfl

/-- C30: the result of `Parse` depends only on the bytes up to and including the first
terminator: for every buffer on which the parse succeeds (number not `INCOMPLETE`), consuming
`n` bytes, and every byte string `t`, the parse of the first `n` bytes followed by `t` returns
the same number and values, leaves the cursor at `t`, and so consumes the same `n` bytes. -/
theorem parse_prefix_only (buf : Bytes) (h : (Parse buf).1.num_ ≠ INCOMPLETE) (t : Bytes) :
    Parse (buf.take (buf.length - (Parse buf).2.length) ++ t) = ((Parse buf).1, t) ∧
      (buf.take (buf.length - (Parse buf).2.length) ++ t).length -
          (Parse (buf.take (buf.length - (Parse buf).2.length) ++ t)).2.length =
        buf.length - (Parse buf).2.length := by
  obtain ⟨a, b, c, x, vals, after, hbuf, hv, hp⟩ := Parse_success buf h
  obtain ⟨used, hu1, hu2, hu3⟩ := parseValues_used _ [] [] vals after hv
  obtain ⟨d, used', hdu⟩ := List.exists_cons_of_ne_nil hu2
  have hcur : (parseNumber (c :: x)).2 = d :: (used' ++ after) := by
    rw [hu1, hdu, List.cons_append]
  obtain ⟨sk, hs1, hs2⟩ := parseNumber_indep (c :: x) d (used' ++ after) hcur
  have hshape : buf = (a :: b :: (sk ++ d :: used')) ++ after := by
    rw [hbuf, hs1]
    simp
  have htake : buf.take (buf.length - (Parse buf).2.length) = a :: b :: (sk ++ d :: used') := by
    rw [hp]
    simp only
    have hl : buf.length - after.length = (a :: b :: (sk ++ d :: used')).length := by
      rw [hshape, List.length_append]
      omega
    rw [hl, hshape]
    exact List.take_left _ _
  have hparse : Parse (a :: b :: (sk ++ d :: used') ++ t) = ((Parse buf).1, t) := by
    have e1 : a :: b :: (sk ++ d :: used') ++ t = a :: b :: (sk ++ d :: (used' ++ t)) := by
      simp
    rw [e1, Parse_of_ne_nil a b _ (by simp), hs2 (used' ++ t)]
    have e2 : d :: (used' ++ t) = used ++ t := by rw [hdu, List.cons_append]
    simp only
    rw [e2, hu3 t, hp]
  rw [htake]
  refine ⟨hparse, ?_⟩
  rw [hparse, hp]
  simp only
  have hl := congrArg List.length hshape
  rw [List.length_append] at hl ⊢
  omega

/-- Witness for C30: `ESC ] 5 2 ; c ESC \\ x` parses to number 52 and the value `c`, consuming
8 bytes; with the byte `x` replaced by `BEL 9` the result is the same. -/
theorem parse_prefix_only_witness :
    (Parse [0x1B, 0x5D, 0x35, 0x32, 0x3B, 0x63, 0x1B, 0x5C, 0x78]).1.num_ ≠ INCOMPLETE ∧
      (Parse ((([0x1B, 0x5D, 0x35, 0x32, 0x3B, 0x63, 0x1B, 0x5C, 0x78] : Bytes).take
          (([0x1B, 0x5D, 0x35, 0x32, 0x3B, 0x63, 0x1B, 0x5C, 0x78] : Bytes).length -
            (Parse [0x1B, 0x5D, 0x35, 0x32, 0x3B, 0x63, 0x1B, 0x5C, 0x78]).2.length)) ++
            [0x07, 0x39]) =
          ((Parse [0x1B, 0x5D, 0x35, 0x32, 0x3B, 0x63, 0x1B, 0x5C, 0x78]).1, [0x07, 0x39]) ∧
        (([0x1B, 0x5D, 0x35, 0x32, 0x3B, 0x63, 0x1B, 0x5C, 0x78] : Bytes).take
            (([0x1B, 0x5D, 0x35, 0x32, 0x3B, 0x63, 0x1B, 0x5C, 0x78] : Bytes).length -
              (Parse [0x1B, 0x5D, 0x35, 0x32, 0x3B, 0x63, 0x1B, 0x5C, 0x78]).2.length) ++
              [0x07, 0x39]).length -
            (Parse ((([0x1B, 0x5D, 0x35, 0x32, 0x3B, 0x63, 0x1B, 0x5C, 0x78] : Bytes).take
              (([0x1B, 0x5D, 0x35, 0x32, 0x3B, 0x63, 0x1B, 0x5C, 0x78] : Bytes).length -
                (Parse [0x1B, 0x5D, 0x35, 0x32, 0x3B, 0x63, 0x1B, 0x5C, 0x78]).2.length)) ++
                [0x07, 0x39])).2.length =
          ([0x1B, 0x5D, 0x35, 0x32, 0x3B, 0x63, 0x1B, 0x5C, 0x78] : Bytes).length -
            (Parse [0x1B, 0x5D, 0x35, 0x32, 0x3B, 0x63, 0x1B, 0x5C, 0x78]).2.length) :=
  ⟨by decide,
    parse_prefix_only [0x1B, 0x5D, 0x35, 0x32, 0x3B, 0x63, 0x1B, 0x5C, 0x78] (by decide)
      [0x07, 0x39]⟩

end OSCSequence

/-! ## Theorems: JSON backed configuration -/

namespace JSONConfig

theorem update_property (v : JSON) (t : Bool) (T : PropertyType) (d : DefaultValue) (u : Bool)
    (j : JSON) :
    update v t (.property T d u j) =
      if FromJSON T v then some (false, .property T d true v)
      else if t then none else some (false, .property T d u j) := by
  cases v <;> rfl

theorem update_object (ms : JSONList) (t : Bool) (u : Bool) (props : JSONConfigList) :
    update (.object ms) t (.object u props) =
      match updateMembers ms t props false with
      | none => none
      | some (result, props') => some (result, .object true props') := by
  rw [update]

theorem update_object_other (v : JSON) (t : Bool) (u : Bool) (props : JSONConfigList)
    (h : ∀ ms, v ≠ .object ms) :
    update v t (.object u props) = if t then none else some (false, .object u props) := by
  cases v <;> first | rfl | exact absurd rfl (h _)

theorem update_array (es : JSONList) (t : Bool) (d : DefaultValue) (entry : JSONConfig)
    (u : Bool) (elems : JSONConfigList) :
    update (.array es) t (.array d entry u elems) =
      match updateElements es t entry .nil false with
      | none => none
      | some (result, elems') => some (result, .array d entry true elems') := by
  rw [update]

theorem update_array_other (v : JSON) (t : Bool) (d : DefaultValue) (entry : JSONConfig)
    (u : Bool) (elems : JSONConfigList) (h : ∀ es, v ≠ .array es) :
    update v t (.array d entry u elems) =
      if t then none else some (false, .array d entry u elems) := by
  cases v <;> first | rfl | exact absurd rfl (h _)

theorem updateMembers_nil (t : Bool) (props : JSONConfigList) (result : Bool) :
    updateMembers .nil t props result = some (result, props) := by
  rw [updateMembers]

theorem updateMembers_cons (name : Bytes) (v : JSON) (rest : JSONList) (t : Bool)
    (props : JSONConfigList) (result : Bool) :
    updateMembers (.cons name v rest) t props result =
      match props.find name with
      | none => if t then none else updateMembers rest t props result
      | some child =>
        match update v t child with
        | none => none
        | some (r, child') => updateMembers rest t (props.replace name child') (r || result) := by
  rw [updateMembers]

theorem updateElements_nil (t : Bool) (entry : JSONConfig) (elems : JSONConfigList)
    (result : Bool) :
    updateElements .nil t entry elems result = some (result, elems) := by
  rw [updateElements]

theorem updateElements_cons (name : Bytes) (v : JSON) (rest : JSONList) (t : Bool)
    (entry : JSONConfig) (elems : JSONConfigList) (result : Bool) :
    updateElements (.cons name v rest) t entry elems result =
      match update v t entry with
      | none => none
      | some (r, element) =>
        updateElements rest t entry (elems.push_back element) (r || result) := by
  rw [updateElements]

/-- An `Object` updated with a value that is not an object returns false. -/
theorem update_object_other_false (v : JSON) (t : Bool) (u : Bool) (props : JSONConfigList)
    (r : Bool) (c' : JSONConfig) (hv : ∀ ms, v ≠ .object ms)
    (h : update v t (.object u props) = some (r, c')) : r = false := by
  rw [update_object_other v t u props hv] at h
  cases t <;> simp at h
  exact h.1

/-- An `Array` updated with a value that is not an array returns false. -/
theorem update_array_other_false (v : JSON) (t : Bool) (d : DefaultValue) (entry : JSONConfig)
    (u : Bool) (elems : JSONConfigList) (r : Bool) (c' : JSONConfig) (hv : ∀ es, v ≠ .array es)
    (h : update v t (.array d entry u elems) = some (r, c')) : r = false := by
  rw [update_array_other v t d entry u elems hv] at h
  cases t <;> simp at h
  exact h.1

/-- A `Property` update returns false. -/
theorem update_property_false (v : JSON) (t : Bool) (T : PropertyType) (d : DefaultValue)
    (u : Bool) (j : JSON) (r : Bool) (c' : JSONConfig)
    (h : update v t (.property T d u j) = some (r, c')) : r = false := by
  rw [update_property] at h
  by_cases hf : FromJSON T v = true
  · rw [if_pos hf] at h
    simp at h
    exact h.1
  · rw [if_neg hf] at h
    cases t <;> simp at h
    exact h.1

mutual
/-- The result of `update` is false whenever the call returns. -/
theorem update_false : ∀ (v : JSON) (t : Bool) (c : JSONConfig) (r : Bool) (c' : JSONConfig),
    update v t c = some (r, c') → r = false
  | v, t, .property T d u j, r, c', h => update_property_false v t T d u j r c' h
  | .object ms, t, .object u props, r, c', h => by
    rw [update_object] at h
    cases hm : updateMembers ms t props false with
    | none => rw [hm] at h; simp at h
    | some p =>
      obtain ⟨r0, props'⟩ := p
      rw [hm] at h
      simp at h
      rw [← h.1]
      exact updateMembers_result ms t props false r0 props' hm
  | .null, t, .object u props, r, c', h =>
    update_object_other_false _ t u props r c' (fun _ e => by cases e) h
  | .boolean _, t, .object u props, r, c', h =>
    update_object_other_false _ t u props r c' (fun _ e => by cases e) h
  | .integer _, t, .object u props, r, c', h =>
    update_object_other_false _ t u props r c' (fun _ e => by cases e) h
  | .double _, t, .object u props, r, c', h =>
    update_object_other_false _ t u props r c' (fun _ e => by cases e) h
  | .string _, t, .object u props, r, c', h =>
    update_object_other_false _ t u props r c' (fun _ e => by cases e) h
  | .array _, t, .object u props, r, c', h =>
    update_object_other_false _ t u props r c' (fun _ e => by cases e) h
  | .array es, t, .array d entry u elems, r, c', h => by
    rw [update_array] at h
    cases hm : updateElements es t entry .nil false with
    | none => rw [hm] at h; simp at h
    | some p =>
      obtain ⟨r0, elems'⟩ := p
      rw [hm] at h
      simp at h
      rw [← h.1]
      exact updateElements_result es t entry .nil false r0 elems' hm
  | .null, t, .array d entry u elems, r, c', h =>
    update_array_other_false _ t d entry u elems r c' (fun _ e => by cases e) h
  | .boolean _, t, .array d entry u elems, r, c', h =>
    update_array_other_false _ t d entry u elems r c' (fun _ e => by cases e) h
  | .integer _, t, .array d entry u elems, r, c', h =>
    update_array_other_false _ t d entry u elems r c' (fun _ e => by cases e) h
  | .double _, t, .array d entry u elems, r, c', h =>
    update_array_other_false _ t d entry u elems r c' (fun _ e => by cases e) h
  | .string _, t, .array d entry u elems, r, c', h =>
    update_array_other_false _ t d entry u elems r c' (fun _ e => by cases e) h
  | .object _, t, .array d entry u elems, r, c', h =>
    update_array_other_false _ t d entry u elems r c' (fun _ e => by cases e) h
/-- The loop of `Object::update` returns the result it started with. -/
theorem updateMembers_result : ∀ (ms : JSONList) (t : Bool) (props : JSONConfigList)
    (res r : Bool) (props' : JSONConfigList),
    updateMembers ms t props res = some (r, props') → r = res
  | .nil, t, props, res, r, props', h => by
    rw [updateMembers_nil] at h
    simp at h
    exact h.1.symm
  | .cons name v rest, t, props, res, r, props', h => by
    rw [updateMembers_cons] at h
    cases hf : props.find name with
    | none =>
      rw [hf] at h
      cases t
      · simp at h
        exact updateMembers_result rest false props res r props' h
      · simp at h
    | some child =>
      rw [hf] at h
      simp only at h
      cases hu : update v t child with
      | none => rw [hu] at h; simp at h
      | some p =>
        obtain ⟨r1, child'⟩ := p
        rw [hu] at h
        simp only at h
        have h1 : r1 = false := update_false v t child r1 child' hu
        have h2 := updateMembers_result rest t _ _ r props' h
        rw [h2, h1]
        rfl
/-- The loop of `Array::update` returns the result it started with. -/
theorem updateElements_result : ∀ (es : JSONList) (t : Bool) (entry : JSONConfig)
    (elems : JSONConfigList) (res r : Bool) (elems' : JSONConfigList),
    updateElements es t entry elems res = some (r, elems') → r = res
  | .nil, t, entry, elems, res, r, elems', h => by
    rw [updateElements_nil] at h
    simp at h
    exact h.1.symm
  | .cons name v rest, t, entry, elems, res, r, elems', h => by
    rw [updateElements_cons] at h
    cases hu : update v t entry with
    | none => rw [hu] at h; simp at h
    | some p =>
      obtain ⟨r1, element⟩ := p
      rw [hu] at h
      simp only at h
      have h1 : r1 = false := update_false v t entry r1 element hu
      have h2 := updateElements_result rest t entry _ _ r elems' h
      rw [h2, h1]
      rfl
end

end JSONConfig

/-! ## Theorems: string helpers -/

theorem stringAt_append_left (x y : Bytes) (i : Nat) (h : i < x.length) :
    stringAt (x ++ y) i = stringAt x i := by
  unfold stringAt
  rw [List.getD_append x y 0 i h]

theorem stringAt_append_length (x : Bytes) (c : Byte) (y : Bytes) :
    stringAt (x ++ c :: y) x.length = c := by
  unfold stringAt
  rw [List.getD_append_right x (c :: y) 0 x.length (le_refl _)]
  simp

theorem stringAt_length (x : Bytes) : stringAt x x.length = 0 := by
  unfold stringAt
  exact List.getD_eq_default _ _ (le_refl _)

theorem trimStart_succ (s : Bytes) (fuel start : Nat) :
    trimStart s (fuel + 1) start =
      if IsWhitespace (stringAt s start) then trimStart s fuel (start + 1) else start := rfl

theorem trimEnd_succ (s : Bytes) (start e : Nat) :
    trimEnd s start (e + 1) =
      if e + 1 > start && IsWhitespace (stringAt s (e + 1)) then trimEnd s start e
      else e + 1 := rfl

/-- The first loop of `Trim` stops at the first byte that is not whitespace, or at the end of
the string. -/
theorem trimStart_spec (t : Bytes) : ∀ (pre : Bytes) (fuel : Nat),
    (t.takeWhile IsWhitespace).length < fuel →
    trimStart (pre ++ t) fuel pre.length = pre.length + (t.takeWhile IsWhitespace).length := by
  induction t with
  | nil =>
    intro pre fuel h
    obtain ⟨f, rfl⟩ : ∃ f, fuel = f + 1 := ⟨fuel - 1, by simp at h; omega⟩
    rw [trimStart_succ, List.append_nil, stringAt_length]
    rfl
  | cons c t ih =>
    intro pre fuel h
    obtain ⟨f, rfl⟩ : ∃ f, fuel = f + 1 := ⟨fuel - 1, by omega⟩
    rw [trimStart_succ, stringAt_append_length]
    by_cases hc : IsWhitespace c = true
    · rw [if_pos hc]
      have e1 : pre ++ c :: t = (pre ++ [c]) ++ t := by simp
      have e2 : pre.length + 1 = (pre ++ [c]).length := by simp
      rw [List.takeWhile_cons_of_pos hc] at h ⊢
      rw [e1, e2, ih (pre ++ [c]) f (by simp at h; omega)]
      simp
      omega
    · rw [if_neg hc]
      have hc' : ¬ IsWhitespace c = true := hc
      rw [List.takeWhile_cons_of_neg hc']
      rfl

/-- The second loop of `Trim` reads no byte after the index it starts at. -/
theorem trimEnd_append_left (x y : Bytes) (start : Nat) : ∀ e, e < x.length →
    trimEnd (x ++ y) start e = trimEnd x start e := by
  intro e
  induction e with
  | zero => intro _; rfl
  | succ e ih =>
    intro h
    rw [trimEnd_succ, trimEnd_succ, stringAt_append_left x y (e + 1) h, ih (by omega)]

/-- The second loop of `Trim` stays where it is at or before `start`. -/
theorem trimEnd_le (s : Bytes) (start e : Nat) (h : e ≤ start) : trimEnd s start e = e := by
  cases e with
  | zero => rfl
  | succ e =>
    rw [trimEnd_succ]
    have : ¬ (e + 1 > start) := by omega
    simp [this]

/-- The second loop of `Trim` runs down over whitespace that ends the string. -/
theorem trimEnd_whitespace (t : Bytes) : ∀ (a : Bytes) (start : Nat),
    (∀ c ∈ t, IsWhitespace c = true) → start < a.length →
    trimEnd (a ++ t) start (a.length + t.length - 1) = trimEnd a start (a.length - 1) := by
  induction t with
  | nil =>
    intro a start _ _
    simp
  | cons c t ih =>
    intro a start hws hlt
    have e1 : a ++ c :: t = (a ++ [c]) ++ t := by simp
    have e2 : a.length + (c :: t).length - 1 = (a ++ [c]).length + t.length - 1 := by
      simp only [List.length_cons, List.length_append, List.length_nil]
      omega
    rw [e1, e2, ih (a ++ [c]) start (fun c' h' => hws c' (by simp [h'])) (by simp; omega)]
    have e3 : (a ++ [c]).length - 1 = (a.length - 1) + 1 := by
      simp
      omega
    have hc : IsWhitespace c = true := hws c (by simp)
    have e4 : a.length - 1 + 1 = a.length := by omega
    rw [e3, trimEnd_succ, e4, stringAt_append_length, hc]
    have : a.length > start := hlt
    simp only [this, decide_True, Bool.and_self, if_true]
    exact trimEnd_append_left a [c] start (a.length - 1) (by omega)

/-- The second loop of `Trim` stops at a last byte that is not whitespace. -/
theorem trimEnd_last (b : Bytes) (c : Byte) (start : Nat) (hc : IsWhitespace c = false) :
    trimEnd (b ++ [c]) start ((b ++ [c]).length - 1) = (b ++ [c]).length - 1 := by
  have e : (b ++ [c]).length - 1 = b.length := by simp
  rw [e]
  cases hb : b.length with
  | zero => rfl
  | succ n =>
    rw [trimEnd_succ, ← hb, stringAt_append_length, hc]
    simp

theorem dropWhile_head (l : Bytes) : ∀ (c : Byte) (r : Bytes),
    l.dropWhile IsWhitespace = c :: r → IsWhitespace c = false := by
  induction l with
  | nil =>
    intro c r h
    simp at h
  | cons x l ih =>
    intro c r h
    by_cases hx : IsWhitespace x = true
    · rw [List.dropWhile_cons_of_pos hx] at h
      exact ih c r h
    · rw [List.dropWhile_cons_of_neg hx] at h
      rw [← (List.cons.inj h).1]
      simpa using hx

/-- The second loop of `Trim` on a string that ends with a byte that is not whitespace followed
by whitespace: it stops at that byte. -/
theorem trimEnd_shape (w b : Bytes) (l : Byte) (tws : Bytes) (start : Nat)
    (hl : IsWhitespace l = false) (htws : ∀ x ∈ tws, IsWhitespace x = true)
    (hstart : start < ((w ++ b) ++ [l]).length) :
    trimEnd (((w ++ b) ++ [l]) ++ tws) start ((((w ++ b) ++ [l]) ++ tws).length - 1) =
      w.length + b.length := by
  rw [List.length_append ((w ++ b) ++ [l]) tws,
    trimEnd_whitespace tws ((w ++ b) ++ [l]) start htws hstart, trimEnd_last (w ++ b) l start hl]
  simp

theorem substr_middle (w m t : Bytes) : substr (w ++ (m ++ t)) w.length m.length = m := by
  unfold substr
  rw [List.drop_left, List.take_left]

/-- The function `Trim` against its specification: `Trim` returns the empty string when the
first byte that is not whitespace is the last byte of the string, and what the specification
gives on every other string. -/
theorem Trim_eq (s : Bytes) (hlen : s.length < 2 ^ 64) :
    Trim s =
      if s ≠ [] ∧ (s.takeWhile IsWhitespace).length + 1 = s.length then []
      else TrimSpec s := by
  by_cases hs : s = []
  · subst hs
    rfl
  have hpos : 0 < s.length := List.length_pos.mpr hs
  have hsplit : s.takeWhile IsWhitespace ++ s.dropWhile IsWhitespace = s :=
    List.takeWhile_append_dropWhile IsWhitespace s
  have hle : (s.takeWhile IsWhitespace).length ≤ s.length := by
    have := congrArg List.length hsplit
    rw [List.length_append] at this
    omega
  have hstart : trimStart s (s.length + 1) 0 = (s.takeWhile IsWhitespace).length := by
    have := trimStart_spec s [] (s.length + 1) (by omega)
    simpa using this
  unfold Trim
  rw [if_neg hs]
  simp only [hstart]
  by_cases hk : (s.takeWhile IsWhitespace).length + 1 = s.length
  · rw [if_pos (by omega), if_pos ⟨hs, hk⟩]
  · rw [if_neg (by omega), if_neg (fun h => hk h.2)]
    cases hrest : s.dropWhile IsWhitespace with
    | nil =>
      rw [hrest, List.append_nil] at hsplit
      have hk2 : (s.takeWhile IsWhitespace).length = s.length := by rw [hsplit]
      rw [hk2, trimEnd_le s s.length (s.length - 1) (by omega)]
      have e : (s.length - 1 + 2 ^ 64 - s.length + 1) % 2 ^ 64 = 0 := by
        have : s.length - 1 + 2 ^ 64 - s.length + 1 = 2 ^ 64 := by omega
        rw [this]
        exact Nat.mod_self _
      rw [e]
      simp [substr, TrimSpec, hrest]
    | cons c rest' =>
      have hc : IsWhitespace c = false := dropWhile_head s c rest' hrest
      have hsplit2 : ((c :: rest').reverse.dropWhile IsWhitespace).reverse ++
          ((c :: rest').reverse.takeWhile IsWhitespace).reverse = c :: rest' := by
        rw [← List.reverse_append, List.takeWhile_append_dropWhile, List.reverse_reverse]
      cases hd : (c :: rest').reverse.dropWhile IsWhitespace with
      | nil =>
        have hall := List.dropWhile_eq_nil_iff.mp hd c (by simp)
        rw [hc] at hall
        exact absurd hall (by decide)
      | cons l brev =>
        have hl : IsWhitespace l = false := dropWhile_head _ l brev hd
        rw [hd] at hsplit2
        have hs2 : s = ((s.takeWhile IsWhitespace ++ brev.reverse) ++ [l]) ++
            ((c :: rest').reverse.takeWhile IsWhitespace).reverse := by
          conv_lhs => rw [← hsplit, hrest, ← hsplit2]
          simp
        have htws : ∀ x ∈ ((c :: rest').reverse.takeWhile IsWhitespace).reverse,
            IsWhitespace x = true := by
          intro x hx
          exact List.mem_takeWhile_imp (List.mem_reverse.mp hx)
        have hend : trimEnd s (s.takeWhile IsWhitespace).length (s.length - 1) =
            (s.takeWhile IsWhitespace).length + brev.length := by
          have key := trimEnd_shape (s.takeWhile IsWhitespace) brev.reverse l
            ((c :: rest').reverse.takeWhile IsWhitespace).reverse
            (s.takeWhile IsWhitespace).length hl htws (by simp)
          rw [← hs2] at key
          rw [key, List.length_reverse]
        rw [hend]
        have hfit : (s.takeWhile IsWhitespace).length + brev.length + 1 ≤ s.length := by
          have := congrArg List.length hs2
          simp only [List.length_append, List.length_reverse, List.length_cons,
            List.length_nil] at this
          omega
        have e : ((s.takeWhile IsWhitespace).length + brev.length + 2 ^ 64 -
            (s.takeWhile IsWhitespace).length + 1) % 2 ^ 64 = (brev.reverse ++ [l]).length := by
          have : (s.takeWhile IsWhitespace).length + brev.length + 2 ^ 64 -
              (s.takeWhile IsWhitespace).length + 1 = brev.length + 1 + 2 ^ 64 := by omega
          rw [this, Nat.add_mod_right, Nat.mod_eq_of_lt (by omega)]
          simp
        rw [e]
        have hspec : TrimSpec s = brev.reverse ++ [l] := by
          unfold TrimSpec
          rw [hrest, hd]
          simp
        rw [hspec]
        have key := substr_middle (s.takeWhile IsWhitespace) (brev.reverse ++ [l])
          ((c :: rest').reverse.takeWhile IsWhitespace).reverse
        have hs3 : s.takeWhile IsWhitespace ++ ((brev.reverse ++ [l]) ++
            ((c :: rest').reverse.takeWhile IsWhitespace).reverse) = s := by
          conv_rhs => rw [hs2]
          simp
        rw [hs3] at key
        exact key

/-- C23: the function `Trim` returns the empty string for every one-byte string, also for the
string `a`, which neither begins nor ends with whitespace and which the specification leaves
unchanged; the same happens whenever the first byte that is not whitespace is the last byte
of the string, as in ` a`. On every other string (shorter than `2^64` bytes) the function
returns what the specification gives, as on `ab` and on ` a b `. -/
theorem Trim_single_byte :
    (∀ c : Byte, Trim [c] = []) ∧
      IsWhitespace 0x61 = false ∧ TrimSpec [0x61] = [0x61] ∧
      Trim [0x20, 0x61] = [] ∧ TrimSpec [0x20, 0x61] = [0x61] ∧
      Trim [0x61, 0x62] = [0x61, 0x62] ∧ TrimSpec [0x61, 0x62] = [0x61, 0x62] ∧
      Trim [0x20, 0x61, 0x20, 0x62, 0x20] = [0x61, 0x20, 0x62] ∧
      TrimSpec [0x20, 0x61, 0x20, 0x62, 0x20] = [0x61, 0x20, 0x62] ∧
      (∀ s : Bytes, s.length < 2 ^ 64 →
        Trim s =
          if s ≠ [] ∧ (s.takeWhile IsWhitespace).length + 1 = s.length then []
          else TrimSpec s) := by
  refine ⟨?_, by decide, by decide, by decide, by decide, by decide, by decide, by decide,
    by decide, Trim_eq⟩
  intro c
  have h0 : IsWhitespace (stringAt [c] 1) = false := rfl
  by_cases hc : IsWhitespace c = true
  · have h1 : IsWhitespace (stringAt [c] 0) = true := hc
    simp [Trim, trimStart, h0, h1, trimEnd, substr]
  · have h1 : IsWhitespace (stringAt [c] 0) = false := by simpa [stringAt] using hc
    simp [Trim, trimStart, h1]

/-! ## Theorems: results and flags of the configuration -/

namespace JSONConfig

/-- C24: the function `update` never returns true: whenever a call on a `Property`, an `Object`
or an `Array` returns, with either kind of error handler, the returned `bool` is false. So an
`Object` with the `int` property `a`, updated with the JSON object that gives `a` the value 1,
returns false although the property took the value 1 from the JSON and is marked updated; and
so does an `Array` of `int` properties updated with the JSON array holding 7. -/
theorem update_result :
    (∀ (v : JSON) (t : Bool) (c : JSONConfig) (r : Bool) (c' : JSONConfig),
        update v t c = some (r, c') → r = false) ∧
      update (.object (.cons [0x61] (.integer 1) .nil)) true
          (.object false
            (.cons [0x61] (.property .int (.json (.integer 0)) false (.object .nil)) .nil)) =
        some (false,
          .object true
            (.cons [0x61] (.property .int (.json (.integer 0)) true (.integer 1)) .nil)) ∧
      update (.array (.cons [] (.integer 7) .nil)) true
          (.array (.json (.array .nil))
            (.property .int (.json (.integer 0)) false (.object .nil)) false .nil) =
        some (false,
          .array (.json (.array .nil))
            (.property .int (.json (.integer 0)) false (.object .nil)) true
            (.cons [] (.property .int (.json (.integer 0)) true (.integer 7)) .nil)) :=
  ⟨update_false, rfl, rfl⟩

theorem propertyAt_cons_object (n : Bytes) (path : List Bytes) (u : Bool)
    (props : JSONConfigList) :
    propertyAt (n :: path) (.object u props) =
      match props.find n with
      | some c => propertyAt path c
      | none => none := rfl

theorem propertyAt_array (path : List Bytes) (d : DefaultValue) (entry : JSONConfig)
    (u : Bool) (elems : JSONConfigList) : propertyAt path (.array d entry u elems) = none := by
  cases path <;> rfl

theorem find_cons (m : Bytes) (c : JSONConfig) (rest : JSONConfigList) (n : Bytes) :
    (JSONConfigList.cons m c rest).find n = if m = n then some c else rest.find n := rfl

theorem replace_cons (m : Bytes) (c : JSONConfig) (rest : JSONConfigList) (name : Bytes)
    (c' : JSONConfig) :
    (JSONConfigList.cons m c rest).replace name c' =
      if m = name then .cons m c' rest else .cons m c (rest.replace name c') := rfl

/-- The lookup after a child was replaced: the new state under its name, every other child
as before. -/
theorem find_replace : ∀ (props : JSONConfigList) (name : Bytes) (c' : JSONConfig) (n : Bytes),
    (props.replace name c').find n =
      if n = name then (props.find name).map (fun _ => c') else props.find n
  | .nil, name, c', n => by
    show (JSONConfigList.nil).find n = _
    split <;> rfl
  | .cons m c rest, name, c', n => by
    rw [replace_cons]
    by_cases hm : m = name
    · rw [if_pos hm]
      by_cases hn : n = name
      · rw [if_pos hn, find_cons, find_cons, if_pos (hm.trans hn.symm), if_pos hm]
        rfl
      · rw [if_neg hn, find_cons, find_cons]
        have : ¬ m = n := fun h => hn (h.symm.trans hm)
        rw [if_neg this, if_neg this]
    · rw [if_neg hm, find_cons, find_replace rest name c' n]
      by_cases hn : n = name
      · rw [if_pos hn, if_pos hn, find_cons, if_neg hm]
        have : ¬ m = n := fun h => hm (h.trans hn)
        rw [if_neg this]
      · rw [if_neg hn, if_neg hn, find_cons]

theorem anyNamed_cons (p : JSON → Bool) (n name : Bytes) (v : JSON) (rest : JSONList) :
    (JSONList.cons name v rest).anyNamed p n =
      ((decide (name = n) && p v) || rest.anyNamed p n) := rfl

theorem suppliedAt_cons_object (T : PropertyType) (n : Bytes) (path : List Bytes)
    (ms : JSONList) :
    suppliedAt T (n :: path) (.object ms) = ms.anyNamed (fun v => suppliedAt T path v) n := rfl

theorem suppliedAt_cons_other (T : PropertyType) (n : Bytes) (path : List Bytes) (v : JSON)
    (h : ∀ ms, v ≠ .object ms) : suppliedAt T (n :: path) v = false := by
  cases v <;> first | rfl | exact absurd rfl (h _)

/-- What `update` does to a property: the flag is set when the value has the type of the
property, and nothing changes otherwise. -/
theorem update_flags_property (v : JSON) (t : Bool) (T0 : PropertyType) (d0 : DefaultValue)
    (u0 : Bool) (j0 : JSON) (r : Bool) (c' : JSONConfig)
    (h : update v t (.property T0 d0 u0 j0) = some (r, c')) (path : List Bytes)
    (T : PropertyType) (d : DefaultValue) (u : Bool) (j : JSON)
    (hp : propertyAt path (.property T0 d0 u0 j0) = some (T, d, u, j)) :
    ∃ j', propertyAt path c' = some (T, d, u || suppliedAt T path v, j') ∧
      (suppliedAt T path v = false → j' = j) := by
  cases path with
  | cons n path => cases hp
  | nil =>
    cases hp
    rw [update_property] at h
    by_cases hf : FromJSON T0 v = true
    · rw [if_pos hf] at h
      cases h
      refine ⟨v, ?_, ?_⟩
      · show some (T0, d0, true, v) = _
        simp [suppliedAt, hf]
      · intro hs
        simp [suppliedAt, hf] at hs
    · rw [if_neg hf] at h
      cases t
      · simp only [Bool.false_eq_true, if_false, Option.some.injEq, Prod.mk.injEq] at h
        rw [← h.2]
        refine ⟨j0, ?_, fun _ => rfl⟩
        show some (T0, d0, u0, j0) = _
        simp [suppliedAt, hf]
      · simp at h

/-- An object given a value that is not an object keeps its properties as they are. -/
theorem update_flags_object_other (v : JSON) (t : Bool) (u0 : Bool) (props : JSONConfigList)
    (r : Bool) (c' : JSONConfig) (hv : ∀ ms, v ≠ .object ms)
    (h : update v t (.object u0 props) = some (r, c')) (path : List Bytes)
    (T : PropertyType) (d : DefaultValue) (u : Bool) (j : JSON)
    (hp : propertyAt path (.object u0 props) = some (T, d, u, j)) :
    ∃ j', propertyAt path c' = some (T, d, u || suppliedAt T path v, j') ∧
      (suppliedAt T path v = false → j' = j) := by
  rw [update_object_other v t u0 props hv] at h
  cases t
  · simp only [Bool.false_eq_true, if_false, Option.some.injEq, Prod.mk.injEq] at h
    rw [← h.2]
    cases path with
    | nil => cases hp
    | cons n path =>
      rw [suppliedAt_cons_other T n path v hv, Bool.or_false]
      exact ⟨j, hp, fun _ => rfl⟩
  · simp at h

mutual
/-- What `update` does to the properties reached through objects: a property is marked updated
when the value holds a value of its type under its names, and is left as it was otherwise. -/
theorem update_flags : ∀ (v : JSON) (t : Bool) (c : JSONConfig) (r : Bool) (c' : JSONConfig),
    update v t c = some (r, c') →
    ∀ (path : List Bytes) (T : PropertyType) (d : DefaultValue) (u : Bool) (j : JSON),
      propertyAt path c = some (T, d, u, j) →
      ∃ j', propertyAt path c' = some (T, d, u || suppliedAt T path v, j') ∧
        (suppliedAt T path v = false → j' = j)
  | v, t, .property T0 d0 u0 j0, r, c', h, path, T, d, u, j, hp =>
    update_flags_property v t T0 d0 u0 j0 r c' h path T d u j hp
  | v, t, .array d0 entry u0 elems, r, c', _, path, T, d, u, j, hp => by
    rw [propertyAt_array] at hp
    cases hp
  | .object ms, t, .object u0 props, r, c', h, path, T, d, u, j, hp => by
    rw [update_object] at h
    cases hm : updateMembers ms t props false with
    | none => rw [hm] at h; simp at h
    | some p =>
      obtain ⟨r0, props'⟩ := p
      rw [hm] at h
      simp only [Option.some.injEq, Prod.mk.injEq] at h
      rw [← h.2]
      cases path with
      | nil => cases hp
      | cons n path =>
        rw [propertyAt_cons_object] at hp
        cases hf : props.find n with
        | none => rw [hf] at hp; cases hp
        | some ch =>
          rw [hf] at hp
          simp only at hp
          obtain ⟨ch', h1, h2⟩ := updateMembers_flags ms t props false r0 props' hm n ch hf
          obtain ⟨j', h3, h4⟩ := h2 path T d u j hp
          refine ⟨j', ?_, ?_⟩
          · rw [propertyAt_cons_object, h1]
            simp only
            rw [h3, suppliedAt_cons_object]
          · rw [suppliedAt_cons_object]
            exact h4
  | .null, t, .object u0 props, r, c', h, path, T, d, u, j, hp =>
    update_flags_object_other _ t u0 props r c' (fun _ e => by cases e) h path T d u j hp
  | .boolean _, t, .object u0 props, r, c', h, path, T, d, u, j, hp =>
    update_flags_object_other _ t u0 props r c' (fun _ e => by cases e) h path T d u j hp
  | .integer _, t, .object u0 props, r, c', h, path, T, d, u, j, hp =>
    update_flags_object_other _ t u0 props r c' (fun _ e => by cases e) h path T d u j hp
  | .double _, t, .object u0 props, r, c', h, path, T, d, u, j, hp =>
    update_flags_object_other _ t u0 props r c' (fun _ e => by cases e) h path T d u j hp
  | .string _, t, .object u0 props, r, c', h, path, T, d, u, j, hp =>
    update_flags_object_other _ t u0 props r c' (fun _ e => by cases e) h path T d u j hp
  | .array _, t, .object u0 props, r, c', h, path, T, d, u, j, hp =>
    update_flags_object_other _ t u0 props r c' (fun _ e => by cases e) h path T d u j hp
/-- What the loop of `Object::update` does to the children: a property below the child `n` is
marked updated when some member named `n` holds a value of its type under its names. -/
theorem updateMembers_flags : ∀ (ms : JSONList) (t : Bool) (props : JSONConfigList)
    (res r : Bool) (props' : JSONConfigList),
    updateMembers ms t props res = some (r, props') →
    ∀ (n : Bytes) (ch : JSONConfig), props.find n = some ch →
      ∃ ch', props'.find n = some ch' ∧
        ∀ (path : List Bytes) (T : PropertyType) (d : DefaultValue) (u : Bool) (j : JSON),
          propertyAt path ch = some (T, d, u, j) →
          ∃ j', propertyAt path ch' =
              some (T, d, u || ms.anyNamed (fun v => suppliedAt T path v) n, j') ∧
            (ms.anyNamed (fun v => suppliedAt T path v) n = false → j' = j)
  | .nil, t, props, res, r, props', h, n, ch, hf => by
    rw [updateMembers_nil] at h
    simp only [Option.some.injEq, Prod.mk.injEq] at h
    rw [← h.2]
    refine ⟨ch, hf, ?_⟩
    intro path T d u j hp
    refine ⟨j, ?_, fun _ => rfl⟩
    rw [hp]
    simp [JSONList.anyNamed]
  | .cons name val rest, t, props, res, r, props', h, n, ch, hf => by
    rw [updateMembers_cons] at h
    cases hfn : props.find name with
    | none =>
      rw [hfn] at h
      cases t
      · simp only [Bool.false_eq_true, if_false] at h
        obtain ⟨ch', h1, h2⟩ := updateMembers_flags rest false props res r props' h n ch hf
        refine ⟨ch', h1, ?_⟩
        intro path T d u j hp
        have hne : ¬ name = n := by
          intro e
          rw [e, hf] at hfn
          cases hfn
        rw [anyNamed_cons]
        simp only [hne, decide_False, Bool.false_and, Bool.false_or]
        exact h2 path T d u j hp
      · simp at h
    | some child =>
      rw [hfn] at h
      simp only at h
      cases hu : update val t child with
      | none => rw [hu] at h; simp at h
      | some p =>
        obtain ⟨r1, child'⟩ := p
        rw [hu] at h
        simp only at h
        by_cases hn : n = name
        · have hch : ch = child := by
            rw [hn, hfn] at hf
            exact (Option.some.inj hf).symm
          have hf1 : (props.replace name child').find n = some child' := by
            rw [find_replace, if_pos hn, hfn]
            rfl
          obtain ⟨ch', h1, h2⟩ :=
            updateMembers_flags rest t _ _ r props' h n child' hf1
          refine ⟨ch', h1, ?_⟩
          intro path T d u j hp
          rw [hch] at hp
          obtain ⟨j1, h3, h4⟩ := update_flags val t child r1 child' hu path T d u j hp
          obtain ⟨j', h5, h6⟩ := h2 path T d _ j1 h3
          have hd : decide (name = n) = true := decide_eq_true hn.symm
          refine ⟨j', ?_, ?_⟩
          · rw [h5, anyNamed_cons, hd, Bool.true_and, Bool.or_assoc]
          · intro hs
            rw [anyNamed_cons, hd, Bool.true_and, Bool.or_eq_false_iff] at hs
            rw [h6 hs.2, h4 hs.1]
        · have hf1 : (props.replace name child').find n = some ch := by
            rw [find_replace, if_neg hn, hf]
          obtain ⟨ch', h1, h2⟩ := updateMembers_flags rest t _ _ r props' h n ch hf1
          refine ⟨ch', h1, ?_⟩
          intro path T d u j hp
          have hne : ¬ name = n := fun e => hn e.symm
          rw [anyNamed_cons]
          simp only [hne, decide_False, Bool.false_and, Bool.false_or]
          exact h2 path T d u j hp
end

theorem fillMissingValues_property (fuel : Nat) (T : PropertyType) (d : DefaultValue)
    (u : Bool) (j : JSON) :
    fillMissingValues (fuel + 1) (.property T d u j) =
      if u then some (false, .property T d u j)
      else
        match update (defaultValue d) true (.property T d u j) with
        | none => none
        | some (_, c) =>
          if isFunction d then some (true, c) else some (false, c.setUpdated false) := rfl

theorem fillMissingValues_object (fuel : Nat) (u : Bool) (props : JSONConfigList) :
    fillMissingValues (fuel + 1) (.object u props) =
      match fillList fuel props with
      | none => none
      | some (result, props') => some (result, .object (u || result) props') := rfl

theorem fillMissingValues_array (fuel : Nat) (d : DefaultValue) (entry : JSONConfig)
    (u : Bool) (elems : JSONConfigList) :
    fillMissingValues (fuel + 1) (.array d entry u elems) =
      match (if u then some (false, JSONConfig.array d entry u elems)
             else
               match update (defaultValue d) true (.array d entry u elems) with
               | none => none
               | some (_, c) =>
                 if isFunction d then some (true, c) else some (false, c.setUpdated false)) with
      | some (result, .array d' entry' u' elems') =>
        match fillList fuel elems' with
        | none => none
        | some (r, elems'') => some (result || r, .array d' entry' (u' || r) elems'')
      | _ => none := rfl

theorem fillList_nil (fuel : Nat) : fillList (fuel + 1) .nil = some (false, .nil) := rfl

theorem fillList_cons (fuel : Nat) (n : Bytes) (c : JSONConfig) (rest : JSONConfigList) :
    fillList (fuel + 1) (.cons n c rest) =
      match fillMissingValues fuel c with
      | none => none
      | some (r, c') =>
        match fillList fuel rest with
        | none => none
        | some (r', rest') => some (r || r', .cons n c' rest') := rfl

/-- What `Property::fillMissingValues` does: an updated property is left as it is; any other
takes its default value and is marked updated exactly when the default is a function. -/
theorem fillMissingValues_property_result (fuel : Nat) (T : PropertyType) (d : DefaultValue)
    (u : Bool) (j : JSON) (r : Bool) (c' : JSONConfig)
    (h : fillMissingValues (fuel + 1) (.property T d u j) = some (r, c')) :
    c' = .property T d (u || isFunction d) (if u then j else defaultValue d) ∧
      r = (!u && isFunction d) := by
  rw [fillMissingValues_property] at h
  cases u with
  | true =>
    simp only [if_true, Option.some.injEq, Prod.mk.injEq] at h
    exact ⟨by rw [← h.2]; rfl, by rw [← h.1]; rfl⟩
  | false =>
    simp only [Bool.false_eq_true, if_false] at h
    rw [update_property] at h
    by_cases hf : FromJSON T (defaultValue d) = true
    · rw [if_pos hf] at h
      simp only at h
      cases hd : isFunction d with
      | true =>
        rw [hd] at h
        simp only [if_true, Option.some.injEq, Prod.mk.injEq] at h
        exact ⟨by rw [← h.2]; rfl, by rw [← h.1]; rfl⟩
      | false =>
        rw [hd] at h
        simp only [Bool.false_eq_true, if_false, Option.some.injEq, Prod.mk.injEq] at h
        exact ⟨by rw [← h.2]; rfl, by rw [← h.1]; rfl⟩
    · rw [if_neg hf] at h
      simp at h

/-- What `fillMissingValues` does to the properties reached through objects, and what the loop
over the children of an object does to the properties below each child. -/
theorem fill_flags (fuel : Nat) :
    (∀ (c : JSONConfig) (r : Bool) (c' : JSONConfig),
      fillMissingValues fuel c = some (r, c') →
      ∀ (path : List Bytes) (T : PropertyType) (d : DefaultValue) (u : Bool) (j : JSON),
        propertyAt path c = some (T, d, u, j) →
        propertyAt path c' =
          some (T, d, u || isFunction d, if u then j else defaultValue d)) ∧
    (∀ (props : JSONConfigList) (r : Bool) (props' : JSONConfigList),
      fillList fuel props = some (r, props') →
      ∀ (n : Bytes) (ch : JSONConfig), props.find n = some ch →
        ∃ ch', props'.find n = some ch' ∧
          ∀ (path : List Bytes) (T : PropertyType) (d : DefaultValue) (u : Bool) (j : JSON),
            propertyAt path ch = some (T, d, u, j) →
            propertyAt path ch' =
              some (T, d, u || isFunction d, if u then j else defaultValue d)) := by
  induction fuel with
  | zero =>
    constructor
    · intro c r c' h
      cases h
    · intro props r props' h
      cases h
  | succ fuel ih =>
    obtain ⟨ihF, ihL⟩ := ih
    constructor
    · intro c r c' h path T d u j hp
      cases c with
      | property T0 d0 u0 j0 =>
        cases path with
        | cons n path => cases hp
        | nil =>
          cases hp
          rw [(fillMissingValues_property_result fuel T d u j r c' h).1]
          rfl
      | array d0 entry u0 elems =>
        rw [propertyAt_array] at hp
        cases hp
      | object u0 props =>
        rw [fillMissingValues_object] at h
        cases hl : fillList fuel props with
        | none => rw [hl] at h; cases h
        | some p =>
          obtain ⟨result, props'⟩ := p
          rw [hl] at h
          simp only [Option.some.injEq, Prod.mk.injEq] at h
          rw [← h.2]
          cases path with
          | nil => cases hp
          | cons n path =>
            rw [propertyAt_cons_object] at hp ⊢
            cases hf : props.find n with
            | none => rw [hf] at hp; cases hp
            | some ch =>
              rw [hf] at hp
              simp only at hp
              obtain ⟨ch', h1, h2⟩ := ihL props result props' hl n ch hf
              rw [h1]
              exact h2 path T d u j hp
    · intro props r props' h n ch hf
      cases props with
      | nil => cases hf
      | cons m c rest =>
        rw [fillList_cons] at h
        cases hc : fillMissingValues fuel c with
        | none => rw [hc] at h; cases h
        | some p =>
          obtain ⟨r1, c1⟩ := p
          rw [hc] at h
          simp only at h
          cases hr : fillList fuel rest with
          | none => rw [hr] at h; cases h
          | some q =>
            obtain ⟨r2, rest'⟩ := q
            rw [hr] at h
            simp only [Option.some.injEq, Prod.mk.injEq] at h
            rw [← h.2]
            rw [find_cons] at hf ⊢
            by_cases hm : m = n
            · rw [if_pos hm] at hf ⊢
              cases hf
              exact ⟨c1, rfl, ihF ch r1 c1 hc⟩
            · rw [if_neg hm] at hf ⊢
              exact ihL rest r2 rest' hr n ch hf

/-- After `fillMissingValues` every property of the tree whose flag is clear, inside arrays as
well, holds its own default value, and that default is a static JSON. -/
theorem fill_every (fuel : Nat) :
    (∀ (c : JSONConfig) (r : Bool) (c' : JSONConfig),
      fillMissingValues fuel c = some (r, c') →
      EveryProperty (fun _ d u j => u = false → isFunction d = false ∧ j = defaultValue d) c') ∧
    (∀ (l : JSONConfigList) (r : Bool) (l' : JSONConfigList),
      fillList fuel l = some (r, l') →
      EveryPropertyList
        (fun _ d u j => u = false → isFunction d = false ∧ j = defaultValue d) l') := by
  induction fuel with
  | zero =>
    constructor
    · intro c r c' h
      cases h
    · intro l r l' h
      cases h
  | succ fuel ih =>
    obtain ⟨ihF, ihL⟩ := ih
    constructor
    · intro c r c' h
      cases c with
      | property T d u j =>
        rw [(fillMissingValues_property_result fuel T d u j r c' h).1]
        show (u || isFunction d) = false → _
        intro hu
        rw [Bool.or_eq_false_iff] at hu
        rw [hu.1]
        exact ⟨hu.2, rfl⟩
      | object u props =>
        rw [fillMissingValues_object] at h
        cases hl : fillList fuel props with
        | none => rw [hl] at h; cases h
        | some p =>
          obtain ⟨result, props'⟩ := p
          rw [hl] at h
          simp only [Option.some.injEq, Prod.mk.injEq] at h
          rw [← h.2]
          exact ihL props result props' hl
      | array d entry u elems =>
        rw [fillMissingValues_array] at h
        split at h
        · rename_i result d' entry' u' elems' _
          cases hl : fillList fuel elems' with
          | none => rw [hl] at h; cases h
          | some p =>
            obtain ⟨r2, elems''⟩ := p
            rw [hl] at h
            simp only [Option.some.injEq, Prod.mk.injEq] at h
            rw [← h.2]
            exact ihL elems' r2 elems'' hl
        · cases h
    · intro l r l' h
      cases l with
      | nil =>
        rw [fillList_nil] at h
        simp only [Option.some.injEq, Prod.mk.injEq] at h
        rw [← h.2]
        exact True.intro
      | cons m c rest =>
        rw [fillList_cons] at h
        cases hc : fillMissingValues fuel c with
        | none => rw [hc] at h; cases h
        | some p =>
          obtain ⟨r1, c1⟩ := p
          rw [hc] at h
          simp only at h
          cases hr : fillList fuel rest with
          | none => rw [hr] at h; cases h
          | some q =>
            obtain ⟨r2, rest'⟩ := q
            rw [hr] at h
            simp only [Option.some.injEq, Prod.mk.injEq] at h
            rw [← h.2]
            exact ⟨ihF c r1 c1 hc, ihL rest r2 rest' hr⟩

theorem append_nil_right : ∀ (l : JSONConfigList), l.append .nil = l
  | .nil => rfl
  | .cons n c rest => by
    show JSONConfigList.cons n c (rest.append .nil) = _
    rw [append_nil_right rest]

theorem append_push_back : ∀ (acc : JSONConfigList) (e : JSONConfig) (l : JSONConfigList),
    (acc.push_back e).append l = acc.append (.cons [] e l)
  | .nil, _, _ => rfl
  | .cons n c rest, e, l => by
    show JSONConfigList.cons n c ((rest.push_back e).append l) =
      .cons n c (rest.append (.cons [] e l))
    rw [append_push_back rest e l]

/-- The loop of `Array::update` appends, for each element of the value and in order, the
element that `update` makes of a new one. -/
theorem updateElements_elements : ∀ (es : JSONList) (t : Bool) (entry : JSONConfig)
    (acc : JSONConfigList) (res r : Bool) (elems' : JSONConfigList),
    updateElements es t entry acc res = some (r, elems') →
    ∃ new, elems' = acc.append new ∧ ElementsUpdated t entry es new
  | .nil, t, entry, acc, res, r, elems', h => by
    rw [updateElements_nil] at h
    simp only [Option.some.injEq, Prod.mk.injEq] at h
    exact ⟨.nil, by rw [append_nil_right, h.2], True.intro⟩
  | .cons name v rest, t, entry, acc, res, r, elems', h => by
    rw [updateElements_cons] at h
    cases hu : update v t entry with
    | none => rw [hu] at h; simp at h
    | some p =>
      obtain ⟨r1, element⟩ := p
      rw [hu] at h
      simp only at h
      obtain ⟨new, h1, h2⟩ := updateElements_elements rest t entry _ _ r elems' h
      refine ⟨.cons [] element new, ?_, ?_⟩
      · rw [h1, append_push_back]
      · exact ⟨⟨r1, hu⟩, h2⟩

/-- The elements that `update` made, once `fillMissingValues` has run on each, are what `set`
makes of a new element. -/
theorem fillList_elements : ∀ (es : JSONList) (t : Bool) (entry : JSONConfig)
    (l : JSONConfigList), ElementsUpdated t entry es l →
    ∀ (fuel : Nat) (r : Bool) (l' : JSONConfigList), fillList fuel l = some (r, l') →
      ElementsSet t entry es l'
  | .nil, t, entry, .nil, _, fuel, r, l', h => by
    cases fuel with
    | zero => cases h
    | succ fuel =>
      rw [fillList_nil] at h
      simp only [Option.some.injEq, Prod.mk.injEq] at h
      rw [← h.2]
      exact True.intro
  | .nil, t, entry, .cons _ _ _, hE, _, _, _, _ => by
    simp [ElementsUpdated] at hE
  | .cons _ _ _, t, entry, .nil, hE, _, _, _, _ => by
    simp [ElementsUpdated] at hE
  | .cons name v rest, t, entry, .cons n e elems, hE, fuel, r, l', h => by
    cases fuel with
    | zero => cases h
    | succ fuel =>
      rw [fillList_cons] at h
      cases hc : fillMissingValues fuel e with
      | none => rw [hc] at h; cases h
      | some p =>
        obtain ⟨r1, e1⟩ := p
        rw [hc] at h
        simp only at h
        cases hr : fillList fuel elems with
        | none => rw [hr] at h; cases h
        | some q =>
          obtain ⟨r2, elems1⟩ := q
          rw [hr] at h
          simp only [Option.some.injEq, Prod.mk.injEq] at h
          rw [← h.2]
          have hE1 : (∃ r, update v t entry = some (r, e)) ∧ ElementsUpdated t entry rest elems :=
            hE
          obtain ⟨⟨r0, hu⟩, hrest⟩ := hE1
          refine ⟨⟨fuel, ?_⟩, fillList_elements rest t entry elems hrest fuel r2 elems1 hr⟩
          unfold set
          rw [hu]
          simp only
          rw [hc]

theorem arrayAt_cons_object (n : Bytes) (path : List Bytes) (u : Bool)
    (props : JSONConfigList) :
    arrayAt (n :: path) (.object u props) =
      match props.find n with
      | some c => arrayAt path c
      | none => none := rfl

theorem arrayAt_property (path : List Bytes) (T : PropertyType) (d : DefaultValue) (u : Bool)
    (j : JSON) : arrayAt path (.property T d u j) = none := by
  cases path <;> rfl

theorem lastNamed_cons (p : JSON → Option JSONList) (n name : Bytes) (v : JSON)
    (rest : JSONList) :
    (JSONList.cons name v rest).lastNamed p n =
      match rest.lastNamed p n with
      | some es => some es
      | none => if name = n then p v else none := rfl

theorem suppliedArray_cons_object (n : Bytes) (path : List Bytes) (ms : JSONList) :
    suppliedArray (n :: path) (.object ms) = ms.lastNamed (fun v => suppliedArray path v) n :=
  rfl

theorem suppliedArray_cons_other (n : Bytes) (path : List Bytes) (v : JSON)
    (h : ∀ ms, v ≠ .object ms) : suppliedArray (n :: path) v = none := by
  cases v <;> first | rfl | exact absurd rfl (h _)

theorem suppliedArray_nil_other (v : JSON) (h : ∀ es, v ≠ .array es) :
    suppliedArray [] v = none := by
  cases v <;> first | rfl | exact absurd rfl (h _)

/-- What `update` does to an array it is called on. -/
theorem update_arrays_array (v : JSON) (t : Bool) (d0 : DefaultValue) (entry0 : JSONConfig)
    (u0 : Bool) (elems0 : JSONConfigList) (r : Bool) (c' : JSONConfig)
    (h : update v t (.array d0 entry0 u0 elems0) = some (r, c')) (path : List Bytes)
    (d : DefaultValue) (entry : JSONConfig) (u : Bool) (elems : JSONConfigList)
    (hp : arrayAt path (.array d0 entry0 u0 elems0) = some (d, entry, u, elems)) :
    ∃ u' elems', arrayAt path c' = some (d, entry, u', elems') ∧
      ArrayUpdated t entry (suppliedArray path v) u elems u' elems' := by
  cases path with
  | cons n path => cases hp
  | nil =>
    cases hp
    by_cases hv : ∃ es, v = .array es
    · obtain ⟨es, hv⟩ := hv
      subst hv
      rw [update_array] at h
      cases hm : updateElements es t entry0 .nil false with
      | none => rw [hm] at h; simp at h
      | some p =>
        obtain ⟨r0, elems'⟩ := p
        rw [hm] at h
        simp only [Option.some.injEq, Prod.mk.injEq] at h
        rw [← h.2]
        exact ⟨true, elems', rfl, rfl, r0, hm⟩
    · have hv' : ∀ es, v ≠ .array es := fun es e => hv ⟨es, e⟩
      rw [update_array_other v t d0 entry0 u0 elems0 hv'] at h
      cases t
      · simp only [Bool.false_eq_true, if_false, Option.some.injEq, Prod.mk.injEq] at h
        rw [← h.2, suppliedArray_nil_other v hv']
        exact ⟨u0, elems0, rfl, rfl, rfl⟩
      · simp at h

/-- An object given a value that is not an object keeps its arrays as they are. -/
theorem update_arrays_object_other (v : JSON) (t : Bool) (u0 : Bool) (props : JSONConfigList)
    (r : Bool) (c' : JSONConfig) (hv : ∀ ms, v ≠ .object ms)
    (h : update v t (.object u0 props) = some (r, c')) (path : List Bytes)
    (d : DefaultValue) (entry : JSONConfig) (u : Bool) (elems : JSONConfigList)
    (hp : arrayAt path (.object u0 props) = some (d, entry, u, elems)) :
    ∃ u' elems', arrayAt path c' = some (d, entry, u', elems') ∧
      ArrayUpdated t entry (suppliedArray path v) u elems u' elems' := by
  rw [update_object_other v t u0 props hv] at h
  cases t
  · simp only [Bool.false_eq_true, if_false, Option.some.injEq, Prod.mk.injEq] at h
    rw [← h.2]
    cases path with
    | nil => cases hp
    | cons n path =>
      rw [suppliedArray_cons_other n path v hv]
      exact ⟨u, elems, hp, rfl, rfl⟩
  · simp at h

mutual
/-- What `update` does to the arrays reached through objects: an array takes the elements of
the last array that the value holds under its names, and is left as it was when the value
holds none. -/
theorem update_arrays : ∀ (v : JSON) (t : Bool) (c : JSONConfig) (r : Bool) (c' : JSONConfig),
    update v t c = some (r, c') →
    ∀ (path : List Bytes) (d : DefaultValue) (entry : JSONConfig) (u : Bool)
      (elems : JSONConfigList),
      arrayAt path c = some (d, entry, u, elems) →
      ∃ u' elems', arrayAt path c' = some (d, entry, u', elems') ∧
        ArrayUpdated t entry (suppliedArray path v) u elems u' elems'
  | v, t, .property T0 d0 u0 j0, r, c', _, path, d, entry, u, elems, hp => by
    rw [arrayAt_property] at hp
    cases hp
  | v, t, .array d0 entry0 u0 elems0, r, c', h, path, d, entry, u, elems, hp =>
    update_arrays_array v t d0 entry0 u0 elems0 r c' h path d entry u elems hp
  | .object ms, t, .object u0 props, r, c', h, path, d, entry, u, elems, hp => by
    rw [update_object] at h
    cases hm : updateMembers ms t props false with
    | none => rw [hm] at h; simp at h
    | some p =>
      obtain ⟨r0, props'⟩ := p
      rw [hm] at h
      simp only [Option.some.injEq, Prod.mk.injEq] at h
      rw [← h.2]
      cases path with
      | nil => cases hp
      | cons n path =>
        rw [arrayAt_cons_object] at hp
        cases hf : props.find n with
        | none => rw [hf] at hp; cases hp
        | some ch =>
          rw [hf] at hp
          simp only at hp
          obtain ⟨ch', h1, h2⟩ := updateMembers_arrays ms t props false r0 props' hm n ch hf
          obtain ⟨u', elems', h3, h4⟩ := h2 path d entry u elems hp
          refine ⟨u', elems', ?_, ?_⟩
          · rw [arrayAt_cons_object, h1]
            exact h3
          · rw [suppliedArray_cons_object]
            exact h4
  | .null, t, .object u0 props, r, c', h, path, d, entry, u, elems, hp =>
    update_arrays_object_other _ t u0 props r c' (fun _ e => by cases e) h path d entry u elems
      hp
  | .boolean _, t, .object u0 props, r, c', h, path, d, entry, u, elems, hp =>
    update_arrays_object_other _ t u0 props r c' (fun _ e => by cases e) h path d entry u elems
      hp
  | .integer _, t, .object u0 props, r, c', h, path, d, entry, u, elems, hp =>
    update_arrays_object_other _ t u0 props r c' (fun _ e => by cases e) h path d entry u elems
      hp
  | .double _, t, .object u0 props, r, c', h, path, d, entry, u, elems, hp =>
    update_arrays_object_other _ t u0 props r c' (fun _ e => by cases e) h path d entry u elems
      hp
  | .string _, t, .object u0 props, r, c', h, path, d, entry, u, elems, hp =>
    update_arrays_object_other _ t u0 props r c' (fun _ e => by cases e) h path d entry u elems
      hp
  | .array _, t, .object u0 props, r, c', h, path, d, entry, u, elems, hp =>
    update_arrays_object_other _ t u0 props r c' (fun _ e => by cases e) h path d entry u elems
      hp
/-- What the loop of `Object::update` does to the arrays below the child `n`: an array takes
the elements of the last array that a member named `n` holds under its names. -/
theorem updateMembers_arrays : ∀ (ms : JSONList) (t : Bool) (props : JSONConfigList)
    (res r : Bool) (props' : JSONConfigList),
    updateMembers ms t props res = some (r, props') →
    ∀ (n : Bytes) (ch : JSONConfig), props.find n = some ch →
      ∃ ch', props'.find n = some ch' ∧
        ∀ (path : List Bytes) (d : DefaultValue) (entry : JSONConfig) (u : Bool)
          (elems : JSONConfigList),
          arrayAt path ch = some (d, entry, u, elems) →
          ∃ u' elems', arrayAt path ch' = some (d, entry, u', elems') ∧
            ArrayUpdated t entry (ms.lastNamed (fun v => suppliedArray path v) n) u elems u'
              elems'
  | .nil, t, props, res, r, props', h, n, ch, hf => by
    rw [updateMembers_nil] at h
    simp only [Option.some.injEq, Prod.mk.injEq] at h
    rw [← h.2]
    refine ⟨ch, hf, ?_⟩
    intro path d entry u elems hp
    exact ⟨u, elems, hp, rfl, rfl⟩
  | .cons name val rest, t, props, res, r, props', h, n, ch, hf => by
    rw [updateMembers_cons] at h
    cases hfn : props.find name with
    | none =>
      rw [hfn] at h
      cases t
      · simp only [Bool.false_eq_true, if_false] at h
        obtain ⟨ch', h1, h2⟩ := updateMembers_arrays rest false props res r props' h n ch hf
        refine ⟨ch', h1, ?_⟩
        intro path d entry u elems hp
        have hne : ¬ name = n := by
          intro e
          rw [e, hf] at hfn
          cases hfn
        obtain ⟨u', elems', h3, h4⟩ := h2 path d entry u elems hp
        refine ⟨u', elems', h3, ?_⟩
        rw [lastNamed_cons, if_neg hne]
        cases hl : rest.lastNamed (fun v => suppliedArray path v) n with
        | none => rw [hl] at h4; exact h4
        | some es => rw [hl] at h4; exact h4
      · simp at h
    | some child =>
      rw [hfn] at h
      simp only at h
      cases hu : update val t child with
      | none => rw [hu] at h; simp at h
      | some p =>
        obtain ⟨r1, child'⟩ := p
        rw [hu] at h
        simp only at h
        by_cases hn : n = name
        · have hch : ch = child := by
            rw [hn, hfn] at hf
            exact (Option.some.inj hf).symm
          have hf1 : (props.replace name child').find n = some child' := by
            rw [find_replace, if_pos hn, hfn]
            rfl
          obtain ⟨ch', h1, h2⟩ :=
            updateMembers_arrays rest t _ _ r props' h n child' hf1
          refine ⟨ch', h1, ?_⟩
          intro path d entry u elems hp
          rw [hch] at hp
          obtain ⟨u1, elems1, h3, h4⟩ :=
            update_arrays val t child r1 child' hu path d entry u elems hp
          obtain ⟨u', elems', h5, h6⟩ := h2 path d entry u1 elems1 h3
          refine ⟨u', elems', h5, ?_⟩
          rw [lastNamed_cons, if_pos hn.symm]
          cases hl : rest.lastNamed (fun v => suppliedArray path v) n with
          | some es => rw [hl] at h6; exact h6
          | none =>
            rw [hl] at h6
            have h7 : u' = u1 ∧ elems' = elems1 := h6
            rw [h7.1, h7.2]
            exact h4
        · have hf1 : (props.replace name child').find n = some ch := by
            rw [find_replace, if_neg hn, hf]
          obtain ⟨ch', h1, h2⟩ := updateMembers_arrays rest t _ _ r props' h n ch hf1
          refine ⟨ch', h1, ?_⟩
          intro path d entry u elems hp
          have hne : ¬ name = n := fun e => hn e.symm
          obtain ⟨u', elems', h3, h4⟩ := h2 path d entry u elems hp
          refine ⟨u', elems', h3, ?_⟩
          rw [lastNamed_cons, if_neg hne]
          cases hl : rest.lastNamed (fun v => suppliedArray path v) n with
          | none => rw [hl] at h4; exact h4
          | some es => rw [hl] at h4; exact h4
end

/-- What `Array::fillMissingValues` does to the array it is called on. -/
theorem fillMissingValues_array_result (fuel : Nat) (d : DefaultValue) (entry : JSONConfig)
    (u : Bool) (elems : JSONConfigList) (r : Bool) (c' : JSONConfig)
    (h : fillMissingValues (fuel + 1) (.array d entry u elems) = some (r, c')) :
    ∃ u' elems', c' = .array d entry u' elems' ∧ ArrayFilled d entry u elems u' elems' := by
  rw [fillMissingValues_array] at h
  cases u with
  | true =>
    simp only [if_true] at h
    cases hl : fillList fuel elems with
    | none => rw [hl] at h; cases h
    | some p =>
      obtain ⟨r2, elems2⟩ := p
      rw [hl] at h
      simp only [Option.some.injEq, Prod.mk.injEq] at h
      refine ⟨true || r2, elems2, h.2.symm, ?_, ?_⟩
      · intro _
        exact ⟨rfl, fuel, r2, hl⟩
      · intro e
        cases e
  | false =>
    simp only [Bool.false_eq_true, if_false] at h
    by_cases hv : ∃ es, defaultValue d = .array es
    · obtain ⟨es, hv⟩ := hv
      rw [hv, update_array] at h
      cases hm : updateElements es true entry .nil false with
      | none => rw [hm] at h; simp at h
      | some p =>
        obtain ⟨r0, elems1⟩ := p
        rw [hm] at h
        simp only at h
        obtain ⟨new, hn1, hn2⟩ := updateElements_elements es true entry .nil false r0 elems1 hm
        have hn3 : elems1 = new := hn1
        rw [← hn3] at hn2
        cases hfun : isFunction d with
        | true =>
          rw [hfun] at h
          simp only [if_true] at h
          cases hl : fillList fuel elems1 with
          | none => rw [hl] at h; cases h
          | some q =>
            obtain ⟨r2, elems2⟩ := q
            rw [hl] at h
            simp only [Option.some.injEq, Prod.mk.injEq] at h
            refine ⟨true || r2, elems2, h.2.symm, ?_, ?_⟩
            · intro e
              cases e
            · intro _
              exact ⟨es, hv, fillList_elements es true entry elems1 hn2 fuel r2 elems2 hl,
                fun _ => rfl⟩
        | false =>
          rw [hfun] at h
          simp only [Bool.false_eq_true, if_false, setUpdated] at h
          cases hl : fillList fuel elems1 with
          | none => rw [hl] at h; cases h
          | some q =>
            obtain ⟨r2, elems2⟩ := q
            rw [hl] at h
            simp only [Option.some.injEq, Prod.mk.injEq] at h
            refine ⟨false || r2, elems2, h.2.symm, ?_, ?_⟩
            · intro e
              cases e
            · intro _
              exact ⟨es, hv, fillList_elements es true entry elems1 hn2 fuel r2 elems2 hl,
                fun e => by rw [hfun] at e; cases e⟩
    · have hv' : ∀ es, defaultValue d ≠ .array es := fun es e => hv ⟨es, e⟩
      rw [update_array_other _ true d entry false elems hv'] at h
      simp at h

/-- What `fillMissingValues` does to the arrays reached through objects, and what the loop
over the children of an object does to the arrays below each child. -/
theorem fill_arrays (fuel : Nat) :
    (∀ (c : JSONConfig) (r : Bool) (c' : JSONConfig),
      fillMissingValues fuel c = some (r, c') →
      ∀ (path : List Bytes) (d : DefaultValue) (entry : JSONConfig) (u : Bool)
        (elems : JSONConfigList),
        arrayAt path c = some (d, entry, u, elems) →
        ∃ u' elems', arrayAt path c' = some (d, entry, u', elems') ∧
          ArrayFilled d entry u elems u' elems') ∧
    (∀ (props : JSONConfigList) (r : Bool) (props' : JSONConfigList),
      fillList fuel props = some (r, props') →
      ∀ (n : Bytes) (ch : JSONConfig), props.find n = some ch →
        ∃ ch', props'.find n = some ch' ∧
          ∀ (path : List Bytes) (d : DefaultValue) (entry : JSONConfig) (u : Bool)
            (elems : JSONConfigList),
            arrayAt path ch = some (d, entry, u, elems) →
            ∃ u' elems', arrayAt path ch' = some (d, entry, u', elems') ∧
              ArrayFilled d entry u elems u' elems') := by
  induction fuel with
  | zero =>
    constructor
    · intro c r c' h
      cases h
    · intro props r props' h
      cases h
  | succ fuel ih =>
    obtain ⟨ihF, ihL⟩ := ih
    constructor
    · intro c r c' h path d entry u elems hp
      cases c with
      | property T0 d0 u0 j0 =>
        rw [arrayAt_property] at hp
        cases hp
      | array d0 entry0 u0 elems0 =>
        cases path with
        | cons n path => cases hp
        | nil =>
          cases hp
          obtain ⟨u', elems', h1, h2⟩ := fillMissingValues_array_result fuel _ _ _ _ r c' h
          rw [h1]
          exact ⟨u', elems', rfl, h2⟩
      | object u0 props =>
        rw [fillMissingValues_object] at h
        cases hl : fillList fuel props with
        | none => rw [hl] at h; cases h
        | some p =>
          obtain ⟨result, props'⟩ := p
          rw [hl] at h
          simp only [Option.some.injEq, Prod.mk.injEq] at h
          rw [← h.2]
          cases path with
          | nil => cases hp
          | cons n path =>
            rw [arrayAt_cons_object] at hp
            cases hf : props.find n with
            | none => rw [hf] at hp; cases hp
            | some ch =>
              rw [hf] at hp
              simp only at hp
              obtain ⟨ch', h1, h2⟩ := ihL props result props' hl n ch hf
              obtain ⟨u', elems', h3, h4⟩ := h2 path d entry u elems hp
              refine ⟨u', elems', ?_, h4⟩
              rw [arrayAt_cons_object, h1]
              exact h3
    · intro props r props' h n ch hf
      cases props with
      | nil => cases hf
      | cons m c rest =>
        rw [fillList_cons] at h
        cases hc : fillMissingValues fuel c with
        | none => rw [hc] at h; cases h
        | some p =>
          obtain ⟨r1, c1⟩ := p
          rw [hc] at h
          simp only at h
          cases hr : fillList fuel rest with
          | none => rw [hr] at h; cases h
          | some q =>
            obtain ⟨r2, rest'⟩ := q
            rw [hr] at h
            simp only [Option.some.injEq, Prod.mk.injEq] at h
            rw [← h.2]
            rw [find_cons] at hf ⊢
            by_cases hm : m = n
            · rw [if_pos hm] at hf ⊢
              cases hf
              exact ⟨c1, rfl, ihF _ r1 c1 hc⟩
            · rw [if_neg hm] at hf ⊢
              exact ihL rest r2 rest' hr n ch hf

/-- More fuel does not change what `fillMissingValues` and its loop return. -/
theorem fill_fuel (fuel : Nat) :
    (∀ (c : JSONConfig) (x : Bool × JSONConfig),
      fillMissingValues fuel c = some x → fillMissingValues (fuel + 1) c = some x) ∧
    (∀ (l : JSONConfigList) (x : Bool × JSONConfigList),
      fillList fuel l = some x → fillList (fuel + 1) l = some x) := by
  induction fuel with
  | zero =>
    constructor
    · intro c x h
      cases h
    · intro l x h
      cases h
  | succ fuel ih =>
    obtain ⟨ihF, ihL⟩ := ih
    constructor
    · intro c x h
      cases c with
      | property T d u j =>
        rw [fillMissingValues_property] at h ⊢
        exact h
      | object u props =>
        rw [fillMissingValues_object] at h ⊢
        cases hl : fillList fuel props with
        | none => rw [hl] at h; cases h
        | some p =>
          rw [hl] at h
          rw [ihL props p hl]
          exact h
      | array d entry u elems =>
        rw [fillMissingValues_array] at h ⊢
        generalize (if u = true then some (false, JSONConfig.array d entry u elems)
          else
            match update (defaultValue d) true (.array d entry u elems) with
            | none => none
            | some (_, c) =>
              if isFunction d = true then some (true, c)
              else some (false, c.setUpdated false)) = S at h ⊢
        cases S with
        | none => cases h
        | some p =>
          obtain ⟨res, c1⟩ := p
          cases c1 with
          | property T1 d1 u1 j1 => cases h
          | object u1 props1 => cases h
          | array d1 entry1 u1 elems1 =>
            simp only at h ⊢
            cases hl : fillList fuel elems1 with
            | none => rw [hl] at h; cases h
            | some q =>
              rw [hl] at h
              rw [ihL elems1 q hl]
              exact h
    · intro l x h
      cases l with
      | nil =>
        rw [fillList_nil] at h ⊢
        exact h
      | cons m c rest =>
        rw [fillList_cons] at h ⊢
        cases hc : fillMissingValues fuel c with
        | none => rw [hc] at h; cases h
        | some p =>
          rw [hc] at h
          rw [ihF c p hc]
          simp only at h ⊢
          cases hr : fillList fuel rest with
          | none => rw [hr] at h; cases h
          | some q =>
            rw [hr] at h
            rw [ihL rest q hr]
            exact h

/-- More fuel does not change what `set` returns. -/
theorem set_fuel (fuel : Nat) (v : JSON) (t : Bool) (c c' : JSONConfig)
    (h : set fuel v t c = some c') : ∀ k, set (fuel + k) v t c = some c'
  | 0 => h
  | k + 1 => by
    have h1 := set_fuel fuel v t c c' h k
    unfold set at h1 ⊢
    cases hu : update v t c with
    | none => rw [hu] at h1; cases h1
    | some p =>
      obtain ⟨r, c1⟩ := p
      rw [hu] at h1
      simp only at h1 ⊢
      cases hf : fillMissingValues (fuel + k) c1 with
      | none => rw [hf] at h1; cases h1
      | some q =>
        rw [hf] at h1
        rw [show fuel + (k + 1) = fuel + k + 1 from rfl, (fill_fuel (fuel + k)).1 c1 q hf]
        exact h1

/-- What `set` does to a property reached through objects. -/
theorem set_properties (fuel : Nat) (v : JSON) (t : Bool) (c c' : JSONConfig)
    (h : set fuel v t c = some c') (path : List Bytes) (T : PropertyType) (d : DefaultValue)
    (u : Bool) (j : JSON) (hp : propertyAt path c = some (T, d, u, j)) :
    ∃ j', propertyAt path c' = some (T, d, (u || suppliedAt T path v) || isFunction d, j') ∧
      ((u || suppliedAt T path v) = false → j' = defaultValue d) ∧
      (u = true → suppliedAt T path v = false → j' = j) := by
  unfold set at h
  cases hu : update v t c with
  | none => rw [hu] at h; cases h
  | some p =>
    obtain ⟨r, c1⟩ := p
    rw [hu] at h
    simp only at h
    cases hf : fillMissingValues fuel c1 with
    | none => rw [hf] at h; cases h
    | some q =>
      obtain ⟨r2, c2⟩ := q
      rw [hf] at h
      simp only [Option.some.injEq] at h
      rw [← h]
      obtain ⟨j1, h1, h2⟩ := update_flags v t c r c1 hu path T d u j hp
      have h3 := (fill_flags fuel).1 c1 r2 c2 hf path T d _ j1 h1
      refine ⟨_, h3, ?_, ?_⟩
      · intro e
        rw [e]
        rfl
      · intro e1 e2
        rw [e1, e2, h2 e2]
        rfl

/-- What `set` does to an array reached through objects. -/
theorem set_arrays (fuel : Nat) (v : JSON) (t : Bool) (c c' : JSONConfig)
    (h : set fuel v t c = some c') (path : List Bytes) (d : DefaultValue) (entry : JSONConfig)
    (u : Bool) (elems : JSONConfigList) (hp : arrayAt path c = some (d, entry, u, elems)) :
    ∃ u' elems', arrayAt path c' = some (d, entry, u', elems') ∧
      (∀ es, suppliedArray path v = some es → u' = true ∧ ElementsSet t entry es elems') ∧
      (suppliedArray path v = none → ArrayFilled d entry u elems u' elems') := by
  unfold set at h
  cases hu : update v t c with
  | none => rw [hu] at h; cases h
  | some p =>
    obtain ⟨r, c1⟩ := p
    rw [hu] at h
    simp only at h
    cases hf : fillMissingValues fuel c1 with
    | none => rw [hf] at h; cases h
    | some q =>
      obtain ⟨r2, c2⟩ := q
      rw [hf] at h
      simp only [Option.some.injEq] at h
      rw [← h]
      obtain ⟨u1, elems1, h1, h2⟩ := update_arrays v t c r c1 hu path d entry u elems hp
      obtain ⟨u', elems', h3, h4⟩ := (fill_arrays fuel).1 c1 r2 c2 hf path d entry u1 elems1 h1
      refine ⟨u', elems', h3, ?_, ?_⟩
      · intro es hs
        rw [hs] at h2
        have h5 : u1 = true ∧ ∃ r, updateElements es t entry .nil false = some (r, elems1) :=
          h2
        obtain ⟨h6, r0, h7⟩ := h5
        obtain ⟨h8, f, r3, h9⟩ := h4.1 h6
        obtain ⟨new, hn1, hn2⟩ := updateElements_elements es t entry .nil false r0 elems1 h7
        have hn3 : elems1 = new := hn1
        rw [← hn3] at hn2
        exact ⟨h8, fillList_elements es t entry elems1 hn2 f r3 elems' h9⟩
      · intro hs
        rw [hs] at h2
        have h5 : u1 = u ∧ elems1 = elems := h2
        rw [h5.1, h5.2] at h4
        exact h4

/-- After `set` every property of the tree whose flag is clear, inside arrays as well, holds
its own default value, and that default is a static JSON. -/
theorem set_every (fuel : Nat) (v : JSON) (t : Bool) (c c' : JSONConfig)
    (h : set fuel v t c = some c') :
    EveryProperty (fun _ d u j => u = false → isFunction d = false ∧ j = defaultValue d) c' := by
  unfold set at h
  cases hu : update v t c with
  | none => rw [hu] at h; cases h
  | some p =>
    obtain ⟨r, c1⟩ := p
    rw [hu] at h
    simp only at h
    cases hf : fillMissingValues fuel c1 with
    | none => rw [hf] at h; cases h
    | some q =>
      obtain ⟨r2, c2⟩ := q
      rw [hf] at h
      simp only [Option.some.injEq] at h
      rw [← h]
      exact (fill_every fuel).1 c1 r2 c2 hf

/-- C25, as amended: the flags after `set` and after `fillMissingValues`, whenever the call
returns. A property reached through objects has `updated()` true after `set` exactly when it
was updated before, or the JSON given to `set` holds a value of its type under its names, or
its default is a function; when the flag is false the property holds its static default, and
an updated property that is given no value keeps its value. After `fillMissingValues` alone
the flag is true exactly when it was true before or the default is a function. An array
reached through objects that the JSON gives an array is marked updated and its elements are,
in order, what `set` with the same error handler makes of a new element for each element of
the last such array, so that all of this holds again inside each element with the element of
the user as the value; an array that is given none and is not updated takes in the same way
the elements of its own default value, so that a property inside such an element is marked
updated when the default of the array holds a value for it; an updated array that is given
none has each of its elements filled. Everywhere in the tree, inside arrays as well, a
property whose flag is false holds its own static default. `Property::fillMissingValues`
returns true exactly when the property was not updated and its default is a function, leaves
an updated property untouched and returns false; `update` with a value of the type of the
property marks it updated. More fuel changes no result. -/
theorem fillMissingValues_flags :
    (∀ (fuel : Nat) (v : JSON) (t : Bool) (c c' : JSONConfig), set fuel v t c = some c' →
        ∀ (path : List Bytes) (T : PropertyType) (d : DefaultValue) (u : Bool) (j : JSON),
          propertyAt path c = some (T, d, u, j) →
          ∃ j', propertyAt path c' =
              some (T, d, (u || suppliedAt T path v) || isFunction d, j') ∧
            ((u || suppliedAt T path v) = false → j' = defaultValue d) ∧
            (u = true → suppliedAt T path v = false → j' = j)) ∧
      (∀ (fuel : Nat) (c : JSONConfig) (r : Bool) (c' : JSONConfig),
        fillMissingValues fuel c = some (r, c') →
        ∀ (path : List Bytes) (T : PropertyType) (d : DefaultValue) (u : Bool) (j : JSON),
          propertyAt path c = some (T, d, u, j) →
          propertyAt path c' =
            some (T, d, u || isFunction d, if u then j else defaultValue d)) ∧
      (∀ (fuel : Nat) (v : JSON) (t : Bool) (c c' : JSONConfig), set fuel v t c = some c' →
        ∀ (path : List Bytes) (d : DefaultValue) (entry : JSONConfig) (u : Bool)
          (elems : JSONConfigList),
          arrayAt path c = some (d, entry, u, elems) →
          ∃ u' elems', arrayAt path c' = some (d, entry, u', elems') ∧
            (∀ es, suppliedArray path v = some es →
              u' = true ∧ ElementsSet t entry es elems') ∧
            (suppliedArray path v = none → u = false →
              ∃ es, defaultValue d = .array es ∧ ElementsSet true entry es elems' ∧
                (isFunction d = true → u' = true)) ∧
            (suppliedArray path v = none → u = true →
              u' = true ∧ ∃ f r, fillList f elems = some (r, elems'))) ∧
      (∀ (fuel : Nat) (c : JSONConfig) (r : Bool) (c' : JSONConfig),
        fillMissingValues fuel c = some (r, c') →
        ∀ (path : List Bytes) (d : DefaultValue) (entry : JSONConfig) (u : Bool)
          (elems : JSONConfigList),
          arrayAt path c = some (d, entry, u, elems) →
          ∃ u' elems', arrayAt path c' = some (d, entry, u', elems') ∧
            (u = false →
              ∃ es, defaultValue d = .array es ∧ ElementsSet true entry es elems' ∧
                (isFunction d = true → u' = true)) ∧
            (u = true → u' = true ∧ ∃ f r, fillList f elems = some (r, elems'))) ∧
      (∀ (fuel : Nat) (v : JSON) (t : Bool) (c c' : JSONConfig), set fuel v t c = some c' →
        EveryProperty
          (fun _ d u j => u = false → isFunction d = false ∧ j = defaultValue d) c') ∧
      (∀ (fuel : Nat) (c : JSONConfig) (r : Bool) (c' : JSONConfig),
        fillMissingValues fuel c = some (r, c') →
        EveryProperty
          (fun _ d u j => u = false → isFunction d = false ∧ j = defaultValue d) c') ∧
      (∀ (fuel : Nat) (T : PropertyType) (d : DefaultValue) (u : Bool) (j : JSON) (r : Bool)
        (c' : JSONConfig), fillMissingValues (fuel + 1) (.property T d u j) = some (r, c') →
        c' = .property T d (u || isFunction d) (if u then j else defaultValue d) ∧
          r = (!u && isFunction d)) ∧
      (∀ (fuel : Nat) (T : PropertyType) (d : DefaultValue) (j : JSON),
        fillMissingValues (fuel + 1) (.property T d true j) =
          some (false, .property T d true j)) ∧
      (∀ (fuel : Nat) (T : PropertyType) (r j : JSON), FromJSON T r = true →
        fillMissingValues (fuel + 1) (.property T (.function r) false j) =
          some (true, .property T (.function r) true r)) ∧
      (∀ (fuel : Nat) (T : PropertyType) (r j : JSON), FromJSON T r = true →
        fillMissingValues (fuel + 1) (.property T (.json r) false j) =
          some (false, .property T (.json r) false r)) ∧
      (∀ (t : Bool) (T : PropertyType) (d : DefaultValue) (u : Bool) (v j : JSON),
        FromJSON T v = true →
        update v t (.property T d u j) = some (false, .property T d true v)) ∧
      (∀ (fuel : Nat) (v : JSON) (t : Bool) (c c' : JSONConfig), set fuel v t c = some c' →
        ∀ k, set (fuel + k) v t c = some c') ∧
      (∀ (fuel : Nat) (c : JSONConfig) (x : Bool × JSONConfig),
        fillMissingValues fuel c = some x → fillMissingValues (fuel + 1) c = some x) := by
  refine ⟨set_properties, fun fuel => (fill_flags fuel).1, ?_, ?_, set_every,
    fun fuel => (fill_every fuel).1, fillMissingValues_property_result, fun _ _ _ _ => rfl,
    ?_, ?_, ?_, set_fuel, fun fuel => (fill_fuel fuel).1⟩
  · intro fuel v t c c' h path d entry u elems hp
    obtain ⟨u', elems', h1, h2, h3⟩ := set_arrays fuel v t c c' h path d entry u elems hp
    exact ⟨u', elems', h1, h2, (fun hs hu => (h3 hs).2 hu), (fun hs hu => (h3 hs).1 hu)⟩
  · intro fuel c r c' h path d entry u elems hp
    obtain ⟨u', elems', h1, h2⟩ := (fill_arrays fuel).1 c r c' h path d entry u elems hp
    exact ⟨u', elems', h1, h2.2, h2.1⟩
  · intro fuel T r j h
    simp [fillMissingValues, update_property, h, defaultValue, isFunction]
  · intro fuel T r j h
    simp [fillMissingValues, update_property, h, defaultValue, isFunction, setUpdated]
  · intro t T d u v j h
    rw [update_property, if_pos h]

/-- C25, an instance: the object with the `int` properties `a` (static default 0), `b` (function
default 7) and `c` (static default 1) and the array `arr` of objects with the `int` property
`x` (static default 0) is set from the JSON that gives `a` the value 2 and `arr` the elements
`{"x": 5}` and `{}`. Then `a` and `b` are updated, `c` is not and holds 1, the elements of `arr`
are what `set` makes of a new element with the two elements of the user, and every property
whose flag is false holds its own static default. -/
theorem fillMissingValues_flags_witness :
    ∃ c' elems',
      set 16
          (.object
            (.cons [0x61] (.integer 2)
              (.cons [0x61, 0x72, 0x72]
                (.array
                  (.cons [] (.object (.cons [0x78] (.integer 5) .nil))
                    (.cons [] (.object .nil) .nil)))
                .nil)))
          true
          (.object false
            (.cons [0x61] (.property .int (.json (.integer 0)) false (.object .nil))
              (.cons [0x62] (.property .int (.function (.integer 7)) false (.object .nil))
                (.cons [0x63] (.property .int (.json (.integer 1)) false (.object .nil))
                  (.cons [0x61, 0x72, 0x72]
                    (.array (.json (.array .nil))
                      (.object false
                        (.cons [0x78]
                          (.property .int (.json (.integer 0)) false (.object .nil)) .nil))
                      false .nil)
                    .nil))))) = some c' ∧
        (∃ j', propertyAt [[0x61]] c' = some (.int, .json (.integer 0), true, j')) ∧
        (∃ j', propertyAt [[0x62]] c' = some (.int, .function (.integer 7), true, j')) ∧
        propertyAt [[0x63]] c' = some (.int, .json (.integer 1), false, .integer 1) ∧
        arrayAt [[0x61, 0x72, 0x72]] c' =
          some (.json (.array .nil),
            .object false
              (.cons [0x78] (.property .int (.json (.integer 0)) false (.object .nil)) .nil),
            true, elems') ∧
        ElementsSet true
          (.object false
            (.cons [0x78] (.property .int (.json (.integer 0)) false (.object .nil)) .nil))
          (.cons [] (.object (.cons [0x78] (.integer 5) .nil)) (.cons [] (.object .nil) .nil))
          elems' ∧
        EveryProperty
          (fun _ d u j => u = false → isFunction d = false ∧ j = defaultValue d) c' := by
  have h : set 16
      (.object
        (.cons [0x61] (.integer 2)
          (.cons [0x61, 0x72, 0x72]
            (.array
              (.cons [] (.object (.cons [0x78] (.integer 5) .nil))
                (.cons [] (.object .nil) .nil)))
            .nil)))
      true
      (.object false
        (.cons [0x61] (.property .int (.json (.integer 0)) false (.object .nil))
          (.cons [0x62] (.property .int (.function (.integer 7)) false (.object .nil))
            (.cons [0x63] (.property .int (.json (.integer 1)) false (.object .nil))
              (.cons [0x61, 0x72, 0x72]
                (.array (.json (.array .nil))
                  (.object false
                    (.cons [0x78]
                      (.property .int (.json (.integer 0)) false (.object .nil)) .nil))
                  false .nil)
                .nil))))) =
      some
        (.object true
          (.cons [0x61] (.property .int (.json (.integer 0)) true (.integer 2))
            (.cons [0x62] (.property .int (.function (.integer 7)) true (.integer 7))
              (.cons [0x63] (.property .int (.json (.integer 1)) false (.integer 1))
                (.cons [0x61, 0x72, 0x72]
                  (.array (.json (.array .nil))
                    (.object false
                      (.cons [0x78]
                        (.property .int (.json (.integer 0)) false (.object .nil)) .nil))
                    true
                    (.cons []
                      (.object true
                        (.cons [0x78] (.property .int (.json (.integer 0)) true (.integer 5))
                          .nil))
                      (.cons []
                        (.object true
                          (.cons [0x78]
                            (.property .int (.json (.integer 0)) false (.integer 0)) .nil))
                        .nil)))
                  .nil))))) := rfl
  obtain ⟨ja, ha, -, -⟩ :=
    fillMissingValues_flags.1 _ _ _ _ _ h [[0x61]] .int (.json (.integer 0)) false
      (.object .nil) rfl
  obtain ⟨jb, hb, -, -⟩ :=
    fillMissingValues_flags.1 _ _ _ _ _ h [[0x62]] .int (.function (.integer 7)) false
      (.object .nil) rfl
  obtain ⟨jc, hc, hc2, -⟩ :=
    fillMissingValues_flags.1 _ _ _ _ _ h [[0x63]] .int (.json (.integer 1)) false
      (.object .nil) rfl
  obtain ⟨u', elems', harr, hsup, -, -⟩ :=
    fillMissingValues_flags.2.2.1 _ _ _ _ _ h [[0x61, 0x72, 0x72]] (.json (.array .nil))
      (.object false
        (.cons [0x78] (.property .int (.json (.integer 0)) false (.object .nil)) .nil))
      false .nil rfl
  have hu' := hsup _ rfl
  rw [hu'.1] at harr
  have hjc : jc = .integer 1 := hc2 rfl
  rw [hjc] at hc
  exact ⟨_, elems', h, ⟨ja, ha⟩, ⟨jb, hb⟩, hc, harr, hu'.2,
    fillMissingValues_flags.2.2.2.2.1 _ _ _ _ _ h⟩

/-- C25, the counterexample: the root object holds the array `arr` with the static default of
one element giving `x` the value 5, the elements being objects with the `int` property `x` of
static default 0. After `set` with the empty JSON object, which supplies no value, the array
is not updated and the property `x` of its element holds 5 with `updated()` true, though the
user supplied no value for it and neither its default nor that of the array is a function. -/
theorem fillMissingValues_flags_counterexample :
    (∀ k : Nat,
        set (k + 8) (.object .nil) true
            (.object false
              (.cons [0x61, 0x72, 0x72]
                (.array
                  (.json (.array (.cons [] (.object (.cons [0x78] (.integer 5) .nil)) .nil)))
                  (.object false
                    (.cons [0x78] (.property .int (.json (.integer 0)) false (.object .nil))
                      .nil))
                  false .nil)
                .nil)) =
          some
            (.object true
              (.cons [0x61, 0x72, 0x72]
                (.array
                  (.json (.array (.cons [] (.object (.cons [0x78] (.integer 5) .nil)) .nil)))
                  (.object false
                    (.cons [0x78] (.property .int (.json (.integer 0)) false (.object .nil))
                      .nil))
                  false
                  (.cons []
                    (.object true
                      (.cons [0x78] (.property .int (.json (.integer 0)) true (.integer 5))
                        .nil))
                    .nil))
                .nil))) ∧
      propertyAt [[0x78]]
          (.object true
            (.cons [0x78] (.property .int (.json (.integer 0)) true (.integer 5)) .nil)) =
        some (.int, .json (.integer 0), true, .integer 5) ∧
      isFunction (.json (.integer 0)) = false ∧
      isFunction
          (.json (.array (.cons [] (.object (.cons [0x78] (.integer 5) .nil)) .nil))) =
        false ∧
      (∀ (T : PropertyType) (path : List Bytes), suppliedAt T path (.object .nil) = false) :=
  ⟨fun _ => rfl, rfl, rfl, rfl, fun T path => by cases path <;> cases T <;> rfl⟩

end JSONConfig

/-! ## Theorems: responses and their assertions -/

namespace PTYBase

/-- C31: the assertions of `result()` and `nack()` never fail on the paths of `send(response)`
and of `Response::writeTo`: for every response, in particular every one built by `Accept` or
`Deny`, both functions return without a failed assertion, because `result()` is reached only
when `valid()` holds and `nack()` only when it does not. The guards matter: `result()` on a
denied response and `nack()` on an accepted one would fail their assertions. -/
theorem sendResponse_asserts {T : Type} [Sequence.Derived T] (pty : PTYBase)
    (r : Sequence.Response T) (v : T) (req : Sequence) (reason : Bytes) :
    ((pty.sendResponse r).isSome = true ∧ r.writeTo.isSome = true) ∧
      (if r.valid then r.result.isSome = true ∧ r.nack = none
       else r.nack.isSome = true ∧ r.result = none) ∧
      ((pty.sendResponse (Sequence.Response.Accept v)).isSome = true ∧
        (Sequence.Response.Accept v).writeTo.isSome = true ∧
        (Sequence.Response.Accept v).valid = true ∧
        (Sequence.Response.Accept v).result = some v) ∧
      ((pty.sendResponse (Sequence.Response.Deny req reason : Sequence.Response T)).isSome =
          true ∧
        (Sequence.Response.Deny req reason : Sequence.Response T).writeTo.isSome = true ∧
        (Sequence.Response.Deny req reason : Sequence.Response T).valid = false ∧
        (Sequence.Response.Deny req reason : Sequence.Response T).nack =
          some (Sequence.Nack.ofRequest req reason)) := by
  refine ⟨?_, ?_, ⟨rfl, rfl, rfl, rfl⟩, ⟨rfl, rfl, rfl, rfl⟩⟩
  · obtain ⟨alt⟩ := r
    cases alt with
    | inl n => exact ⟨rfl, rfl⟩
    | inr w => exact ⟨rfl, rfl⟩
  · obtain ⟨alt⟩ := r
    cases alt with
    | inl n => exact ⟨rfl, rfl⟩
    | inr w => exact ⟨rfl, rfl⟩

end PTYBase

/-! ## Theorems: size hints -/

namespace Layout

theorem ofRaw_percent (p : Nat) (hp : p ≤ 100) : SizeHint.ofRaw p = { raw_ := p } := by
  unfold SizeHint.ofRaw
  rw [Nat.mod_eq_of_lt (by omega)]

/-- The percentage branch of `calculateDimension` when the product fits the 32-bit
`unsigned`. -/
theorem calculateDimension_percentage (p a : Nat) (currentSize autoSize : Int)
    (hp : p ≤ 100) (hfit : a * p < 2 ^ 32) :
    calculateDimension (SizeHint.ofRaw p) currentSize autoSize (a : Int) =
      some ((a * p / 100 : Nat) : Int) := by
  rw [ofRaw_percent p hp]
  have h1 : (SizeHint.mk p).eq SizeHint.Manual = false := by
    simp [SizeHint.eq, SizeHint.Manual, SizeHint.ofRaw, SizeHint.MANUAL]
    omega
  have h2 : (SizeHint.mk p).eq SizeHint.AutoSize = false := by
    simp [SizeHint.eq, SizeHint.AutoSize, SizeHint.ofRaw, SizeHint.AUTOSIZE]
    omega
  have h3 : (SizeHint.mk p).eq SizeHint.AutoLayout = false := by
    simp [SizeHint.eq, SizeHint.AutoLayout, SizeHint.ofRaw, SizeHint.AUTOLAYOUT]
    omega
  have h4 : (SizeHint.mk p).percentage = some p := by
    simp [SizeHint.percentage, hp]
  have h5 : (((a : Int) % 2 ^ 32).toNat * p) % 2 ^ 32 = a * p := by
    have e : ((a : Int) % 2 ^ 32).toNat = a % 2 ^ 32 := by
      have : ((a : Int) % 2 ^ 32) = ((a % 2 ^ 32 : Nat) : Int) := by
        push_cast
        rfl
      rw [this, Int.toNat_ofNat]
    rw [e, Nat.mod_mul_mod, Nat.mod_eq_of_lt hfit]
  unfold calculateDimension
  simp only [h1, h2, h3, h4, Bool.or_self, Bool.false_eq_true, if_false, h5]
  rw [OSCSequence.wrapInt32_of_fits (a * p / 100) (by omega)]

/-- C32, as amended: `calculateDimension` returns `currentSize` for the `Manual` and `AutoSize`
hints and `autoSize` for the `AutoLayout` hint; for `Percentage(p)` with `p` in 0..100 and a
non-negative `availableSize` whose product with `p` is below `2^32` it returns
`availableSize * p / 100` rounded down. The four kinds of hint are pairwise distinguishable:
`Percentage(p)` never compares equal to `Manual`, `AutoLayout` or `AutoSize`, these three
differ from each other, and `Percentage(p).percentage() = p`. -/
theorem calculateDimension_dispatch (currentSize autoSize availableSize : Int) :
    (calculateDimension SizeHint.Manual currentSize autoSize availableSize = some currentSize ∧
      calculateDimension SizeHint.AutoSize currentSize autoSize availableSize =
        some currentSize ∧
      calculateDimension SizeHint.AutoLayout currentSize autoSize availableSize =
        some autoSize) ∧
      (∀ p : Nat, p ≤ 100 →
        ∃ h, SizeHint.Percentage p = some h ∧ h.percentage = some p ∧
          h.eq SizeHint.Manual = false ∧ h.eq SizeHint.AutoLayout = false ∧
          h.eq SizeHint.AutoSize = false ∧
          ∀ a : Nat, a * p < 2 ^ 32 →
            calculateDimension h currentSize autoSize (a : Int) =
              some ((a * p / 100 : Nat) : Int)) ∧
      (SizeHint.Manual.eq SizeHint.AutoLayout = false ∧
        SizeHint.Manual.eq SizeHint.AutoSize = false ∧
        SizeHint.AutoLayout.eq SizeHint.AutoSize = false) := by
  refine ⟨⟨rfl, rfl, rfl⟩, ?_, ⟨rfl, rfl, rfl⟩⟩
  intro p hp
  refine ⟨SizeHint.ofRaw p, by simp [SizeHint.Percentage, hp], ?_, ?_, ?_, ?_, ?_⟩
  · rw [ofRaw_percent p hp]
    simp [SizeHint.percentage, hp]
  · rw [ofRaw_percent p hp]
    simp [SizeHint.eq, SizeHint.Manual, SizeHint.ofRaw, SizeHint.MANUAL]
    omega
  · rw [ofRaw_percent p hp]
    simp [SizeHint.eq, SizeHint.AutoLayout, SizeHint.ofRaw, SizeHint.AUTOLAYOUT]
    omega
  · rw [ofRaw_percent p hp]
    simp [SizeHint.eq, SizeHint.AutoSize, SizeHint.ofRaw, SizeHint.AUTOSIZE]
    omega
  · intro a ha
    exact calculateDimension_percentage p a currentSize autoSize hp ha

/-- Witness for C32: the sizes 24, 30 and 80 and the hint `Percentage(50)`, which gives 40. -/
theorem calculateDimension_dispatch_witness :
    calculateDimension SizeHint.Manual 24 30 80 = some 24 ∧
      calculateDimension SizeHint.AutoLayout 24 30 80 = some 30 ∧
      ∃ h, SizeHint.Percentage 50 = some h ∧ h.percentage = some 50 ∧
        h.eq SizeHint.Manual = false ∧ h.eq SizeHint.AutoLayout = false ∧
        h.eq SizeHint.AutoSize = false ∧
        ∀ a : Nat, a * 50 < 2 ^ 32 →
          calculateDimension h 24 30 (a : Int) = some ((a * 50 / 100 : Nat) : Int) :=
  ⟨(calculateDimension_dispatch 24 30 80).1.1, (calculateDimension_dispatch 24 30 80).1.2.2,
    (calculateDimension_dispatch 24 30 80).2.1 50 (by decide)⟩

/-- C32 fails as stated: for `Percentage(50)` and the available size `2147483647` the product
wraps in the 32-bit `unsigned` and the function returns `42949672`, which is not the half
`1073741823` of the available size. -/
theorem calculateDimension_dispatch_counterexample :
    SizeHint.Percentage 50 = some (SizeHint.ofRaw 50) ∧
      calculateDimension (SizeHint.ofRaw 50) 24 30 2147483647 = some 42949672 ∧
      (2147483647 * 50 / 100 : Nat) = 1073741823 ∧
      calculateDimension (SizeHint.ofRaw 50) 24 30 2147483647 ≠
        some ((2147483647 * 50 / 100 : Nat) : Int) := by
  refine ⟨rfl, by decide, by decide, by decide⟩

/-- C33, as amended: for every `p` in 0..100 and every non-negative `int` `availableSize` whose
product with `p` is below `2^32`, `calculateDimension(Percentage(p), ...)` is the exact value
of `availableSize * p / 100` rounded down; it lies between 0 and `availableSize`,
`Percentage(100)` yields `availableSize` and `Percentage(0)` yields 0. -/
theorem calculateDimension_exact (p a : Nat) (currentSize autoSize : Int) (hp : p ≤ 100)
    (hfit : a * p < 2 ^ 32) :
    ∃ h, SizeHint.Percentage p = some h ∧
      calculateDimension h currentSize autoSize (a : Int) = some ((a * p / 100 : Nat) : Int) ∧
      a * p / 100 ≤ a ∧ (p = 100 → a * p / 100 = a) ∧ (p = 0 → a * p / 100 = 0) := by
  refine ⟨SizeHint.ofRaw p, by simp [SizeHint.Percentage, hp],
    calculateDimension_percentage p a currentSize autoSize hp hfit, ?_, ?_, ?_⟩
  · apply Nat.div_le_of_le_mul
    calc a * p ≤ a * 100 := Nat.mul_le_mul_left a hp
      _ = 100 * a := Nat.mul_comm a 100
  · intro h100
    rw [h100]
    exact Nat.mul_div_cancel a (by decide)
  · intro h0
    rw [h0]
    simp

/-- Witness for C33: the hint `Percentage(33)` and the available size 80, which give 26. -/
theorem calculateDimension_exact_witness :
    ∃ h, SizeHint.Percentage 33 = some h ∧
      calculateDimension h 24 30 ((80 : Nat) : Int) = some ((80 * 33 / 100 : Nat) : Int) ∧
      80 * 33 / 100 ≤ 80 ∧ ((33 : Nat) = 100 → 80 * 33 / 100 = 80) ∧
      ((33 : Nat) = 0 → 80 * 33 / 100 = 0) :=
  calculateDimension_exact 33 80 24 30 (by decide) (by decide)

/-- C33 fails as stated: for `Percentage(100)` and the non-negative `int` `42949673` the
product `4294967300` wraps to 4 in the 32-bit `unsigned` and the function returns 0, not the
available size. -/
theorem calculateDimension_exact_counterexample :
    (42949673 : Nat) < 2 ^ 31 ∧
      SizeHint.Percentage 100 = some (SizeHint.ofRaw 100) ∧
      calculateDimension (SizeHint.ofRaw 100) 24 30 ((42949673 : Nat) : Int) = some 0 ∧
      (42949673 * 100 / 100 : Nat) = 42949673 ∧
      calculateDimension (SizeHint.ofRaw 100) 24 30 ((42949673 : Nat) : Int) ≠
        some ((42949673 * 100 / 100 : Nat) : Int) := by
  refine ⟨by decide, rfl, by decide, by decide, by decide⟩

end Layout

/-! ## Theorems: splitting -/

theorem intercalate_singleton (d p : Bytes) : d.intercalate [p] = p := by
  simp [List.intercalate]

theorem intercalate_cons_cons (d p q : Bytes) (ps : List Bytes) :
    d.intercalate (p :: q :: ps) = p ++ d ++ d.intercalate (q :: ps) := by
  simp [List.intercalate]

theorem findFrom_cons (d : Bytes) (c : Byte) (rest : Bytes) :
    findFrom d (c :: rest) =
      if (c :: rest).take d.length = d then some 0
      else
        match findFrom d rest with
        | none => none
        | some k => some (k + 1) := rfl

/-- What `find` returns is the offset of an occurrence of the delimiter. -/
theorem findFrom_some (d : Bytes) (x : Bytes) : ∀ k, findFrom d x = some k →
    x.take k ++ d ++ x.drop (k + d.length) = x := by
  induction x with
  | nil =>
    intro k h
    unfold findFrom at h
    split at h
    · rename_i hd
      simp [hd]
    · cases h
  | cons c rest ih =>
    intro k h
    rw [findFrom_cons] at h
    by_cases hp : (c :: rest).take d.length = d
    · rw [if_pos hp] at h
      cases h
      rw [List.take_zero, List.nil_append, Nat.zero_add]
      nth_rewrite 1 [← hp]
      exact List.take_append_drop _ _
    · rw [if_neg hp] at h
      cases hf : findFrom d rest with
      | none => rw [hf] at h; cases h
      | some k' =>
        rw [hf] at h
        cases h
        have e : k' + 1 + d.length = (k' + d.length) + 1 := by omega
        rw [e, List.take_succ_cons, List.drop_succ_cons, List.cons_append, List.cons_append,
          ih k' hf]

theorem splitLoop_nil (d : Bytes) (fuel : Nat) (result : List Bytes) :
    splitLoop d fuel [] result = some result := by
  cases fuel <;> rfl

theorem splitLoop_succ_cons (d : Bytes) (fuel : Nat) (c : Byte) (rest : Bytes)
    (result : List Bytes) :
    splitLoop d (fuel + 1) (c :: rest) result =
      splitLoop d fuel
        ((c :: rest).drop ((findFrom d (c :: rest)).getD (c :: rest).length + d.length))
        (result ++ [(c :: rest).take ((findFrom d (c :: rest)).getD (c :: rest).length)]) :=
  rfl

/-- The position of the scan strictly increases in an iteration: fewer bytes remain. -/
theorem split_advances (d x : Bytes) (hd : d ≠ []) (hx : x ≠ []) (next : Nat) :
    (x.drop (next + d.length)).length < x.length := by
  have h1 : 0 < d.length := List.length_pos.mpr hd
  have h2 : 0 < x.length := List.length_pos.mpr hx
  rw [List.length_drop]
  omega

/-- The loop of `Split` with a non-empty delimiter and enough fuel: it returns, appending at
most as many pieces as bytes remain; unless no byte remains it appends at least one piece,
and the pieces joined with the delimiter are the remaining bytes, or these without a
delimiter that ends them. -/
theorem splitLoop_spec (d : Bytes) (hd : d ≠ []) : ∀ (fuel : Nat) (x : Bytes)
    (result : List Bytes), x.length ≤ fuel →
    ∃ ps, splitLoop d fuel x result = some (result ++ ps) ∧ ps.length ≤ x.length ∧
      (x = [] → ps = []) ∧
      (x ≠ [] → ps ≠ [] ∧ (d.intercalate ps = x ∨ d.intercalate ps ++ d = x)) := by
  intro fuel
  induction fuel with
  | zero =>
    intro x result hx
    have : x = [] := List.length_eq_zero.mp (by omega)
    subst this
    exact ⟨[], by simp [splitLoop_nil], by simp, fun _ => rfl, fun h => absurd rfl h⟩
  | succ fuel ih =>
    intro x result hx
    cases x with
    | nil => exact ⟨[], by simp [splitLoop_nil], by simp, fun _ => rfl, fun h => absurd rfl h⟩
    | cons c rest =>
      rw [splitLoop_succ_cons]
      have hadv := split_advances d (c :: rest) hd (by simp)
        ((findFrom d (c :: rest)).getD (c :: rest).length)
      obtain ⟨ps, h1, h2, h3, h4⟩ := ih
        ((c :: rest).drop ((findFrom d (c :: rest)).getD (c :: rest).length + d.length))
        (result ++ [(c :: rest).take ((findFrom d (c :: rest)).getD (c :: rest).length)])
        (by omega)
      refine ⟨(c :: rest).take ((findFrom d (c :: rest)).getD (c :: rest).length) :: ps,
        (by rw [h1]; simp), Nat.succ_le_of_lt (Nat.lt_of_le_of_lt h2 hadv),
        (fun h => by cases h), (fun _ => ⟨(by simp), ?_⟩)⟩
      cases hf : findFrom d (c :: rest) with
      | none =>
        rw [hf] at h3
        simp only [Option.getD_none] at h3 ⊢
        have hnil : (c :: rest).drop ((c :: rest).length + d.length) = [] :=
          List.drop_eq_nil_of_le (by omega)
        rw [h3 hnil, List.take_length, intercalate_singleton]
        exact Or.inl rfl
      | some k =>
        rw [hf] at h3 h4
        simp only [Option.getD_some] at h3 h4 ⊢
        have hsplit := findFrom_some d (c :: rest) k hf
        by_cases hrest : (c :: rest).drop (k + d.length) = []
        · rw [h3 hrest, intercalate_singleton]
          right
          rw [hrest, List.append_nil] at hsplit
          exact hsplit
        · obtain ⟨hne, hj⟩ := h4 hrest
          obtain ⟨q, qs, hq⟩ := List.exists_cons_of_ne_nil hne
          rw [hq, intercalate_cons_cons, ← hq]
          rcases hj with hj | hj
          · left
            rw [hj]
            exact hsplit
          · right
            rw [List.append_assoc, hj]
            exact hsplit

/-- The loop of `SplitAndTrim` returns the pieces of the loop of `Split`, trimmed. -/
theorem splitAndTrimLoop_eq (d : Bytes) : ∀ (fuel : Nat) (x : Bytes) (result : List Bytes),
    splitAndTrimLoop d fuel x (result.map Trim) =
      (splitLoop d fuel x result).map (List.map Trim) := by
  intro fuel
  induction fuel with
  | zero =>
    intro x result
    cases x <;> rfl
  | succ fuel ih =>
    intro x result
    cases x with
    | nil => rfl
    | cons c rest =>
      rw [splitLoop_succ_cons, ← ih, List.map_append]
      rfl

/-- The loop of `Split` with an empty delimiter never ends: no fuel suffices. -/
theorem splitLoop_empty_delimiter (c : Byte) (rest : Bytes) : ∀ (fuel : Nat)
    (result : List Bytes), splitLoop [] fuel (c :: rest) result = none := by
  intro fuel
  induction fuel with
  | zero => intro result; rfl
  | succ fuel ih =>
    intro result
    rw [splitLoop_succ_cons]
    exact ih _

/-- C34: for every string `s` and every non-empty delimiter `d`, `Split(s, d)` returns pieces
that, joined with `d` between consecutive pieces, give back `s` itself or `s` without one
occurrence of `d` at its end; and `Split` of the empty string is the empty list. -/
theorem Split_join (s d : Bytes) (hd : d ≠ []) :
    (∃ pieces, Split s d = some pieces ∧
      (d.intercalate pieces = s ∨ d.intercalate pieces ++ d = s)) ∧
      Split [] d = some [] := by
  refine ⟨?_, rfl⟩
  obtain ⟨ps, h1, _, h3, h4⟩ := splitLoop_spec d hd s.length s [] (le_refl _)
  refine ⟨ps, by simpa [Split] using h1, ?_⟩
  by_cases hs : s = []
  · rw [h3 hs, hs]
    left
    rfl
  · exact (h4 hs).2

/-- Witness for C34: `a,b,` split at `,` gives `a` and `b`, which join to `a,b`; `a,,b` gives
`a`, the empty piece and `b`. -/
theorem Split_join_witness :
    ((∃ pieces, Split [0x61, 0x2C, 0x62, 0x2C] [0x2C] = some pieces ∧
        (([0x2C] : Bytes).intercalate pieces = [0x61, 0x2C, 0x62, 0x2C] ∨
          ([0x2C] : Bytes).intercalate pieces ++ [0x2C] = [0x61, 0x2C, 0x62, 0x2C])) ∧
      Split [] [0x2C] = some []) ∧
      Split [0x61, 0x2C, 0x62, 0x2C] [0x2C] = some [[0x61], [0x62]] ∧
      Split [0x61, 0x2C, 0x2C, 0x62] [0x2C] = some [[0x61], [], [0x62]] :=
  ⟨Split_join [0x61, 0x2C, 0x62, 0x2C] [0x2C] (by decide), by decide, by decide⟩

/-- C35: for every string `s` and every non-empty delimiter, `Split` and `SplitAndTrim`
terminate: in every iteration the scan position moves forward, so that fewer bytes remain,
the loop ends within `len(s)` iterations, and at most `len(s)` pieces are returned. -/
theorem Split_terminates (s d : Bytes) (hd : d ≠ []) :
    (∃ pieces, Split s d = some pieces ∧ pieces.length ≤ s.length) ∧
      (∃ pieces, SplitAndTrim s d = some pieces ∧ pieces.length ≤ s.length) ∧
      (∀ (x : Bytes) (next : Nat), x ≠ [] →
        (x.drop (next + d.length)).length < x.length) := by
  obtain ⟨ps, h1, h2, _, _⟩ := splitLoop_spec d hd s.length s [] (le_refl _)
  have hsplit : Split s d = some ps := by simpa [Split] using h1
  refine ⟨⟨ps, hsplit, h2⟩, ⟨ps.map Trim, ?_, by simpa using h2⟩,
    fun x next hx => split_advances d x hd hx next⟩
  have := splitAndTrimLoop_eq d s.length s []
  unfold SplitAndTrim
  rw [List.map_nil] at this
  rw [this]
  unfold Split at hsplit
  rw [hsplit]
  rfl

/-- Witness for C35: `a , b,c` split at `,` gives three pieces from seven bytes, with either
function. -/
theorem Split_terminates_witness :
    ((∃ pieces, Split [0x61, 0x20, 0x2C, 0x20, 0x62, 0x2C, 0x63] [0x2C] = some pieces ∧
        pieces.length ≤ ([0x61, 0x20, 0x2C, 0x20, 0x62, 0x2C, 0x63] : Bytes).length) ∧
      (∃ pieces, SplitAndTrim [0x61, 0x20, 0x2C, 0x20, 0x62, 0x2C, 0x63] [0x2C] =
          some pieces ∧
        pieces.length ≤ ([0x61, 0x20, 0x2C, 0x20, 0x62, 0x2C, 0x63] : Bytes).length) ∧
      (∀ (x : Bytes) (next : Nat), x ≠ [] →
        (x.drop (next + ([0x2C] : Bytes).length)).length < x.length)) ∧
      Split [0x61, 0x20, 0x2C, 0x20, 0x62, 0x2C, 0x63] [0x2C] =
        some [[0x61, 0x20], [0x20, 0x62], [0x63]] :=
  ⟨Split_terminates [0x61, 0x20, 0x2C, 0x20, 0x62, 0x2C, 0x63] [0x2C] (by decide), by decide⟩

/-! ## Theorems: URL encoding -/

theorem UrlEncode_cons (h : Int → Byte) (c : Byte) (rest : Bytes) :
    UrlEncode h (c :: rest) =
      (if IsDecimalDigit c || IsASCIILetter c then [c]
       else [0x25, h (charValue c / 16), h (charValue c % 16)]) ++ UrlEncode h rest := rfl

theorem charValue_low (c : Byte) (hc : c.toNat < 128) :
    charValue c / 16 = ((c.toNat / 16 : Nat) : Int) ∧
      charValue c % 16 = ((c.toNat % 16 : Nat) : Int) := by
  unfold charValue
  rw [if_pos hc]
  exact ⟨rfl, rfl⟩

theorem charValue_high (c : Byte) (hc : 128 ≤ c.toNat) :
    charValue c / 16 = ((c.toNat / 16 : Nat) : Int) - 16 ∧
      charValue c % 16 = ((c.toNat % 16 : Nat) : Int) := by
  unfold charValue
  rw [if_neg (by omega)]
  constructor <;> omega

/-- On bytes below `0x80` the function `UrlEncode` does what its specification says. -/
theorem UrlEncode_ascii (h : Int → Byte) (s : Bytes) (hs : ∀ c ∈ s, c.toNat < 128) :
    UrlEncode h s = UrlEncodeSpec h s := by
  induction s with
  | nil => rfl
  | cons c rest ih =>
    have hc : c.toNat < 128 := hs c (by simp)
    rw [UrlEncode_cons, ih (fun c' h' => hs c' (by simp [h'])), (charValue_low c hc).1,
      (charValue_low c hc).2]
    rfl

theorem byte_ofNat_toNat (v : Byte) : UInt8.ofNat v.toNat = v := by
  cases v with
  | mk val => simp [UInt8.ofNat, UInt8.toNat]

theorem letter_ne_percent (c : Byte) (hc : (IsDecimalDigit c || IsASCIILetter c) = true) :
    c ≠ 0x25 := by
  intro h
  subst h
  revert hc
  decide

theorem UrlDecodeSpec_plain (fuel : Nat) (c : Byte) (rest : Bytes) (hc : c ≠ 0x25) :
    UrlDecodeSpec (fuel + 1) (c :: rest) =
      match UrlDecodeSpec fuel rest with
      | some out => some (c :: out)
      | none => none := by
  show (if c = 0x25 then _ else _) = _
  rw [if_neg hc]

theorem UrlDecodeSpec_quoted (fuel : Nat) (h1 h2 : Byte) (rest : Bytes) (a b : Nat)
    (ha : Char.ParseHexadecimalDigit h1 = .ok a) (hb : Char.ParseHexadecimalDigit h2 = .ok b) :
    UrlDecodeSpec (fuel + 1) (0x25 :: h1 :: h2 :: rest) =
      match UrlDecodeSpec fuel rest with
      | some out => some (UInt8.ofNat (a * 16 + b) :: out)
      | none => none := by
  show (if (0x25 : Byte) = 0x25 then _ else _) = _
  rw [if_pos rfl]
  simp only [ha, hb]

/-- What the specification of `UrlEncode` writes decodes back to the input, when `ToHexDigit`
gives the hexadecimal digits of the values below 16. -/
theorem UrlDecodeSpec_UrlEncodeSpec (h : Int → Byte)
    (hh : ∀ n : Nat, n < 16 → Char.ParseHexadecimalDigit (h (n : Int)) = .ok n) (s : Bytes) :
    ∀ fuel, s.length ≤ fuel → UrlDecodeSpec fuel (UrlEncodeSpec h s) = some s := by
  induction s with
  | nil =>
    intro fuel _
    cases fuel <;> rfl
  | cons c rest ih =>
    intro fuel hf
    obtain ⟨f, rfl⟩ : ∃ f, fuel = f + 1 := ⟨fuel - 1, by simp at hf; omega⟩
    have hrest := ih f (by simp at hf; omega)
    unfold UrlEncodeSpec urlEncodeByteSpec
    by_cases hc : (IsDecimalDigit c || IsASCIILetter c) = true
    · rw [if_pos hc, List.singleton_append, UrlDecodeSpec_plain f c _ (letter_ne_percent c hc),
        hrest]
    · rw [if_neg hc]
      have hlt : c.toNat < 256 := c.val.isLt
      rw [show [(0x25 : Byte), h ((c.toNat / 16 : Nat) : Int), h ((c.toNat % 16 : Nat) : Int)] ++
          UrlEncodeSpec h rest =
        0x25 :: h ((c.toNat / 16 : Nat) : Int) :: h ((c.toNat % 16 : Nat) : Int) ::
          UrlEncodeSpec h rest from rfl,
        UrlDecodeSpec_quoted f _ _ _ _ _ (hh (c.toNat / 16) (by omega))
          (hh (c.toNat % 16) (by omega)), hrest]
      simp only
      have e : c.toNat / 16 * 16 + c.toNat % 16 = c.toNat := by omega
      rw [e, byte_ofNat_toNat]

/-- C36 on the source: for a byte of `0x80` and above, such as `0xC3`, the `char` is negative
and `UrlEncode` calls `ToHexDigit` with `c >> 4` equal to the high nibble less 16, here -4,
where the specification asks for the digit of the high nibble, here 12; the low nibble is
right. On strings of bytes below `0x80` the function does what the specification says:
letters and digits stay, every other byte becomes `%` and the digits of its two nibbles, and
the output decodes back to the input. -/
theorem UrlEncode_signed_char (h : Int → Byte) :
    (UrlEncode h [0xC3] = [0x25, h (-4), h 3] ∧ UrlEncodeSpec h [0xC3] = [0x25, h 12, h 3]) ∧
      (∀ c : Byte, 128 ≤ c.toNat →
        UrlEncode h [c] =
          [0x25, h (((c.toNat / 16 : Nat) : Int) - 16), h ((c.toNat % 16 : Nat) : Int)] ∧
        UrlEncodeSpec h [c] =
          [0x25, h ((c.toNat / 16 : Nat) : Int), h ((c.toNat % 16 : Nat) : Int)]) ∧
      (∀ s : Bytes, (∀ c ∈ s, c.toNat < 128) → UrlEncode h s = UrlEncodeSpec h s) ∧
      (∀ s : Bytes, (∀ c ∈ s, c.toNat < 128) →
        (∀ n : Nat, n < 16 → Char.ParseHexadecimalDigit (h (n : Int)) = .ok n) →
        UrlDecodeSpec (UrlEncode h s).length (UrlEncode h s) = some s) := by
  refine ⟨⟨rfl, rfl⟩, ?_, UrlEncode_ascii h, ?_⟩
  · intro c hc
    have hnot : (IsDecimalDigit c || IsASCIILetter c) = false := by
      simp only [IsDecimalDigit, IsASCIILetter, Bool.or_eq_false_iff, Bool.and_eq_false_iff,
        decide_eq_false_iff_not]
      omega
    refine ⟨?_, ?_⟩
    · rw [UrlEncode_cons, hnot, (charValue_high c hc).1, (charValue_high c hc).2]
      rfl
    · unfold UrlEncodeSpec urlEncodeByteSpec
      rw [hnot]
      rfl
  · intro s hs hh
    rw [UrlEncode_ascii h s hs]
    apply UrlDecodeSpec_UrlEncodeSpec h hh s
    have hlen : ∀ t : Bytes, t.length ≤ (UrlEncodeSpec h t).length := by
      intro t
      induction t with
      | nil => exact le_refl _
      | cons c rest ih =>
        unfold UrlEncodeSpec urlEncodeByteSpec
        split <;> simp <;> omega
    exact hlen s

/-! ## Theorems: command line keyword arguments -/

namespace CmdArgsRoot

/-- The function `updateArgument` leaves the index `i` as it is. -/
theorem updateArgument_i (upd : Nat → Bytes → Nat → Bool) (arg : Nat) (value : Bytes)
    (st st' : CmdState) (h : updateArgument upd arg value st = .ok st') : st'.i = st.i := by
  unfold updateArgument at h
  simp only at h
  split at h
  · cases h
    rfl
  · cases h

/-- The loop over the remaining entries moves the index by their number. -/
theorem consumeRest_i (upd : Nat → Bytes → Nat → Bool) (arg : Nat) (l : List Bytes) :
    ∀ st st', consumeRest upd arg l st = .ok st' → st'.i = st.i + l.length := by
  induction l with
  | nil =>
    intro st st' h
    cases h
    rfl
  | cons v rest ih =>
    intro st st' h
    unfold consumeRest at h
    cases hu : updateArgument upd arg v (next st) with
    | error e => rw [hu] at h; cases h
    | ok st1 =>
      rw [hu] at h
      have h1 := updateArgument_i upd arg v (next st) st1 hu
      have h2 := ih st1 st' h
      rw [h2, h1]
      simp only [next, List.length_cons]
      omega

theorem unknownArgument_i (root : CmdArgsRoot) (upd : Nat → Bytes → Nat → Bool)
    (value : Bytes) (st st' : CmdState) (h : unknownArgument root upd value st = .ok st') :
    st'.i = st.i + 1 := by
  unfold unknownArgument at h
  cases hd : root.defaultArgument_ with
  | none => rw [hd] at h; cases h
  | some d =>
    rw [hd] at h
    simp only at h
    cases hu : updateArgument upd d value st with
    | error e => rw [hu] at h; cases h
    | ok st1 =>
      rw [hu] at h
      cases h
      have := updateArgument_i upd d value st st1 hu
      simp [next, this]

/-- The end of an iteration moves the index forward, by one entry unless the argument is the
last argument, which takes all the entries up to `argc`. -/
theorem finishArgument_i (root : CmdArgsRoot) (upd : Nat → Bytes → Nat → Bool)
    (argv : List Bytes) (cfg : Nat) (value : Bytes) (st1 st' : CmdState)
    (h : finishArgument root upd argv cfg value st1 = .ok st') (hi : st1.i < argv.length) :
    st1.i < st'.i ∧ st'.i ≤ argv.length ∧
      (root.lastArgument_ = some cfg → st'.i = argv.length) ∧
      (root.lastArgument_ ≠ some cfg → st'.i = st1.i + 1) := by
  unfold finishArgument at h
  cases hu : updateArgument upd cfg value st1 with
  | error e => rw [hu] at h; cases h
  | ok st2 =>
    rw [hu] at h
    simp only at h
    have h2 := updateArgument_i upd cfg value st1 st2 hu
    by_cases hl : root.lastArgument_ = some cfg
    · rw [if_pos hl] at h
      have h3 := consumeRest_i upd cfg _ _ _ h
      rw [List.length_drop] at h3
      simp only [next] at h3
      refine ⟨by omega, by omega, fun _ => by omega, fun hn => absurd hl hn⟩
    · rw [if_neg hl] at h
      cases h
      simp only [next]
      refine ⟨by omega, by omega, fun hn => absurd hn hl, fun _ => by omega⟩

theorem argumentValue_i (argv : List Bytes) (arg : Nat × Option Bytes)
    (argValue : Option Bytes) (st st1 : CmdState) (value : Bytes)
    (h : argumentValue argv arg argValue st = .ok (value, st1)) (hi : st.i < argv.length) :
    st.i ≤ st1.i ∧ st1.i < argv.length := by
  unfold argumentValue at h
  cases argValue with
  | some v =>
    cases h
    exact ⟨le_refl _, hi⟩
  | none =>
    cases hd : arg.2 with
    | some d =>
      rw [hd] at h
      cases h
      exact ⟨le_refl _, hi⟩
    | none =>
      rw [hd] at h
      simp only at h
      by_cases he : st.i + 1 = argv.length
      · rw [if_pos he] at h
        cases h
      · rw [if_neg he] at h
        cases h
        simp only [next]
        omega

theorem applyArgument_i (root : CmdArgsRoot) (upd : Nat → Bytes → Nat → Bool)
    (argv : List Bytes) (arg : Nat × Option Bytes) (argValue : Option Bytes)
    (st st' : CmdState) (h : applyArgument root upd argv arg argValue st = .ok st')
    (hi : st.i < argv.length) : st.i < st'.i ∧ st'.i ≤ argv.length := by
  unfold applyArgument at h
  cases hv : argumentValue argv arg argValue st with
  | error e => rw [hv] at h; cases h
  | ok p =>
    obtain ⟨value, st1⟩ := p
    rw [hv] at h
    simp only at h
    have h1 := argumentValue_i argv arg argValue st st1 value hv hi
    have h2 := finishArgument_i root upd argv arg.1 value st1 st' h h1.2
    omega

/-- Every iteration that returns moves the index forward, and not beyond `argc`. -/
theorem keywordIteration_advances (root : CmdArgsRoot) (upd : Nat → Bytes → Nat → Bool)
    (argv : List Bytes) (st st' : CmdState) (h : keywordIteration root upd argv st = .ok st')
    (hi : st.i < argv.length) : st.i < st'.i ∧ st'.i ≤ argv.length := by
  unfold keywordIteration at h
  simp only at h
  cases hf : root.keywordArguments_.lookup (argv.getD st.i []) with
  | some arg =>
    rw [hf] at h
    exact applyArgument_i root upd argv arg none st st' h hi
  | none =>
    rw [hf] at h
    simp only at h
    cases hx : findChar 0x3D (argv.getD st.i []) with
    | none =>
      rw [hx] at h
      have := unknownArgument_i root upd _ st st' h
      omega
    | some x =>
      rw [hx] at h
      simp only at h
      cases hf2 : root.keywordArguments_.lookup ((argv.getD st.i []).take x) with
      | some arg =>
        rw [hf2] at h
        exact applyArgument_i root upd argv arg _ st st' h hi
      | none =>
        rw [hf2] at h
        have := unknownArgument_i root upd _ st st' h
        omega

/-- The loop of `parseKeywordArguments` ends within `argc - i` iterations. -/
theorem parseKeywordArguments_ends (root : CmdArgsRoot) (upd : Nat → Bytes → Nat → Bool)
    (argv : List Bytes) : ∀ (fuel : Nat) (st : CmdState), argv.length - st.i ≤ fuel →
    ∃ r, parseKeywordArguments root upd argv fuel st = some r := by
  intro fuel
  induction fuel with
  | zero =>
    intro st hf
    unfold parseKeywordArguments
    rw [if_neg (by omega)]
    exact ⟨_, rfl⟩
  | succ fuel ih =>
    intro st hf
    unfold parseKeywordArguments
    by_cases hi : st.i < argv.length
    · rw [if_pos hi]
      cases hk : keywordIteration root upd argv st with
      | error e => exact ⟨_, rfl⟩
      | ok st' =>
        have := keywordIteration_advances root upd argv st st' hk hi
        exact ih st' (by omega)
    · rw [if_neg hi]
      exact ⟨_, rfl⟩

/-- An iteration at a recognised alias without `=value` whose value is `value`, taken at the
state `st1`, for an argument that is not the last argument: the update is called with that
value and the index moves to the entry after `st1.i`. -/
theorem finishArgument_plain (root : CmdArgsRoot) (upd : Nat → Bytes → Nat → Bool)
    (argv : List Bytes) (cfg : Nat) (value : Bytes) (st1 : CmdState)
    (hl : root.lastArgument_ ≠ some cfg) :
    finishArgument root upd argv cfg value st1 =
      if upd cfg value ((st1.occurences.lookup cfg).getD 0) then
        .ok { i := st1.i + 1,
              occurences := (cfg, (st1.occurences.lookup cfg).getD 0 + 1) :: st1.occurences,
              calls := st1.calls ++ [(cfg, value, (st1.occurences.lookup cfg).getD 0)] }
      else .error CmdError.JSONError := by
  unfold finishArgument updateArgument
  simp only
  by_cases hu : upd cfg value ((st1.occurences.lookup cfg).getD 0) = true
  · rw [if_pos hu, if_pos hu]
    simp only
    rw [if_neg hl]
    rfl
  · rw [if_neg hu, if_neg hu]

theorem keywordIteration_found (root : CmdArgsRoot) (upd : Nat → Bytes → Nat → Bool)
    (argv : List Bytes) (st : CmdState) (arg : Nat × Option Bytes)
    (harg : root.keywordArguments_.lookup (argv.getD st.i []) = some arg) :
    keywordIteration root upd argv st = applyArgument root upd argv arg none st := by
  unfold keywordIteration
  simp only
  rw [harg]

theorem updateArgument_ok (upd : Nat → Bytes → Nat → Bool) (arg : Nat) (value : Bytes)
    (st : CmdState) :
    updateArgument upd arg value st =
      if upd arg value ((st.occurences.lookup arg).getD 0) then
        .ok { i := st.i,
              occurences := (arg, (st.occurences.lookup arg).getD 0 + 1) :: st.occurences,
              calls := st.calls ++ [(arg, value, (st.occurences.lookup arg).getD 0)] }
      else .error CmdError.JSONError := rfl

/-- The loop of the last argument: when it returns, it has called `cmdArgUpdate` once for every
remaining entry, in order, with the entry as the value, and every call was accepted. -/
theorem consumeRest_calls (upd : Nat → Bytes → Nat → Bool) (arg : Nat) (l : List Bytes) :
    ∀ st st', consumeRest upd arg l st = .ok st' →
      st'.i = st.i + l.length ∧
      st'.calls = st.calls ++ furtherCalls arg ((st.occurences.lookup arg).getD 0) l ∧
      ∀ c ∈ furtherCalls arg ((st.occurences.lookup arg).getD 0) l,
        upd c.1 c.2.1 c.2.2 = true := by
  induction l with
  | nil =>
    intro st st' h
    cases h
    exact ⟨rfl, by simp [furtherCalls], by simp [furtherCalls]⟩
  | cons v rest ih =>
    intro st st' h
    unfold consumeRest at h
    rw [updateArgument_ok] at h
    by_cases hu : upd arg v (((next st).occurences.lookup arg).getD 0) = true
    · rw [if_pos hu] at h
      simp only at h
      obtain ⟨h1, h2, h3⟩ := ih _ st' h
      have hl : (List.lookup arg
          ((arg, ((next st).occurences.lookup arg).getD 0 + 1) :: (next st).occurences)).getD 0 =
          (st.occurences.lookup arg).getD 0 + 1 := by
        simp [List.lookup, next]
      rw [hl] at h2 h3
      refine ⟨?_, ?_, ?_⟩
      · rw [h1]
        simp only [next, List.length_cons]
        omega
      · rw [h2]
        simp [furtherCalls, next]
      · intro c hc
        simp only [furtherCalls, List.mem_cons] at hc
        rcases hc with rfl | hc
        · exact hu
        · exact h3 c hc
    · rw [if_neg hu] at h
      cases h

/-- The loop of the last argument returns when every call is accepted. -/
theorem consumeRest_returns (upd : Nat → Bytes → Nat → Bool) (arg : Nat) (l : List Bytes) :
    ∀ st, (∀ c ∈ furtherCalls arg ((st.occurences.lookup arg).getD 0) l,
        upd c.1 c.2.1 c.2.2 = true) →
      ∃ st', consumeRest upd arg l st = .ok st' := by
  induction l with
  | nil =>
    intro st _
    exact ⟨st, rfl⟩
  | cons v rest ih =>
    intro st hall
    unfold consumeRest
    rw [updateArgument_ok]
    have hu : upd arg v (((next st).occurences.lookup arg).getD 0) = true :=
      hall (arg, v, (st.occurences.lookup arg).getD 0) (by simp [furtherCalls])
    rw [if_pos hu]
    simp only
    apply ih
    intro c hc
    apply hall c
    have hl : (List.lookup arg
        ((arg, ((next st).occurences.lookup arg).getD 0 + 1) :: (next st).occurences)).getD 0 =
        (st.occurences.lookup arg).getD 0 + 1 := by
      simp [List.lookup, next]
    rw [hl] at hc
    simp only [furtherCalls, List.mem_cons]
    exact Or.inr hc

/-- The end of an iteration for the last argument: when it returns, the index is `argc` and
the calls made are the one with the value and then one for every remaining entry, all of them
accepted; and it returns when all these calls are accepted. -/
theorem finishArgument_last (root : CmdArgsRoot) (upd : Nat → Bytes → Nat → Bool)
    (argv : List Bytes) (cfg : Nat) (value : Bytes) (st1 : CmdState)
    (hl : root.lastArgument_ = some cfg) (hi : st1.i < argv.length) :
    (∀ st', finishArgument root upd argv cfg value st1 = .ok st' →
        st'.i = argv.length ∧
        st'.calls = st1.calls ++ (cfg, value, (st1.occurences.lookup cfg).getD 0) ::
          furtherCalls cfg ((st1.occurences.lookup cfg).getD 0 + 1) (argv.drop (st1.i + 1))) ∧
      ((∃ st', finishArgument root upd argv cfg value st1 = .ok st') ↔
        ∀ c ∈ (cfg, value, (st1.occurences.lookup cfg).getD 0) ::
            furtherCalls cfg ((st1.occurences.lookup cfg).getD 0 + 1) (argv.drop (st1.i + 1)),
          upd c.1 c.2.1 c.2.2 = true) := by
  have hlk : ∀ occ : List (Nat × Nat),
      (List.lookup cfg ((cfg, (occ.lookup cfg).getD 0 + 1) :: occ)).getD 0 =
        (occ.lookup cfg).getD 0 + 1 := by
    intro occ
    simp [List.lookup]
  unfold finishArgument
  rw [updateArgument_ok]
  by_cases hu : upd cfg value ((st1.occurences.lookup cfg).getD 0) = true
  · rw [if_pos hu]
    simp only
    rw [if_pos hl]
    refine ⟨?_, ?_, ?_⟩
    · intro st' h
      obtain ⟨h1, h2, _⟩ := consumeRest_calls upd cfg _ _ st' h
      simp only [next] at h1 h2
      rw [hlk] at h2
      refine ⟨?_, ?_⟩
      · rw [h1, List.length_drop]
        omega
      · rw [h2]
        simp
    · rintro ⟨st', h⟩ c hc
      obtain ⟨_, _, h3⟩ := consumeRest_calls upd cfg _ _ st' h
      simp only [next] at h3
      rw [hlk] at h3
      simp only [List.mem_cons] at hc
      rcases hc with rfl | hc
      · exact hu
      · exact h3 c hc
    · intro hall
      apply consumeRest_returns
      intro c hc
      simp only [next] at hc
      rw [hlk] at hc
      exact hall c (List.mem_cons_of_mem _ hc)
  · rw [if_neg hu]
    refine ⟨(fun st' h => by cases h), ?_, ?_⟩
    · rintro ⟨st', h⟩
      cases h
    · intro hall
      exact absurd (hall _ (List.mem_cons_self _ _)) hu

/-- C37, as amended: in the keyword parsing, at a recognised alias given without `=value` whose
argument is not the last argument: when the alias was registered with a default value, the
argument is updated with that default and only this one entry of `argv` is consumed;
otherwise the following entry is taken in its entirety as the value and both entries are
consumed; and when there is no following entry an `ArgumentError` is raised. When the
argument is the last argument, the value is chosen in the same way and then every entry that
remains up to `argc` is consumed as a further value of the same argument, each in its
entirety, in order; the iteration returns exactly when all these updates are accepted. Every
iteration that returns, at a recognised alias or not, moves the index forward and not beyond
`argc`, so the loop ends within `argc - i` iterations. -/
theorem keywordIteration_alias (root : CmdArgsRoot) (upd : Nat → Bytes → Nat → Bool)
    (argv : List Bytes) (st : CmdState) :
    (∀ (cfg : Nat) (dflt : Option Bytes),
        root.keywordArguments_.lookup (argv.getD st.i []) = some (cfg, dflt) →
        st.i < argv.length →
        (root.lastArgument_ ≠ some cfg →
          (∀ d, dflt = some d →
            keywordIteration root upd argv st =
              if upd cfg d ((st.occurences.lookup cfg).getD 0) then
                .ok { i := st.i + 1,
                      occurences :=
                        (cfg, (st.occurences.lookup cfg).getD 0 + 1) :: st.occurences,
                      calls := st.calls ++ [(cfg, d, (st.occurences.lookup cfg).getD 0)] }
              else .error CmdError.JSONError) ∧
          (dflt = none → st.i + 1 < argv.length →
            keywordIteration root upd argv st =
              if upd cfg (argv.getD (st.i + 1) []) ((st.occurences.lookup cfg).getD 0) then
                .ok { i := st.i + 2,
                      occurences :=
                        (cfg, (st.occurences.lookup cfg).getD 0 + 1) :: st.occurences,
                      calls := st.calls ++
                        [(cfg, argv.getD (st.i + 1) [], (st.occurences.lookup cfg).getD 0)] }
              else .error CmdError.JSONError)) ∧
        (dflt = none → st.i + 1 = argv.length →
          keywordIteration root upd argv st = .error CmdError.ArgumentError) ∧
        (root.lastArgument_ = some cfg →
          (∀ d, dflt = some d →
            (∀ st', keywordIteration root upd argv st = .ok st' →
              st'.i = argv.length ∧
              st'.calls = st.calls ++ (cfg, d, (st.occurences.lookup cfg).getD 0) ::
                furtherCalls cfg ((st.occurences.lookup cfg).getD 0 + 1)
                  (argv.drop (st.i + 1))) ∧
            ((∃ st', keywordIteration root upd argv st = .ok st') ↔
              ∀ c ∈ (cfg, d, (st.occurences.lookup cfg).getD 0) ::
                  furtherCalls cfg ((st.occurences.lookup cfg).getD 0 + 1)
                    (argv.drop (st.i + 1)),
                upd c.1 c.2.1 c.2.2 = true)) ∧
          (dflt = none → st.i + 1 < argv.length →
            (∀ st', keywordIteration root upd argv st = .ok st' →
              st'.i = argv.length ∧
              st'.calls = st.calls ++
                (cfg, argv.getD (st.i + 1) [], (st.occurences.lookup cfg).getD 0) ::
                furtherCalls cfg ((st.occurences.lookup cfg).getD 0 + 1)
                  (argv.drop (st.i + 2))) ∧
            ((∃ st', keywordIteration root upd argv st = .ok st') ↔
              ∀ c ∈ (cfg, argv.getD (st.i + 1) [], (st.occurences.lookup cfg).getD 0) ::
                  furtherCalls cfg ((st.occurences.lookup cfg).getD 0 + 1)
                    (argv.drop (st.i + 2)),
                upd c.1 c.2.1 c.2.2 = true)))) ∧
      (∀ st', st.i < argv.length → keywordIteration root upd argv st = .ok st' →
        st.i < st'.i ∧ st'.i ≤ argv.length) ∧
      (∃ r, parseKeywordArguments root upd argv (argv.length - st.i) st = some r) := by
  refine ⟨?_, fun st' hi h => keywordIteration_advances root upd argv st st' h hi,
    parseKeywordArguments_ends root upd argv _ st (le_refl _)⟩
  intro cfg dflt harg hi
  have hk := keywordIteration_found root upd argv st (cfg, dflt) harg
  refine ⟨fun hl => ⟨?_, ?_⟩, ?_, fun hl => ⟨?_, ?_⟩⟩
  · intro d hd
    subst hd
    rw [hk]
    exact finishArgument_plain root upd argv cfg d st hl
  · intro hd hnext
    subst hd
    rw [hk]
    unfold applyArgument argumentValue
    simp only
    rw [if_neg (by omega)]
    exact finishArgument_plain root upd argv cfg _ (next st) hl
  · intro hd hlast
    subst hd
    rw [hk]
    unfold applyArgument argumentValue
    simp only
    rw [if_pos hlast]
  · intro d hd
    subst hd
    rw [hk]
    exact finishArgument_last root upd argv cfg d st hl hi
  · intro hd hnext
    subst hd
    rw [hk]
    unfold applyArgument argumentValue
    simp only
    rw [if_neg (by omega)]
    exact finishArgument_last root upd argv cfg _ (next st) hl hnext

/-- Witness for C37: the aliases `-v`, registered with the default `1`, and `-n`, registered
without one, and the command line `p -v -n 5`: at `-v` one entry is consumed and the default
is the value, at `-n` the entry `5` is the value and two entries are consumed, and the whole
parse ends at `argc` with these two updates. With the alias `-e` of the last argument,
registered without a default, the command line `p -e a b` gives `a` and then `b` to that
argument and ends at `argc`. -/
theorem keywordIteration_alias_witness :
    keywordIteration
        { keywordArguments_ := [([0x2D, 0x76], (0, some [0x31])), ([0x2D, 0x6E], (1, none))],
          lastArgument_ := none, defaultArgument_ := none }
        (fun _ _ _ => true) [[0x70], [0x2D, 0x76], [0x2D, 0x6E], [0x35]]
        { i := 1, occurences := [], calls := [] } =
        .ok { i := 2, occurences := [(0, 1)], calls := [(0, [0x31], 0)] } ∧
      keywordIteration
        { keywordArguments_ := [([0x2D, 0x76], (0, some [0x31])), ([0x2D, 0x6E], (1, none))],
          lastArgument_ := none, defaultArgument_ := none }
        (fun _ _ _ => true) [[0x70], [0x2D, 0x76], [0x2D, 0x6E], [0x35]]
        { i := 2, occurences := [(0, 1)], calls := [(0, [0x31], 0)] } =
        .ok { i := 4, occurences := [(1, 1), (0, 1)],
              calls := [(0, [0x31], 0), (1, [0x35], 0)] } ∧
      keywordIteration
        { keywordArguments_ := [([0x2D, 0x76], (0, some [0x31])), ([0x2D, 0x6E], (1, none))],
          lastArgument_ := none, defaultArgument_ := none }
        (fun _ _ _ => true) [[0x70], [0x2D, 0x76], [0x2D, 0x6E]]
        { i := 2, occurences := [(0, 1)], calls := [(0, [0x31], 0)] } =
        .error CmdError.ArgumentError ∧
      parseKeywordArguments
        { keywordArguments_ := [([0x2D, 0x76], (0, some [0x31])), ([0x2D, 0x6E], (1, none))],
          lastArgument_ := none, defaultArgument_ := none }
        (fun _ _ _ => true) [[0x70], [0x2D, 0x76], [0x2D, 0x6E], [0x35]] 3
        { i := 1, occurences := [], calls := [] } =
        some (.ok { i := 4, occurences := [(1, 1), (0, 1)],
                    calls := [(0, [0x31], 0), (1, [0x35], 0)] }) ∧
      (∀ st', keywordIteration
          { keywordArguments_ := [([0x2D, 0x65], (0, none))],
            lastArgument_ := some 0, defaultArgument_ := none }
          (fun _ _ _ => true) [[0x70], [0x2D, 0x65], [0x61], [0x62]]
          { i := 1, occurences := [], calls := [] } = .ok st' →
        st'.i = 4 ∧ st'.calls = [(0, [0x61], 0), (0, [0x62], 1)]) ∧
      keywordIteration
        { keywordArguments_ := [([0x2D, 0x65], (0, none))],
          lastArgument_ := some 0, defaultArgument_ := none }
        (fun _ _ _ => true) [[0x70], [0x2D, 0x65], [0x61], [0x62]]
        { i := 1, occurences := [], calls := [] } =
        .ok { i := 4, occurences := [(0, 2), (0, 1)],
              calls := [(0, [0x61], 0), (0, [0x62], 1)] } :=
  ⟨(((keywordIteration_alias
        { keywordArguments_ := [([0x2D, 0x76], (0, some [0x31])), ([0x2D, 0x6E], (1, none))],
          lastArgument_ := none, defaultArgument_ := none }
        (fun _ _ _ => true) [[0x70], [0x2D, 0x76], [0x2D, 0x6E], [0x35]]
        { i := 1, occurences := [], calls := [] }).1 0 (some [0x31]) rfl (by decide)).1
        (fun h => by cases h)).1 [0x31] rfl,
   (((keywordIteration_alias
        { keywordArguments_ := [([0x2D, 0x76], (0, some [0x31])), ([0x2D, 0x6E], (1, none))],
          lastArgument_ := none, defaultArgument_ := none }
        (fun _ _ _ => true) [[0x70], [0x2D, 0x76], [0x2D, 0x6E], [0x35]]
        { i := 2, occurences := [(0, 1)], calls := [(0, [0x31], 0)] }).1 1 none rfl
        (by decide)).1 (fun h => by cases h)).2 rfl (by decide),
   ((keywordIteration_alias
        { keywordArguments_ := [([0x2D, 0x76], (0, some [0x31])), ([0x2D, 0x6E], (1, none))],
          lastArgument_ := none, defaultArgument_ := none }
        (fun _ _ _ => true) [[0x70], [0x2D, 0x76], [0x2D, 0x6E]]
        { i := 2, occurences := [(0, 1)], calls := [(0, [0x31], 0)] }).1 1 none rfl
        (by decide)).2.1 rfl rfl,
   rfl,
   ((((keywordIteration_alias
        { keywordArguments_ := [([0x2D, 0x65], (0, none))],
          lastArgument_ := some 0, defaultArgument_ := none }
        (fun _ _ _ => true) [[0x70], [0x2D, 0x65], [0x61], [0x62]]
        { i := 1, occurences := [], calls := [] }).1 0 none rfl (by decide)).2.2 rfl).2 rfl
        (by decide)).1,
   rfl⟩

/-- C37 fails as stated: with the alias `-e` registered with the default `x` for the argument
that is the last argument, the command line `p -e a b` at `-e` consumes three entries, not
one: after the default, `a` and `b` are given to the same argument. -/
theorem keywordIteration_alias_counterexample :
    List.lookup ([0x2D, 0x65] : Bytes)
        ([([0x2D, 0x65], ((0 : Nat), some ([0x78] : Bytes)))]) = some (0, some [0x78]) ∧
      keywordIteration
        { keywordArguments_ := [([0x2D, 0x65], (0, some [0x78]))],
          lastArgument_ := some 0, defaultArgument_ := none }
        (fun _ _ _ => true) [[0x70], [0x2D, 0x65], [0x61], [0x62]]
        { i := 1, occurences := [], calls := [] } =
        .ok { i := 4, occurences := [(0, 3), (0, 2), (0, 1)],
              calls := [(0, [0x78], 0), (0, [0x61], 1), (0, [0x62], 2)] } ∧
      (4 : Nat) ≠ 1 + 1 :=
  ⟨rfl, rfl, by decide⟩

end CmdArgsRoot

end Tpp
